import Mathlib

/-!
Integrity-probe engine: exit-handler table mirror, memory-map scanner,
loaded-module list walker and descriptor cross-checker

A shallow embedding of `atexit.cpp`, `vmap.cpp`, `solist.cpp` and
`fstatfs.cpp`, followed by the properties proved about them.  Part I holds the
definitions, Part II the lemmas and theorems.
-/

set_option autoImplicit false

/-! ## Part I. Definitions -/

namespace Atexit

/-- Modelled from the spec: `AtexitEntry` is declared in `atexit.hpp`, which is
not among the sources.  The spec describes it as a function pointer plus its
fixed-arity opaque arguments; pointers are natural numbers and `0` is
`nullptr`. -/
structure AtexitEntry where
  fn : Nat
  arg : Nat
  dso : Nat
deriving DecidableEq, Repr

/-- The value-initialised entry `{}`: null function pointer, null arguments. -/
def AtexitEntry.zero : AtexitEntry := ⟨0, 0, 0⟩

/-- Constants of the target the code is compiled for: `page_size()`,
`sizeof(AtexitEntry)` and `SIZE_MAX`. -/
structure Platform where
  page_size : Nat
  entry_size : Nat
  size_max : Nat
deriving DecidableEq, Repr

/-- Modelled from the spec: `page_start` is declared outside the sources; it
rounds a byte count down to a whole number of pages. -/
def page_start (pf : Platform) (x : Nat) : Nat :=
  x / pf.page_size * pf.page_size

/-- Modelled from the spec: `page_end` is declared outside the sources; it
rounds a byte count up to a whole number of pages. -/
def page_end (pf : Platform) (x : Nat) : Nat :=
  page_start pf (x + (pf.page_size - 1))

/-- Modelled from the spec: `page_start_of_index` is declared in `atexit.hpp`,
which is not among the sources; the page-aligned byte offset at or below the
first byte of slot `idx`. -/
def page_start_of_index (pf : Platform) (idx : Nat) : Nat :=
  page_start pf (idx * pf.entry_size)

/-- Modelled from the spec: `page_end_of_index` is declared in `atexit.hpp`,
which is not among the sources; the page-aligned byte capacity needed for
`idx` entries. -/
def page_end_of_index (pf : Platform) (idx : Nat) : Nat :=
  page_end pf (idx * pf.entry_size)

/-- The five fields of `AtexitArray`.  `array_` is the base pointer (`0` is
`nullptr`) and `slots i` is the entry stored at `array_[i]`. -/
structure AtexitArray where
  array_ : Nat
  slots : Nat → AtexitEntry
  size_ : Nat
  extracted_count_ : Nat
  capacity_ : Nat
  total_appends_ : Nat

/-- The table before the first append: null array, every counter zero. -/
def AtexitArray.empty : AtexitArray :=
  { array_ := 0, slots := fun _ => AtexitEntry.zero, size_ := 0,
    extracted_count_ := 0, capacity_ := 0, total_appends_ := 0 }

/-- The assignment `array_[idx] = e`. -/
def store (slots : Nat → AtexitEntry) (idx : Nat) (e : AtexitEntry) : Nat → AtexitEntry :=
  fun j => if j = idx then e else slots j

/-- A value as a `size_t` holds it: reduced modulo `SIZE_MAX + 1`. -/
def to_size_t (pf : Platform) (x : Nat) : Nat := x % (pf.size_max + 1)

/-- Modelled from the spec: the value of `page_end_of_index(idx)` for a
run-time `idx`, computed in `size_t` as the machine does: the product
`idx * sizeof(AtexitEntry)` and the sum with `page_size - 1` inside `page_end`
are each reduced modulo `SIZE_MAX + 1`.  It agrees with `page_end_of_index`
whenever `idx * sizeof(AtexitEntry) + page_size - 1` does not exceed
`SIZE_MAX`. -/
def page_end_of_index_size_t (pf : Platform) (idx : Nat) : Nat :=
  page_start pf (to_size_t pf (to_size_t pf (idx * pf.entry_size) + (pf.page_size - 1)))

/-- The bytes of `c` entries, rounded up to a page, are computed without
wrapping: `c` is zero or `c * sizeof(AtexitEntry) + page_size - 1` does not
exceed `SIZE_MAX`. -/
def Fits (pf : Platform) (c : Nat) : Prop :=
  c = 0 ∨ c * pf.entry_size + (pf.page_size - 1) ≤ pf.size_max

/-- `AtexitArray::next_capacity`: `none` is the `false` return, `some r` is the
`true` return with `*result = r`.  `page_end_of_index(capacity)` is the
`size_t` value the machine computes, and `__builtin_mul_overflow(x, 2, _)`
reports overflow exactly when `2 * x` exceeds `SIZE_MAX`.  For `capacity == 0`
only the two constants of the target enter, and `page_end` of the entry size
is taken exact. -/
def next_capacity (pf : Platform) (capacity : Nat) : Option Nat :=
  if capacity = 0 then
    some (page_end pf pf.entry_size / pf.entry_size)
  else if pf.size_max < page_end_of_index_size_t pf capacity * 2 then
    none
  else
    some (page_end_of_index_size_t pf capacity * 2 / pf.entry_size)

/-- `AtexitArray::expand_capacity`.  `os` is the outcome of the `mmap` or
`mremap` call: `none` for `MAP_FAILED`, `some p` for the address of the new
pages.  Pages obtained from `mmap` are zero-filled; `mremap` keeps the
contents of the array.  `set_writable` only changes page protections, which
are not part of this state. -/
def expand_capacity (pf : Platform) (os : Option Nat) (s : AtexitArray) : Bool × AtexitArray :=
  match next_capacity pf s.capacity_ with
  | none => (false, s)
  | some new_capacity =>
    match os with
    | none => (false, s)
    | some new_pages =>
      if s.array_ = 0 then
        (true, { s with array_ := new_pages, slots := fun _ => AtexitEntry.zero,
                        capacity_ := new_capacity })
      else
        (true, { s with array_ := new_pages, capacity_ := new_capacity })

/-- `AtexitArray::append_entry`; `os` is the outcome of the mapping call made
if the table has to grow. -/
def append_entry (pf : Platform) (os : Option Nat) (entry : AtexitEntry) (s : AtexitArray) :
    Bool × AtexitArray :=
  let grown : Bool × AtexitArray :=
    if s.capacity_ ≤ s.size_ then expand_capacity pf os s else (true, s)
  if grown.1 = false then
    (false, grown.2)
  else
    let t := grown.2
    let idx := t.size_
    (true, { t with size_ := idx + 1, slots := store t.slots idx entry,
                    total_appends_ := t.total_appends_ + 1 })

/-- `AtexitArray::extract_entry`: the returned entry and the new table. -/
def extract_entry (idx : Nat) (s : AtexitArray) : AtexitEntry × AtexitArray :=
  (s.slots idx,
   { s with slots := store s.slots idx AtexitEntry.zero,
            extracted_count_ := s.extracted_count_ + 1 })

/-- The first loop of `recompact`: `while (src < size_ && array_[src].fn != nullptr)`
advancing `src` (and `dst`, which stays equal to it). -/
def skip_live (slots : Nat → AtexitEntry) (size : Nat) : Nat → Nat → Nat
  | 0, src => src
  | fuel + 1, src =>
    if src < size ∧ (slots src).fn ≠ 0 then skip_live slots size fuel (src + 1) else src

/-- The second loop of `recompact`: `for (; src < size_; ++src)` moving live
entries down to `dst` and zeroing the slot they came from.  Returns the final
`dst` and array contents. -/
def shift_live (size : Nat) : Nat → Nat → Nat → (Nat → AtexitEntry) → Nat × (Nat → AtexitEntry)
  | 0, _, dst, slots => (dst, slots)
  | fuel + 1, src, dst, slots =>
    if src < size then
      let entry := slots src
      let cleared := store slots src AtexitEntry.zero
      if entry.fn ≠ 0 then
        shift_live size fuel (src + 1) (dst + 1) (store cleared dst entry)
      else
        shift_live size fuel (src + 1) dst cleared
    else (dst, slots)

/-- Effect of `madvise(array_ + lo, hi - lo, MADV_DONTNEED)` on the slots:
the discarded pages read back as zero, so every slot lying inside the byte
range `[lo, hi)` becomes the zero entry. -/
def madvise_dontneed (pf : Platform) (slots : Nat → AtexitEntry) (lo hi : Nat) :
    Nat → AtexitEntry :=
  fun j => if lo ≤ j * pf.entry_size ∧ (j + 1) * pf.entry_size ≤ hi then AtexitEntry.zero
           else slots j

/-- `AtexitArray::recompact`.  The early `return` after the
`needs_recompaction()` test is commented out in the source, so the body always
runs.  Each loop runs at most `size_` times. -/
def recompact (pf : Platform) (s : AtexitArray) : AtexitArray :=
  let src := skip_live s.slots s.size_ s.size_ 0
  let shifted := shift_live s.size_ (s.size_ - src) src src s.slots
  let dst := shifted.1
  let old_bytes := page_end_of_index pf s.size_
  let new_bytes := page_end_of_index pf dst
  let slots := if new_bytes < old_bytes then madvise_dontneed pf shifted.2 new_bytes old_bytes
               else shifted.2
  { s with slots := slots, size_ := dst, extracted_count_ := 0 }

/-- The entries of slots `[0, n)` whose function pointer is non-null, in slot
order. -/
def live_entries (slots : Nat → AtexitEntry) (n : Nat) : List AtexitEntry :=
  ((List.range n).map slots).filter (fun e => decide (e.fn ≠ 0))

/-- The target used in the worked examples: 4 KiB pages, 24-byte entries,
64-bit `size_t`. -/
def example_platform : Platform := ⟨4096, 24, 2 ^ 64 - 1⟩

/-- Three live entries used in the worked examples. -/
def entryA : AtexitEntry := ⟨1, 10, 100⟩

/-- Second example entry. -/
def entryB : AtexitEntry := ⟨2, 20, 200⟩

/-- Third example entry. -/
def entryC : AtexitEntry := ⟨3, 30, 300⟩

/-- The table `[A, empty, B, empty, C]` of the recompaction example. -/
def example_table : AtexitArray :=
  { array_ := 4096,
    slots := fun j => if j = 0 then entryA else if j = 2 then entryB
                      else if j = 4 then entryC else AtexitEntry.zero,
    size_ := 5, extracted_count_ := 2, capacity_ := 170, total_appends_ := 5 }

/-- A full table whose byte capacity cannot be doubled within 64 bits. -/
def overflow_table : AtexitArray :=
  { array_ := 4096, slots := fun _ => entryA, size_ := 2 ^ 59,
    extracted_count_ := 0, capacity_ := 2 ^ 59, total_appends_ := 2 ^ 59 }

/-- One call on the table's mutation surface.  `append os entry` carries the
outcome `os` of the mapping call made if that append has to grow the table. -/
inductive Op where
  | append (os : Option Nat) (entry : AtexitEntry)
  | extract (idx : Nat)
  | recompact

/-- The table after one call. -/
def step (pf : Platform) : Op → AtexitArray → AtexitArray
  | Op.append os entry, s => (append_entry pf os entry s).2
  | Op.extract idx, s => (extract_entry idx s).2
  | Op.recompact, s => recompact pf s

/-- The table after a sequence of calls, made left to right. -/
def run (pf : Platform) : List Op → AtexitArray → AtexitArray
  | [], s => s
  | op :: ops, s => run pf ops (step pf op s)

/-- Every `extract_entry idx` in the sequence is made with `idx < size_`. -/
def extracts_in_range (pf : Platform) : List Op → AtexitArray → Bool
  | [], _ => true
  | Op.extract idx :: ops, s =>
    decide (idx < s.size_) && extracts_in_range pf ops (step pf (Op.extract idx) s)
  | op :: ops, s => extracts_in_range pf ops (step pf op s)

/-- Every `extract_entry idx` in the sequence is made with `idx < size_` on a
slot whose function pointer is non-null. -/
def extracts_live (pf : Platform) : List Op → AtexitArray → Bool
  | [], _ => true
  | Op.extract idx :: ops, s =>
    decide (idx < s.size_ ∧ (s.slots idx).fn ≠ 0) &&
      extracts_live pf ops (step pf (Op.extract idx) s)
  | op :: ops, s => extracts_live pf ops (step pf op s)

/-- A run of appends whose mapping calls all succeed: each item is the address
returned by the mapping call (if one is made) and the entry appended. -/
def appends (items : List (Nat × AtexitEntry)) : List Op :=
  items.map (fun it => Op.append (some it.1) it.2)

/-- A target whose entries (5000 bytes) are larger than a page. -/
def large_entry_platform : Platform := ⟨4096, 5000, 2 ^ 64 - 1⟩

/-- A sequence of calls with a failed growth, a successful growth, a failed
append on a full table, an extraction and a recompaction. -/
def example_ops : List Op :=
  [Op.append none entryA, Op.append (some 4096) entryA, Op.append none entryB,
   Op.extract 0, Op.recompact]

end Atexit

namespace VirtualMap

/-! ### Memory-map records and `DetectInjection` -/

/-- Modelled from the spec: `MapInfo` is declared in `vmap.hpp`, which is not
among the sources.  The fields are those the spec lists and `Scan` fills in,
in the order of its aggregate initialiser; the path is the `std::string` as a
list of characters. -/
structure MapInfo where
  start : Nat
  end_ : Nat
  perms : Nat
  is_private : Bool
  offset : Nat
  dev : Nat
  inode : Nat
  path : List Char
deriving DecidableEq, Repr

/-- `PROT_READ` of `<sys/mman.h>`. -/
def PROT_READ : Nat := 1

/-- `PROT_WRITE` of `<sys/mman.h>`. -/
def PROT_WRITE : Nat := 2

/-- `PROT_EXEC` of `<sys/mman.h>`. -/
def PROT_EXEC : Nat := 4

/-- `s.starts_with(p)` of `std::string`. -/
def starts_with (s p : List Char) : Bool := p.isPrefixOf s

/-- The string `"/"`. -/
def root_path : List Char := "/".toList

/-- The string `"/dev/zero"`. -/
def dev_zero_path : List Char := "/dev/zero".toList

/-- The path of the vdso pseudo-mapping. -/
def vdso_path : List Char := "[vdso]".toList

/-- The path of a jit-cache memfd begins with this. -/
def jit_cache_path : List Char := "/memfd:jit-cache".toList

/-- The path of a jit-zygote-cache memfd begins with this. -/
def jit_zygote_cache_path : List Char := "/memfd:jit-zygote-cache".toList

/-- The loop of `VirtualMap::DetectInjection` over the scanned mappings still
to visit.  `idx` is the position of the first of them in the scan,
`jit_cache_count` and `jit_zygote_cache_count` are the two counters, and
`stat path` is the `st_ino` reported by `stat`, or `none` when `stat` fails.
The returned pointer `&info` is given as the position of `info` in the scan;
`none` is `nullptr`. -/
def detect_loop (stat : List Char → Option Nat) :
    List MapInfo → Nat → Nat → Nat → Option Nat
  | [], _, _, _ => none
  | info :: rest, idx, jit_cache_count, jit_zygote_cache_count =>
    if info.perms &&& PROT_EXEC ≠ 0 then
      if info.path = vdso_path then
        detect_loop stat rest (idx + 1) jit_cache_count jit_zygote_cache_count
      else if ¬ starts_with info.path root_path then
        some idx
      else if starts_with info.path dev_zero_path then
        some idx
      else
        let counted : Option (Nat × Nat) :=
          if starts_with info.path jit_cache_path then
            some (jit_cache_count + 1, jit_zygote_cache_count)
          else if starts_with info.path jit_zygote_cache_path then
            some (jit_cache_count, jit_zygote_cache_count + 1)
          else
            match stat info.path with
            | none => none
            | some st_ino =>
              if st_ino ≠ info.inode then none
              else some (jit_cache_count, jit_zygote_cache_count)
        match counted with
        | none => some idx
        | some (jit, zygote) =>
          if jit > 1 ∨ zygote > 1 then some idx
          else detect_loop stat rest (idx + 1) jit zygote
    else
      detect_loop stat rest (idx + 1) jit_cache_count jit_zygote_cache_count

/-- `VirtualMap::DetectInjection` on the result `maps` of `MapInfo::Scan()`. -/
def DetectInjection (stat : List Char → Option Nat) (maps : List MapInfo) : Option Nat :=
  detect_loop stat maps 0 0 0

/-- The mapping is executable. -/
def is_executable (m : MapInfo) : Bool := decide (m.perms &&& PROT_EXEC ≠ 0)

/-- The number of executable mappings among `seen` whose path begins with
`p`. -/
def executable_with (p : List Char) (seen : List MapInfo) : Nat :=
  (seen.filter (fun m => is_executable m && starts_with m.path p)).length

/-- The rules of the spec for a mapping `m` that comes after the mappings
`seen`: `m` is executable, is not the vdso pseudo-mapping, and (a) its path
does not begin with `/`, or (b) begins with `/dev/zero`, or (c) is not a
jit-cache memfd and the inode query fails or differs from the recorded inode,
or (d) `m` is the second executable mapping whose path begins with
`/memfd:jit-cache`, or the second whose path begins with
`/memfd:jit-zygote-cache`. -/
def violates (stat : List Char → Option Nat) (seen : List MapInfo) (m : MapInfo) : Bool :=
  is_executable m && decide (m.path ≠ vdso_path) &&
    (!starts_with m.path root_path
      || starts_with m.path dev_zero_path
      || (!starts_with m.path jit_cache_path && !starts_with m.path jit_zygote_cache_path
            && (match stat m.path with
                | none => true
                | some st_ino => decide (st_ino ≠ m.inode)))
      || (starts_with m.path jit_cache_path && executable_with jit_cache_path seen == 1)
      || (starts_with m.path jit_zygote_cache_path
            && executable_with jit_zygote_cache_path seen == 1))

/-- The mapping at position `i` of the scan violates a rule, given the
mappings before it. -/
def violates_at (stat : List Char → Option Nat) (maps : List MapInfo) (i : Nat) : Bool :=
  match maps.get? i with
  | some m => violates stat (maps.take i) m
  | none => false

/-- A small scan used in the examples: a readable file mapping, the vdso, an
executable mapping with an empty path, and an executable library. -/
def example_maps : List MapInfo :=
  [ ⟨0x1000, 0x2000, 1, true, 0, 0xfd00, 42, "/system/lib64/libc.so".toList⟩,
    ⟨0x3000, 0x4000, 5, true, 0, 0, 0, "[vdso]".toList⟩,
    ⟨0x5000, 0x6000, 5, true, 0, 0, 0, []⟩,
    ⟨0x7000, 0x8000, 5, true, 0, 0xfd00, 43, "/system/lib64/libm.so".toList⟩ ]

/-- An inode query that fails for every path. -/
def stat_fails : List Char → Option Nat := fun _ => none

/-! ### `MapInfo::Scan` -/

/-- The C library's `isspace` in the C locale: space and the control
characters `\t`, `\n`, `\v`, `\f`, `\r`. -/
def isspace (c : Char) : Bool := decide (c.toNat = 32 ∨ (9 ≤ c.toNat ∧ c.toNat ≤ 13))

/-- The value of a hexadecimal digit, `none` for any other character. -/
def hex_digit (c : Char) : Option Nat :=
  if 48 ≤ c.toNat ∧ c.toNat ≤ 57 then some (c.toNat - 48)
  else if 97 ≤ c.toNat ∧ c.toNat ≤ 102 then some (c.toNat - 87)
  else if 65 ≤ c.toNat ∧ c.toNat ≤ 70 then some (c.toNat - 55)
  else none

/-- The value of a decimal digit, `none` for any other character. -/
def dec_digit (c : Char) : Option Nat :=
  if 48 ≤ c.toNat ∧ c.toNat ≤ 57 then some (c.toNat - 48) else none

/-- The digit reader of a conversion in the given base (`16` for `%x`,
`10` for `%u`). -/
def digit_of (base : Nat) (c : Char) : Option Nat :=
  if base = 16 then hex_digit c else dec_digit c

/-- A white-space directive of a `scanf` format, and the white space skipped
before a conversion: the input after its leading white space. -/
def skip_space (s : List Char) : List Char := s.dropWhile isspace

/-- The digits of a numeric conversion: reads digits as long as there are
any, accumulating the value; returns the value and the unread input. -/
def scan_digits (base : Nat) : List Char → Nat → Nat × List Char
  | [], acc => (acc, [])
  | c :: cs, acc =>
    match digit_of base c with
    | some d => scan_digits base cs (acc * base + d)
    | none => (acc, c :: cs)

/-- The input after an optional sign, and whether the sign was `-`. -/
def scan_sign (s : List Char) : Bool × List Char :=
  match s with
  | c :: t => if c = '-' then (true, t) else if c = '+' then (false, t) else (false, s)
  | [] => (false, s)

/-- The input after the optional `0x` or `0X` of a hexadecimal number; the
prefix is taken only when a hexadecimal digit follows it. -/
def scan_hex_prefix (s : List Char) : List Char :=
  match s with
  | z :: x :: h :: t =>
    if z = '0' ∧ (x = 'x' ∨ x = 'X') ∧ (hex_digit h).isSome then h :: t else s
  | _ => s

/-- The conversions `%x`, `%lx` (base 16) and `%lu` (base 10) of `sscanf`,
stored in an unsigned object of `bits` bits: white space is skipped, then an
optional sign, for base 16 an optional `0x`, and at least one digit are read.
`none` is a failed conversion; otherwise the stored value and the unread
input.  A negative or too large number is stored modulo `2 ^ bits`. -/
def scan_unsigned (base bits : Nat) (s : List Char) : Option (Nat × List Char) :=
  let signed := scan_sign (skip_space s)
  let body := if base = 16 then scan_hex_prefix signed.2 else signed.2
  match body with
  | [] => none
  | c :: _ =>
    if (digit_of base c).isNone then none
    else
      let r := scan_digits base body 0
      let v := if signed.1 then (2 ^ bits - r.1 % 2 ^ bits) % 2 ^ bits else r.1 % 2 ^ bits
      some (v, r.2)

/-- The conversion `%4s` of `sscanf` (with `width = 4`): white space is
skipped, then up to `width` characters that are not white space are read.
`none` is a failed conversion (no character to read). -/
def scan_string (width : Nat) (s : List Char) : Option (List Char × List Char) :=
  let t := skip_space s
  let word := (t.takeWhile (fun c => !isspace c)).take width
  if word = [] then none else some (word, t.drop word.length)

/-- An ordinary character of a `scanf` format: the next input character must
be that character. -/
def scan_char (c : Char) (s : List Char) : Option (List Char) :=
  match s with
  | d :: t => if d = c then some t else none
  | [] => none

/-- What the `sscanf` call of `Scan` stores when it returns `kMapEntry`. -/
structure ScannedLine where
  start : Nat
  end_ : Nat
  perm : List Char
  off : Nat
  dev_major : Nat
  dev_minor : Nat
  inode : Nat
  rest : List Char
deriving DecidableEq, Repr

/-- The call `sscanf(line, "%lx-%lx %4s %lx %x:%x %lu %n%*s", ...)` of `Scan`
on a 64-bit target: `some` of the seven stored values, with the input from
offset `path_off` on, when the call returns `kMapEntry = 7`, and `none` when
it returns anything else.  `%n` and `%*s` store nothing that is counted. -/
def sscanf_maps_line (line : List Char) : Option ScannedLine :=
  match scan_unsigned 16 64 line with
  | none => none
  | some (start, s1) =>
  match scan_char '-' s1 with
  | none => none
  | some s2 =>
  match scan_unsigned 16 64 s2 with
  | none => none
  | some (end_, s3) =>
  match scan_string 4 (skip_space s3) with
  | none => none
  | some (perm, s4) =>
  match scan_unsigned 16 64 (skip_space s4) with
  | none => none
  | some (off, s5) =>
  match scan_unsigned 16 32 (skip_space s5) with
  | none => none
  | some (dev_major, s6) =>
  match scan_char ':' s6 with
  | none => none
  | some s7 =>
  match scan_unsigned 16 32 s7 with
  | none => none
  | some (dev_minor, s8) =>
  match scan_unsigned 10 64 (skip_space s8) with
  | none => none
  | some (inode, s9) =>
    some ⟨start, end_, perm, off, dev_major, dev_minor, inode, skip_space s9⟩

/-- `makedev` of `<sys/sysmacros.h>`. -/
def makedev (dev_major dev_minor : Nat) : Nat :=
  ((dev_major &&& 0xfffff000) <<< 32) ||| ((dev_major &&& 0xfff) <<< 8) |||
  ((dev_minor &&& 0xffffff00) <<< 12) ||| (dev_minor &&& 0xff)

/-- The element `perm[i]` of the zero-initialised `std::array<char, 5>` after
`%4s` has stored the characters `perm` in it. -/
def perm_at (perm : List Char) (i : Nat) : Char := perm.getD i '\x00'

/-- The `MapInfo` that `Scan` appends for a line on which `sscanf` returned
`kMapEntry`: the `emplace_back` and the three `perms |=` updates. -/
def make_info (f : ScannedLine) : MapInfo :=
  let ref : MapInfo :=
    ⟨f.start, f.end_, 0, decide (perm_at f.perm 3 = 'p'), f.off,
     makedev f.dev_major f.dev_minor, f.inode, skip_space f.rest⟩
  let ref := if perm_at f.perm 0 = 'r' then { ref with perms := ref.perms ||| PROT_READ } else ref
  let ref := if perm_at f.perm 1 = 'w' then { ref with perms := ref.perms ||| PROT_WRITE } else ref
  if perm_at f.perm 2 = 'x' then { ref with perms := ref.perms ||| PROT_EXEC } else ref

/-- The C string in a buffer holding `buf` followed by a `'\0'`: the
characters before the first `'\0'`. -/
def c_string (buf : List Char) : List Char := buf.takeWhile (fun c => c != '\x00')

/-- The lines that successive `getline` calls return for a file with the
given content: each ends with its `'\n'`, except possibly the last. -/
def getlines : List Char → List (List Char)
  | [] => []
  | c :: cs =>
    if c = '\n' then [c] :: getlines cs
    else
      match getlines cs with
      | [] => [[c]]
      | l :: ls => (c :: l) :: ls

/-- The body of the `while` loop of `Scan` for one line returned by
`getline`: `line[read - 1] = '\0'`, the `sscanf` call, and the entry appended
unless the call did not return `kMapEntry`. -/
def scan_line (raw : List Char) : Option MapInfo :=
  match sscanf_maps_line (c_string raw.dropLast) with
  | none => none
  | some f => some (make_info f)

/-- The `while ((read = getline(...)) > 0)` loop of `Scan` over the lines
still to be read. -/
def scan_loop : List (List Char) → List MapInfo
  | [] => []
  | raw :: more =>
    if 0 < raw.length then
      match scan_line raw with
      | none => scan_loop more
      | some info => info :: scan_loop more
    else []

/-- `MapInfo::Scan()`; `maps` is the content of `/proc/self/maps`, or `none`
when `fopen` fails. -/
def Scan (maps : Option (List Char)) : List MapInfo :=
  match maps with
  | none => []
  | some content => scan_loop (getlines content)

/-! ### Well-formed listings -/

/-- The number written by a string of digits in the given base. -/
def digits_value (base : Nat) (ds : List Char) : Nat :=
  ds.foldl (fun acc c => acc * base + (digit_of base c).getD 0) 0

/-- A non-empty string of digits of the given base whose value fits in
`bits` bits. -/
def IsNumber (base bits : Nat) (ds : List Char) : Prop :=
  ds ≠ [] ∧ (∀ c, c ∈ ds → (digit_of base c).isSome = true) ∧ digits_value base ds < 2 ^ bits

/-- The fields written on one line of a map listing: address range,
permission string, offset, device major and minor, inode, the padding before
the path, and the path. -/
structure MapsLine where
  start_hex : List Char
  end_hex : List Char
  perm : List Char
  off_hex : List Char
  major_hex : List Char
  minor_hex : List Char
  inode_dec : List Char
  pad : List Char
  path : List Char
deriving DecidableEq, Repr

/-- The text of the line, without its newline:
`start-end perm offset major:minor inode`, a space, the padding and the
path. -/
def MapsLine.text (l : MapsLine) : List Char :=
  l.start_hex ++ '-' :: (l.end_hex ++ ' ' :: (l.perm ++ ' ' :: (l.off_hex ++ ' ' ::
    (l.major_hex ++ ':' :: (l.minor_hex ++ ' ' :: (l.inode_dec ++ ' ' :: (l.pad ++ l.path)))))))

/-- The line as it stands in the listing, newline included. -/
def MapsLine.render (l : MapsLine) : List Char := l.text ++ ['\n']

/-- A well-formed line: hexadecimal addresses and offset fitting in 64 bits,
four permission characters, hexadecimal device numbers fitting in 32 bits, a
decimal inode fitting in 64 bits, padding made of spaces, and a path without
newline or `'\0'` that does not begin with white space. -/
def MapsLine.WellFormed (l : MapsLine) : Prop :=
  IsNumber 16 64 l.start_hex ∧ IsNumber 16 64 l.end_hex ∧
  (l.perm.length = 4 ∧ ∀ c, c ∈ l.perm → isspace c = false ∧ c ≠ '\x00') ∧
  IsNumber 16 64 l.off_hex ∧ IsNumber 16 32 l.major_hex ∧ IsNumber 16 32 l.minor_hex ∧
  IsNumber 10 64 l.inode_dec ∧
  (∀ c, c ∈ l.pad → c = ' ') ∧
  (∀ c, c ∈ l.path → c ≠ '\n' ∧ c ≠ '\x00') ∧
  (∀ c, l.path.head? = some c → isspace c = false)

/-- The entry a well-formed line stands for: the numbers written on it, the
permission bits of its permission characters, and its path. -/
def MapsLine.entry (l : MapsLine) : MapInfo :=
  { start := digits_value 16 l.start_hex,
    end_ := digits_value 16 l.end_hex,
    perms := (if perm_at l.perm 0 = 'r' then PROT_READ else 0)
              + (if perm_at l.perm 1 = 'w' then PROT_WRITE else 0)
              + (if perm_at l.perm 2 = 'x' then PROT_EXEC else 0),
    is_private := decide (perm_at l.perm 3 = 'p'),
    offset := digits_value 16 l.off_hex,
    dev := makedev (digits_value 16 l.major_hex) (digits_value 16 l.minor_hex),
    inode := digits_value 10 l.inode_dec,
    path := l.path }

/-- A line of a listing as the kernel writes it, for an executable mapping of
a library. -/
def example_line : MapsLine :=
  { start_hex := "7f3c5a000000".toList, end_hex := "7f3c5a021000".toList,
    perm := "r-xp".toList, off_hex := "00001000".toList, major_hex := "fd".toList,
    minor_hex := "01".toList, inode_dec := "1234567".toList,
    pad := "                   ".toList, path := "/usr/lib/libc.so".toList }

/-- A line for an anonymous writable mapping, which has no path. -/
def example_anon_line : MapsLine :=
  { start_hex := "7ffd1000".toList, end_hex := "7ffd2000".toList,
    perm := "rw-p".toList, off_hex := "00000000".toList, major_hex := "00".toList,
    minor_hex := "00".toList, inode_dec := "0".toList, pad := [], path := [] }

/-! ### `logPossibleStrings` -/

/-- The C library's `isprint` in the C locale: the characters from space to
tilde. -/
def isprint (c : Nat) : Bool := decide (0x20 ≤ c ∧ c ≤ 0x7e)

/-- The byte `start[i]` of a region given as the list of its bytes. -/
def byte_at (region : List Nat) (i : Nat) : Nat := region.getD i 0

/-- The inner loop of `logPossibleStrings`:
`while (string_end < end && isprint(*string_end)) string_end++`. -/
def scan_string_end (region : List Nat) : Nat → Nat → Nat
  | 0, string_end => string_end
  | fuel + 1, string_end =>
    if string_end < region.length ∧ isprint (byte_at region string_end) = true then
      scan_string_end region fuel (string_end + 1)
    else string_end

/-- The outer loop of `logPossibleStrings` from position `ptr`; the result is
the list of `LOGI` records, each an offset and the logged string.  Every
iteration advances `ptr`, so `end - ptr` iterations are enough. -/
def dump_loop (region : List Nat) (min_string_length : Nat) :
    Nat → Nat → List (Nat × List Nat)
  | 0, _ => []
  | fuel + 1, ptr =>
    if ptr < region.length then
      if isprint (byte_at region ptr) = true then
        let string_start := ptr
        let string_end := scan_string_end region (region.length - (ptr + 1)) (ptr + 1)
        let length := string_end - string_start
        let found_str := (region.drop string_start).take length
        if min_string_length ≤ length then
          (string_start, found_str) :: dump_loop region min_string_length fuel string_end
        else
          dump_loop region min_string_length fuel string_end
      else
        dump_loop region min_string_length fuel (ptr + 1)
    else []

/-- `logPossibleStrings(start, size, min_string_length)` on the region whose
bytes are `region`: the offsets and strings it logs, in the order logged. -/
def logPossibleStrings (region : List Nat) (min_string_length : Nat) : List (Nat × List Nat) :=
  dump_loop region min_string_length region.length 0

/-- The bytes `[off, off + len)` of the region form a maximal run of printable
bytes: a non-empty run inside the region, all printable, that cannot be
extended to the left or to the right. -/
def IsMaximalRun (region : List Nat) (off len : Nat) : Prop :=
  0 < len ∧ off + len ≤ region.length ∧
  (∀ i, i < len → isprint (byte_at region (off + i)) = true) ∧
  (off = 0 ∨ isprint (byte_at region (off - 1)) = false) ∧
  (off + len = region.length ∨ isprint (byte_at region (off + len)) = false)

/-- What `DumpStrings` is to report: a maximal run of printable bytes of
length at least `min_len`, with its offset and its bytes. -/
def IsReportedRun (region : List Nat) (min_len off : Nat) (s : List Nat) : Prop :=
  IsMaximalRun region off s.length ∧ min_len ≤ s.length ∧
  s = (region.drop off).take s.length

end VirtualMap

namespace SoList

/-! ### The walk of `SoList::DetectInjection` -/

/-- What the accessors of `SoInfo` return for one node of the module list:
`get_next()` (`0` is `NULL`), `get_path()` and `get_name()` (`none` is
`NULL`, otherwise the C string). -/
structure SoInfoView where
  next : Nat
  path : Option (List Char)
  name : Option (List Char)
deriving DecidableEq, Repr

/-- The local variables of `SoList::DetectInjection` at the top of a loop
iteration.  `gap` is a `size_t`, `gap_repeated` an `int`. -/
structure WalkState where
  prev : Nat
  gap : Nat
  gap_repeated : Int
  app_process_loaded : Bool
  app_specialized : Bool
  nativehelper_loaded : Bool
deriving DecidableEq, Repr

/-- How one loop iteration ends: a `return` of a pointer, the end of the
iteration (by `continue` or by reaching the end of the body) with the new
locals, or a call `strcmp(NULL, ...)`, which has no defined result. -/
inductive StepResult where
  | ret (p : Nat)
  | cont (st : WalkState)
  | fault
deriving DecidableEq, Repr

/-- How a call of `DetectInjection` ends: it returns a pointer (`0` is
`nullptr`), or it does something without a defined result: it calls `strcmp`
on a null name or, while calibrating, loads from an address that cannot be
read. -/
inductive WalkOutcome where
  | returned (p : Nat)
  | fault
deriving DecidableEq, Repr

/-- `iter - prev` as it is compared with and assigned to the `size_t` `gap`:
`SoInfo` has no non-static data member, so the difference counts bytes, and
the conversion to `size_t` reduces it modulo `2 ^ 64`. -/
def ptr_diff (iter prev : Nat) : Nat := (iter % 2 ^ 64 + 2 ^ 64 - prev % 2 ^ 64) % 2 ^ 64

/-- `strstr(s, sub) != NULL`: `sub` occurs in `s`. -/
def strstr (s sub : List Char) : Bool := s.tails.any (fun t => sub.isPrefixOf t)

/-- The string searched for in the path of a node without a name. -/
def app_process_path : List Char := "/system/bin/app_proces".toList

/-- The first entry of `libraries_after_specialization`. -/
def libart : List Char := "libart.so".toList

/-- The second entry of `libraries_after_specialization`. -/
def libdexfile : List Char := "libdexfile.so".toList

/-- The name compared with to set `nativehelper_loaded`. -/
def libnativehelper : List Char := "libnativehelper.so".toList

/-- The gap bookkeeping of one iteration (the `if` / `else if` chain on
`iter - prev`): either the pointer `dropped` that is returned, or the new
`gap` and `gap_repeated`. -/
def gap_step (iter : Nat) (st : WalkState) : Sum Nat (Nat × Int) :=
  if ptr_diff iter st.prev ≠ st.gap ∧ st.gap_repeated < 1 then
    Sum.inr (ptr_diff iter st.prev, 0)
  else if ptr_diff iter st.prev = st.gap then
    Sum.inr (st.gap, st.gap_repeated + 1)
  else if ptr_diff iter st.prev = (2 * st.gap) % 2 ^ 64 then
    let dropped := (st.prev + st.gap) % 2 ^ 64
    if ¬ st.nativehelper_loaded ∨ ¬ st.app_specialized then Sum.inl dropped
    else Sum.inr (st.gap, st.gap_repeated)
  else
    Sum.inr (st.gap, st.gap_repeated - 1)

/-- The body of the `for` loop of `SoList::DetectInjection` for the node at
`iter`, whose accessors return `view`. -/
def walk_step (view : SoInfoView) (iter : Nat) (st : WalkState) : StepResult :=
  match view.path with
  | none => StepResult.ret iter
  | some path =>
    if path = [] then StepResult.ret iter
    else if view.name = none ∧ st.app_process_loaded = true then StepResult.ret iter
    else if view.name = none ∧ strstr path app_process_path = true then
      StepResult.cont { st with app_process_loaded := true }
    else
      match gap_step iter st with
      | Sum.inl dropped => StepResult.ret dropped
      | Sum.inr (gap, gap_repeated) =>
        match view.name with
        | none =>
          if st.app_specialized = true ∧ st.nativehelper_loaded = true then
            StepResult.cont { st with prev := iter, gap := gap, gap_repeated := gap_repeated }
          else StepResult.fault
        | some name =>
          StepResult.cont
            { prev := iter, gap := gap, gap_repeated := gap_repeated,
              app_process_loaded := st.app_process_loaded,
              app_specialized :=
                st.app_specialized || decide (name = libart) || decide (name = libdexfile),
              nativehelper_loaded :=
                st.nativehelper_loaded || decide (name = libnativehelper) }

/-- The `for` loop of `SoList::DetectInjection` from the node `iter`, over the
module list whose node at address `p` reads as `nodes p`.  The loop has no
bound of its own: `fuel` is the number of loop tests allowed, and `none` means
the call has not returned within them. -/
def walk (nodes : Nat → SoInfoView) : Nat → Nat → WalkState → Option WalkOutcome
  | 0, _, _ => none
  | fuel + 1, iter, st =>
    if iter = 0 then some (WalkOutcome.returned 0)
    else
      match walk_step (nodes iter) iter st with
      | StepResult.ret p => some (WalkOutcome.returned p)
      | StepResult.fault => some WalkOutcome.fault
      | StepResult.cont st' => walk nodes fuel (nodes iter).next st'

/-- The locals of `DetectInjection` before the loop. -/
def initial_state (solinker : Nat) : WalkState :=
  { prev := solinker, gap := 0, gap_repeated := 0, app_process_loaded := false,
    app_specialized := false, nativehelper_loaded := false }

/-- `SoList::DetectInjection` once `solinker` is set: the walk from the list
head. -/
def detect_walk (nodes : Nat → SoInfoView) (fuel solinker : Nat) : Option WalkOutcome :=
  walk nodes fuel solinker (initial_state solinker)

/-- The position of the loop after `k` iterations none of which returned:
the node about to be visited and the locals. -/
def advance (nodes : Nat → SoInfoView) : Nat → Nat → WalkState → Option (Nat × WalkState)
  | 0, iter, st => some (iter, st)
  | k + 1, iter, st =>
    if iter = 0 then none
    else
      match walk_step (nodes iter) iter st with
      | StepResult.cont st' => advance nodes k (nodes iter).next st'
      | _ => none

/-- A module list given by its nodes in memory: the node at an address of the
list reads as listed, every other address as a node with no path. -/
def nodes_of (l : List (Nat × SoInfoView)) (p : Nat) : SoInfoView :=
  match l.find? (fun e => e.1 == p) with
  | some e => e.2
  | none => ⟨0, none, none⟩

/-- A chain of nodes with the given names at the given addresses, each with
path `/system/lib64/` followed by its name. -/
def chain_of : List (Nat × List Char) → List (Nat × SoInfoView)
  | [] => []
  | [(p, n)] => [(p, ⟨0, some ("/system/lib64/".toList ++ n), some n⟩)]
  | (p, n) :: (q, m) :: rest =>
    (p, ⟨q, some ("/system/lib64/".toList ++ n), some n⟩) :: chain_of ((q, m) :: rest)

/-- A chain of five nodes at `a`, `a + g`, `a + 2g`, `a + 3g`, `a + 5g`, the
last one ending the list, with the given non-empty paths and the given
names. -/
def FiveNodeChain (nodes : Nat → SoInfoView) (a g : Nat) (paths names : Nat → List Char) :
    Prop :=
  nodes a = ⟨a + g, some (paths 0), some (names 0)⟩ ∧
  nodes (a + g) = ⟨a + 2 * g, some (paths 1), some (names 1)⟩ ∧
  nodes (a + 2 * g) = ⟨a + 3 * g, some (paths 2), some (names 2)⟩ ∧
  nodes (a + 3 * g) = ⟨a + 5 * g, some (paths 3), some (names 3)⟩ ∧
  nodes (a + 5 * g) = ⟨0, some (paths 4), some (names 4)⟩ ∧
  ∀ i, i < 5 → paths i ≠ []

/-- The names of an example chain without milestone modules. -/
def plain_names (i : Nat) : List Char :=
  ["linker64".toList, "libc.so".toList, "libm.so".toList, "libdl.so".toList,
   "libx.so".toList].getD i []

/-- The names of an example chain in which both milestones are seen. -/
def milestone_names (i : Nat) : List Char :=
  ["linker64".toList, "libnativehelper.so".toList, "libart.so".toList, "libdl.so".toList,
   "libx.so".toList].getD i []

/-- The paths of the example chains. -/
def example_paths (names : Nat → List Char) (i : Nat) : List Char :=
  "/system/lib64/".toList ++ names i

/-- The example chain of five nodes at `0x1000`, `0x1100`, `0x1200`, `0x1300`
and `0x1500` with the given names. -/
def example_chain (names : Nat → List Char) : Nat → SoInfoView :=
  nodes_of (chain_of [(0x1000, names 0), (0x1100, names 1), (0x1200, names 2),
    (0x1300, names 3), (0x1500, names 4)])

/-- A list of two nodes, the second of which has an empty path. -/
def empty_path_list : Nat → SoInfoView :=
  nodes_of [(0x1000, ⟨0x1100, some "/system/bin/linker64".toList, some "linker64".toList⟩),
            (0x1100, ⟨0, some [], some "libx.so".toList⟩)]

/-- The names of an example chain of six nodes without milestone modules. -/
def six_names (i : Nat) : List Char :=
  ["linker64".toList, "libc.so".toList, "libm.so".toList, "libdl.so".toList,
   "liblog.so".toList, "libx.so".toList].getD i []

/-- The example chain of six nodes at `0x1000`, `0x1100`, `0x1200`, `0x1300`,
`0x1400` and `0x1600`. -/
def six_node_chain : Nat → SoInfoView :=
  nodes_of (chain_of [(0x1000, six_names 0), (0x1100, six_names 1), (0x1200, six_names 2),
    (0x1300, six_names 3), (0x1400, six_names 4), (0x1600, six_names 5)])

/-- A chain of four nodes at `0x1000`, `0x1100`, `0x1200` and `0x1400`: two
gaps of `0x100`, then a gap of `0x200`. -/
def early_gap_chain : Nat → SoInfoView :=
  nodes_of (chain_of [(0x1000, "linker64".toList), (0x1100, "libc.so".toList),
    (0x1200, "libm.so".toList), (0x1400, "libx.so".toList)])

/-- A list in which a node without a name follows `libnativehelper.so` and
`libart.so`. -/
def nameless_after_art : Nat → SoInfoView :=
  nodes_of [(0x1000, ⟨0x1100, some "/apex/lib64/libnativehelper.so".toList,
                       some "libnativehelper.so".toList⟩),
            (0x1100, ⟨0x1200, some "/apex/lib64/libart.so".toList, some "libart.so".toList⟩),
            (0x1200, ⟨0, some "/data/local/tmp/libx.so".toList, none⟩)]

/-- A list in which a node without a name follows the `app_process`
placeholder, itself a node without a name. -/
def nameless_after_app_process : Nat → SoInfoView :=
  nodes_of [(0x1000, ⟨0x1100, some "/system/bin/app_process64".toList, none⟩),
            (0x1100, ⟨0x1200, some "/system/bin/linker64".toList, some "linker64".toList⟩),
            (0x1200, ⟨0, some "/data/local/tmp/libx.so".toList, none⟩)]

end SoList

namespace SoList

/-! ### `Initialize`, `findHeuristicOffsets` and the call of `DetectInjection` -/

/-- The process-wide variables of `solist.hpp` that `Initialize` and
`findHeuristicOffsets` assign: the list head, `somain`, the unload counter,
the two `ProtectedDataGuard` member pointers, `get_realpath_sym` and the
calibrated `solist_realpath_offset`.  Pointers are addresses, `0` is `NULL`. -/
structure Globals where
  solinker : Nat
  somain : Nat
  g_module_unload_counter : Nat
  ctor : Nat
  dtor : Nat
  get_realpath_sym : Nat
  solist_realpath_offset : Nat
deriving DecidableEq, Repr

/-- The variables at process start on a 64-bit target: every pointer null,
`solist_realpath_offset` at its built-in value `0x1a0`. -/
def Globals.initial : Globals := ⟨0, 0, 0, 0, 0, 0, 0x1a0⟩

/-- A `std::string` object as the code reads it: its `size()` and the C
string at its `c_str()`. -/
structure StdString where
  size : Nat
  c_str : List Char
deriving DecidableEq, Repr

/-- The symbol resolver for the linker image (`SandHook::ElfImg`, an external
collaborator) and the memory the code reads through the addresses it
returns: `getSymbAddress` (`0` when the symbol is absent),
`findSymbolNameByPrefix` (empty when there is none), `name()`, the pointer
stored at an address, the `std::string` object seen at an address,
`sizeof(void *)`, and the `size_t` loaded from an address (`none` when the
address cannot be read, `NULL` included: the load then has no defined
result). -/
structure Linker where
  getSymbAddress : List Char → Nat
  findSymbolNameByPrefix : List Char → List Char
  name : List Char
  read_pointer : Nat → Nat
  read_string : Nat → StdString
  pointer_size : Nat
  read_size : Nat → Option Nat

/-- The name `ProtectedDataGuard::setup` looks up for the constructor. -/
def guard_ctor_name : List Char := "__dl__ZN18ProtectedDataGuardC2Ev".toList

/-- The name `ProtectedDataGuard::setup` looks up for the destructor. -/
def guard_dtor_name : List Char := "__dl__ZN18ProtectedDataGuardD2Ev".toList

/-- The prefix searched for to find the `somain` symbol, and its base name. -/
def somain_base : List Char := "__dl__ZL6somain".toList

/-- The base name of the list head symbol. -/
def solinker_base : List Char := "__dl__ZL8solinker".toList

/-- The base name of the legacy list head symbol. -/
def solist_base : List Char := "__dl__ZL6solist".toList

/-- The name looked up for `soinfo::get_realpath`. -/
def get_realpath_name : List Char := "__dl__ZNK6soinfo12get_realpathEv".toList

/-- The name looked up for the unload counter. -/
def unload_counter_name : List Char := "__dl__ZL23g_module_unload_counter".toList

/-- `getStaticPointer<SoInfo>(linker, name)`: the pointer stored at the
address of the symbol, `NULL` when the symbol is absent. -/
def getStaticPointer (l : Linker) (name : List Char) : Nat :=
  if l.getSymbAddress name = 0 then 0 else l.read_pointer (l.getSymbAddress name)

/-- The contents of `llvm_sufix` as a C string: what follows the base name in
the resolved `somain` symbol name, or the empty string when nothing does.
The array has 26 bytes and `strncpy` copies at most 26 characters, so a
longer suffix is cut to 26 characters (and is then not terminated inside the
array; the 43 and 41 characters that fit in the name buffers hold the base
name and these 26 characters). -/
def llvm_sufix (somain_sym_name : List Char) : List Char :=
  if somain_sym_name.length ≠ somain_base.length then
    (somain_sym_name.drop somain_base.length).take 26
  else []

/-- The loop of `findHeuristicOffsets` from step `i` on, with `steps` steps
left.  Every step first loads `size_of_somain` from
`somain + i * sizeof(void *)`; the value is not used, but when the address
cannot be read the call ends there without a result (`none`).  Then the first
step whose candidate `std::string` has the size of the linker path and
compares equal to it with `strcmp` sets `solist_realpath_offset` and ends the
loop. -/
def find_offsets_loop (l : Linker) (linker_name : List Char) (g : Globals) :
    Nat → Nat → Option (Bool × Globals)
  | 0, _ => some (false, g)
  | steps + 1, i =>
    match l.read_size (g.somain + i * l.pointer_size) with
    | none => none
    | some _ =>
      let realpath_of_solinker := l.read_string (g.solinker + i * l.pointer_size)
      if realpath_of_solinker.size = linker_name.length ∧
          VirtualMap.c_string linker_name = realpath_of_solinker.c_str then
        some (true, { g with solist_realpath_offset := i * l.pointer_size })
      else find_offsets_loop l linker_name g steps (i + 1)

/-- `SoList::findHeuristicOffsets(linker_name)`: the returned flag and the
variables after the call, or `none` when a load from `somain` has no defined
result. -/
def findHeuristicOffsets (l : Linker) (linker_name : List Char) (g : Globals) :
    Option (Bool × Globals) :=
  find_offsets_loop l linker_name g (1024 / l.pointer_size) 0

/-- What a call of `Initialize` leaves behind: the returned flag, the
variables, the names passed to `getSymbAddress`, in call order, and whether
the call ended in `findHeuristicOffsets` without a defined result (`ok` is
then `false` and has no meaning). -/
structure InitResult where
  ok : Bool
  globals : Globals
  lookups : List (List Char)
  faulted : Bool

/-- `SoList::Initialize()`, starting with `ProtectedDataGuard::setup`. -/
def Initialize (l : Linker) (g : Globals) : InitResult :=
  let g1 : Globals :=
    { g with ctor := l.getSymbAddress guard_ctor_name, dtor := l.getSymbAddress guard_dtor_name }
  let setup_lookups := [guard_ctor_name, guard_dtor_name]
  if g1.ctor = 0 ∨ g1.dtor = 0 then ⟨false, g1, setup_lookups, false⟩
  else
    let somain_sym_name := l.findSymbolNameByPrefix somain_base
    if somain_sym_name = [] then ⟨false, g1, setup_lookups, false⟩
    else
      let solinker_sym_name := solinker_base ++ llvm_sufix somain_sym_name
      let solist_sym_name := solist_base ++ llvm_sufix somain_sym_name
      let head : Nat × List (List Char) :=
        if getStaticPointer l solinker_sym_name = 0 then
          (getStaticPointer l solist_sym_name, [solinker_sym_name, solist_sym_name])
        else (getStaticPointer l solinker_sym_name, [solinker_sym_name])
      let g2 : Globals := { g1 with solinker := head.1 }
      if head.1 = 0 then ⟨false, g2, setup_lookups ++ head.2, false⟩
      else
        let g3 : Globals :=
          { g2 with get_realpath_sym := l.getSymbAddress get_realpath_name,
                    g_module_unload_counter := l.getSymbAddress unload_counter_name,
                    somain := getStaticPointer l somain_sym_name }
        let lookups :=
          setup_lookups ++ head.2 ++ [get_realpath_name, unload_counter_name, somain_sym_name]
        match findHeuristicOffsets l l.name g3 with
        | none => ⟨false, g3, lookups, true⟩
        | some found => ⟨found.1, found.2, lookups, false⟩

/-- `SoList::DetectInjection()` as a call in a process: `g` holds the
variables before the call, `nodes g p` is what the accessors return for the
node at `p` with the offsets and `get_realpath_sym` of `g`.  The result is the
outcome of the call (`none` when the walk has not ended within `fuel` loop
tests) and the variables after it. -/
def DetectInjection (l : Linker) (nodes : Globals → Nat → SoInfoView) (fuel : Nat)
    (g : Globals) : Option WalkOutcome × Globals :=
  if g.solinker = 0 then
    if (Initialize l g).faulted = true then
      (some WalkOutcome.fault, (Initialize l g).globals)
    else if (Initialize l g).ok = false then
      (some (WalkOutcome.returned 0), (Initialize l g).globals)
    else
      (detect_walk (nodes (Initialize l g).globals) fuel (Initialize l g).globals.solinker,
       (Initialize l g).globals)
  else (detect_walk (nodes g) fuel g.solinker, g)

/-- A linker image in which every symbol is found, the `somain` symbol
carries the suffix `.llvm.123`, the list head is the node at `0x7000`,
`somain` is the node at `0x8000`, whose first 1024 bytes can be read, and no
`std::string` in the first 1024 bytes of the list head holds the linker
path. -/
def uncalibrated_linker : Linker :=
  { getSymbAddress := fun name =>
      if name = guard_ctor_name then 0x4000
      else if name = guard_dtor_name then 0x4100
      else if name = solinker_base ++ ".llvm.123".toList then 0x5000
      else if name = somain_base ++ ".llvm.123".toList then 0x5100
      else 0,
    findSymbolNameByPrefix := fun p =>
      if p = somain_base then somain_base ++ ".llvm.123".toList else [],
    name := "/system/bin/linker64".toList,
    read_pointer := fun addr => if addr = 0x5000 then 0x7000 else if addr = 0x5100 then 0x8000 else 0,
    read_string := fun _ => ⟨0, []⟩,
    pointer_size := 8,
    read_size := fun addr => if 0x7000 ≤ addr ∧ addr < 0x9000 then some 0 else none }

/-- The list seen through offsets that were never calibrated: the head at
`0x7000` reads as a node with an empty path. -/
def uncalibrated_nodes : Globals → Nat → SoInfoView :=
  fun _ p => if p = 0x7000 then ⟨0, some [], none⟩ else ⟨0, none, none⟩

/-- A linker image like `uncalibrated_linker` in which the `std::string` at
offset `0x1a0` of the list head holds the linker path. -/
def calibrated_linker : Linker :=
  { uncalibrated_linker with
    read_string := fun addr =>
      if addr = 0x7000 + 0x1a0 then ⟨20, "/system/bin/linker64".toList⟩ else ⟨0, []⟩ }

/-- A linker image of an older release: the `somain` symbol carries the
suffix `.llvm.123`, there is no `solinker` symbol, and the list head is found
under the legacy name `solist` with the same suffix. -/
def legacy_linker : Linker :=
  { uncalibrated_linker with
    getSymbAddress := fun name =>
      if name = guard_ctor_name then 0x4000
      else if name = guard_dtor_name then 0x4100
      else if name = solist_base ++ ".llvm.123".toList then 0x5000
      else if name = somain_base ++ ".llvm.123".toList then 0x5100
      else 0 }

end SoList

namespace Fstatfs

/-! ### The descriptor scan `check_system_fds` of fstatfs.cpp -/

/-- `OVERLAYFS_SUPER_MAGIC`. -/
def OVERLAYFS_SUPER_MAGIC : Nat := 0x794c7630

/-- `EXT4_SUPER_MAGIC`. -/
def EXT4_SUPER_MAGIC : Nat := 0xEF53

/-- `PATH_MAX` of `<limits.h>`. -/
def PATH_MAX : Nat := 4096

/-- The directory whose entries are the open descriptors. -/
def fd_dir_path : List Char := "/proc/self/fd".toList

/-- The trusted prefix. -/
def system_prefix : List Char := "/system/".toList

/-- The host facilities `check_system_fds` calls: the names `readdir` returns
for `/proc/self/fd`, in order (`none` when `opendir` fails); `readlink` on a
path (`none` for `-1`, otherwise the link content); whether `fstat` on a
descriptor and `stat` on a path succeed; and the `f_type` that `fstatfs`
reports for a descriptor (`none` for `-1`). -/
structure Host where
  entries : Option (List (List Char))
  readlink : List Char → Option (List Char)
  fstat : Int → Bool
  stat : List Char → Bool
  fstatfs : Int → Option Nat

/-- How `std::stoi` ends: with a value, or by throwing `std::invalid_argument`
or `std::out_of_range`. -/
inductive StoiResult where
  | value (n : Int)
  | invalid_argument
  | out_of_range
deriving DecidableEq, Repr

/-- `std::stoi(s)`: white space is skipped, then an optional sign and at
least one decimal digit are read; without a digit it throws
`std::invalid_argument`, and a number that does not fit in `int` throws
`std::out_of_range`. -/
def stoi (s : List Char) : StoiResult :=
  let signed := VirtualMap.scan_sign (VirtualMap.skip_space s)
  match signed.2 with
  | [] => StoiResult.invalid_argument
  | c :: _ =>
    if (VirtualMap.dec_digit c).isNone then StoiResult.invalid_argument
    else
      let r := VirtualMap.scan_digits 10 signed.2 0
      let v : Int := if signed.1 then - (r.1 : Int) else (r.1 : Int)
      if v < - (2 : Int) ^ 31 ∨ (2 : Int) ^ 31 - 1 < v then StoiResult.out_of_range
      else StoiResult.value v

/-- What the function does for a descriptor that can be observed: one of the
three metadata queries, or one of the log lines that report the filesystem
type. -/
inductive Action where
  | fstat
  | stat
  | fstatfs
  | overlayfs_detected
  | other_type
deriving DecidableEq, Repr

/-- An action together with the directory entry and the descriptor number it
is made for. -/
structure Event where
  action : Action
  fd_str : List Char
  fd : Int
deriving DecidableEq, Repr

/-- The path built by `snprintf(symlink_path, sizeof(symlink_path), "%s/%s", ...)`. -/
def symlink_path (fd_str : List Char) : List Char :=
  (fd_dir_path ++ '/' :: fd_str).take (PATH_MAX - 1)

/-- The string `real_path_str`: `readlink` stores at most `PATH_MAX - 1`
bytes of the link content, a `'\0'` is put after them, and the `std::string`
is built from the resulting C string. -/
def real_path_of (target : List Char) : List Char :=
  VirtualMap.c_string (target.take (PATH_MAX - 1))

/-- The body of the `while` loop of `check_system_fds` for the directory
entry named `fd_str`: the events it produces, or `none` when `std::stoi`
throws `std::out_of_range`, which nothing catches. -/
def check_entry (h : Host) (fd_str : List Char) : Option (List Event) :=
  if fd_str = ".".toList ∨ fd_str = "..".toList then some []
  else
    match stoi fd_str with
    | StoiResult.invalid_argument => some []
    | StoiResult.out_of_range => none
    | StoiResult.value fd =>
      match h.readlink (symlink_path fd_str) with
      | none => some []
      | some target =>
        if VirtualMap.starts_with (real_path_of target) system_prefix then
          if h.fstat fd = false then some [⟨Action.fstat, fd_str, fd⟩]
          else if h.stat (real_path_of target) = false then
            some [⟨Action.fstat, fd_str, fd⟩, ⟨Action.stat, fd_str, fd⟩]
          else
            match h.fstatfs fd with
            | none =>
              some [⟨Action.fstat, fd_str, fd⟩, ⟨Action.stat, fd_str, fd⟩,
                    ⟨Action.fstatfs, fd_str, fd⟩]
            | some f_type =>
              some [⟨Action.fstat, fd_str, fd⟩, ⟨Action.stat, fd_str, fd⟩,
                    ⟨Action.fstatfs, fd_str, fd⟩,
                    ⟨if f_type = OVERLAYFS_SUPER_MAGIC then Action.overlayfs_detected
                       else Action.other_type, fd_str, fd⟩]
        else some []

/-- What a call of `check_system_fds` does: its events in order, and whether
it ended by an uncaught exception. -/
structure ScanResult where
  events : List Event
  aborted : Bool
deriving DecidableEq, Repr

/-- The `while ((entry = readdir(dir)) != nullptr)` loop over the entries
still to be read. -/
def check_loop (h : Host) : List (List Char) → ScanResult
  | [] => ⟨[], false⟩
  | fd_str :: rest =>
    match check_entry h fd_str with
    | none => ⟨[], true⟩
    | some events => ⟨events ++ (check_loop h rest).events, (check_loop h rest).aborted⟩

/-- `check_system_fds()`. -/
def check_system_fds (h : Host) : ScanResult :=
  match h.entries with
  | none => ⟨[], false⟩
  | some names => check_loop h names

/-- The conditions under which the entry `fd_str` is flagged: it is not `.`
or `..`, it parses to the descriptor `fd`, its link resolves to a path under
`/system/`, `fstat` on the descriptor and `stat` on the path succeed, and
`fstatfs` on the descriptor reports the overlay type. -/
def Flagged (h : Host) (fd_str : List Char) (fd : Int) : Prop :=
  fd_str ≠ ".".toList ∧ fd_str ≠ "..".toList ∧ stoi fd_str = StoiResult.value fd ∧
  ∃ target, h.readlink (symlink_path fd_str) = some target ∧
    VirtualMap.starts_with (real_path_of target) system_prefix = true ∧
    h.fstat fd = true ∧ h.stat (real_path_of target) = true ∧
    h.fstatfs fd = some OVERLAYFS_SUPER_MAGIC

/-- The link of the entry resolves to a path under `/system/`. -/
def ResolvesToSystem (h : Host) (fd_str : List Char) : Prop :=
  ∃ target, h.readlink (symlink_path fd_str) = some target ∧
    VirtualMap.starts_with (real_path_of target) system_prefix = true

/-- The entries of `/proc/self/fd` in the example process. -/
def example_names : List (List Char) :=
  [".".toList, "..".toList, "3".toList, "4".toList, "5".toList, "6".toList]

/-- The entry name of descriptor `5`. -/
def five : List Char := "5".toList

/-- A library path under `/system/`. -/
def hidden_target : List Char := "/system/lib64/libc.so".toList

/-- A process with four descriptors: `3` is a socket (no link target), `4` a
file outside `/system/`, `5` a file under `/system/` on an overlay
filesystem, `6` a file under `/system/` on ext4. -/
def example_host : Host :=
  { entries := some example_names,
    readlink := fun p =>
      if p = "/proc/self/fd/4".toList then some "/data/app/base.apk".toList
      else if p = "/proc/self/fd/5".toList then some "/system/lib64/libc.so".toList
      else if p = "/proc/self/fd/6".toList then some "/system/framework/framework.jar".toList
      else none,
    fstat := fun _ => true,
    stat := fun _ => true,
    fstatfs := fun fd => if fd = 5 then some 0x794c7630 else some 0xEF53 }

/-- A process in which descriptor `5` points under `/system/` and lies on an
overlay filesystem, but its path can no longer be reached by `stat`. -/
def hidden_path_host : Host :=
  { entries := some [".".toList, "..".toList, five],
    readlink := fun p =>
      if p = "/proc/self/fd/5".toList then some hidden_target else none,
    fstat := fun _ => true,
    stat := fun _ => false,
    fstatfs := fun _ => some 0x794c7630 }

end Fstatfs

namespace Atexit

/-! ### Repeated growth of the table -/

/-- The table after `k` calls of `expand_capacity` in a row, starting from the
empty table, when every mapping call succeeds (the call number `i` returns the
address `pages i`); `none` as soon as one of the calls returns `false`. -/
def grow (pf : Platform) (pages : Nat → Nat) : Nat → Option AtexitArray
  | 0 => some AtexitArray.empty
  | k + 1 =>
    match grow pf pages k with
    | none => none
    | some s =>
      if (expand_capacity pf (some (pages k)) s).1 = true then
        some (expand_capacity pf (some (pages k)) s).2
      else none

end Atexit

namespace Atexit

/-! ### Page protections of the table -/

/-- The effect of `AtexitArray::set_writable` on the page protections.
`prot page` tells whether page number `page` of the mapping at `array_` (the
bytes `[page * page_size, (page + 1) * page_size)` from `array_`) is writable.
Nothing happens when `array_` is `nullptr`; otherwise `mprotect`, which is
taken to succeed, sets the protection of the pages in
`[page_start_of_index start_idx, page_end_of_index (start_idx + num_entries))`. -/
def set_writable (pf : Platform) (array_ : Nat) (writable : Bool) (start_idx num_entries : Nat)
    (prot : Nat → Bool) : Nat → Bool :=
  if array_ = 0 then prot
  else fun page =>
    if page_start_of_index pf start_idx ≤ page * pf.page_size ∧
        page * pf.page_size < page_end_of_index pf (start_idx + num_entries) then writable
    else prot page

/-- The pages that hold a byte of slot `idx`. -/
def slot_pages (pf : Platform) (idx : Nat) : List Nat :=
  List.range' (idx * pf.entry_size / pf.page_size)
    (((idx + 1) * pf.entry_size - 1) / pf.page_size + 1 - idx * pf.entry_size / pf.page_size)

/-- Every page that holds a byte of slot `idx` is writable. -/
def slot_writable (pf : Platform) (prot : Nat → Bool) (idx : Nat) : Bool :=
  (slot_pages pf idx).all prot

/-- A store to `array_[idx]`, with whether the pages of the slot were writable
when it was made. -/
structure SlotWrite where
  idx : Nat
  writable : Bool
deriving DecidableEq, Repr

/-- The table together with the protection of its pages and the stores made
to its slots so far, oldest first. -/
structure GuardedArray where
  table : AtexitArray
  prot : Nat → Bool
  writes : List SlotWrite

/-- Every page in `[0, page_end_of_index capacity_)` is read-only. -/
def ReadOnly (pf : Platform) (g : GuardedArray) : Prop :=
  ∀ page, page * pf.page_size < page_end_of_index pf g.table.capacity_ → g.prot page = false

/-- A table as the operations leave it: no more entries than capacity, and an
array behind every non-zero capacity. -/
def Valid (s : AtexitArray) : Prop :=
  s.size_ ≤ s.capacity_ ∧ (s.capacity_ ≠ 0 → s.array_ ≠ 0)

/-- The slots stored to by the second loop of `recompact`, in order: each
round stores to `array_[src]`, and to `array_[dst]` when the entry is live. -/
def shift_live_writes (size : Nat) : Nat → Nat → Nat → (Nat → AtexitEntry) → List Nat
  | 0, _, _, _ => []
  | fuel + 1, src, dst, slots =>
    if src < size then
      let entry := slots src
      let cleared := store slots src AtexitEntry.zero
      if entry.fn ≠ 0 then
        src :: dst :: shift_live_writes size fuel (src + 1) (dst + 1) (store cleared dst entry)
      else
        src :: shift_live_writes size fuel (src + 1) dst cleared
    else []

end Atexit

namespace Atexit.Guarded

/-- `AtexitArray::expand_capacity` with the page protections.  `mmap` returns
pages that are readable and writable; `mremap` keeps the protection of the
pages it keeps, and `added page` is the protection the pages it adds come
with. -/
def expand_capacity (pf : Platform) (os : Option Nat) (added : Nat → Bool) (g : GuardedArray) :
    Bool × GuardedArray :=
  match next_capacity pf g.table.capacity_ with
  | none => (false, g)
  | some new_capacity =>
    let new_capacity_bytes := page_end_of_index pf new_capacity
    let prot1 := set_writable pf g.table.array_ true 0 g.table.capacity_ g.prot
    match os with
    | none =>
      (false, { g with prot := set_writable pf g.table.array_ false 0 g.table.capacity_ prot1 })
    | some new_pages =>
      if g.table.array_ = 0 then
        let prot2 : Nat → Bool :=
          fun page => if page * pf.page_size < new_capacity_bytes then true else prot1 page
        (true, { table := { g.table with array_ := new_pages, slots := fun _ => AtexitEntry.zero,
                                         capacity_ := new_capacity },
                 prot := set_writable pf new_pages false 0 new_capacity prot2,
                 writes := g.writes })
      else
        let prot2 : Nat → Bool :=
          fun page => if page * pf.page_size < page_end_of_index pf g.table.capacity_
                      then prot1 page else added page
        (true, { table := { g.table with array_ := new_pages, capacity_ := new_capacity },
                 prot := set_writable pf new_pages false 0 new_capacity prot2,
                 writes := g.writes })

/-- `AtexitArray::append_entry` with the page protections and the store it
makes. -/
def append_entry (pf : Platform) (os : Option Nat) (added : Nat → Bool) (entry : AtexitEntry)
    (g : GuardedArray) : Bool × GuardedArray :=
  let grown : Bool × GuardedArray :=
    if g.table.capacity_ ≤ g.table.size_ then expand_capacity pf os added g else (true, g)
  if grown.1 = false then
    (false, grown.2)
  else
    let t := grown.2
    let idx := t.table.size_
    let prot1 := set_writable pf t.table.array_ true idx 1 t.prot
    (true, { table := { t.table with size_ := idx + 1, slots := store t.table.slots idx entry,
                                     total_appends_ := t.table.total_appends_ + 1 },
             prot := set_writable pf t.table.array_ false idx 1 prot1,
             writes := t.writes ++ [⟨idx, slot_writable pf prot1 idx⟩] })

/-- `AtexitArray::extract_entry` with the page protections and the store it
makes. -/
def extract_entry (pf : Platform) (idx : Nat) (g : GuardedArray) : AtexitEntry × GuardedArray :=
  let prot1 := set_writable pf g.table.array_ true idx 1 g.prot
  (g.table.slots idx,
   { table := { g.table with slots := store g.table.slots idx AtexitEntry.zero,
                             extracted_count_ := g.table.extracted_count_ + 1 },
     prot := set_writable pf g.table.array_ false idx 1 prot1,
     writes := g.writes ++ [⟨idx, slot_writable pf prot1 idx⟩] })

/-- `AtexitArray::recompact` with the page protections and the stores of its
second loop; the table it leaves is that of `Atexit.recompact`. -/
def recompact (pf : Platform) (g : GuardedArray) : GuardedArray :=
  let s := g.table
  let prot1 := set_writable pf s.array_ true 0 s.size_ g.prot
  let src := skip_live s.slots s.size_ s.size_ 0
  let stores := shift_live_writes s.size_ (s.size_ - src) src src s.slots
  { table := Atexit.recompact pf s,
    prot := set_writable pf s.array_ false 0 s.size_ prot1,
    writes := g.writes ++ stores.map (fun i => ⟨i, slot_writable pf prot1 i⟩) }

/-- The recompaction example with every page read-only and no store made yet. -/
def example_guarded : GuardedArray :=
  { table := example_table, prot := fun _ => false, writes := [] }

end Atexit.Guarded

namespace SoList

/-! ### Chains that end and chains that do not -/

/-- The node reached from `p` by following `get_next()` `k` times, stopping
at `NULL`. -/
def follow (nodes : Nat → SoInfoView) : Nat → Nat → Nat
  | 0, p => p
  | k + 1, p => if p = 0 then 0 else follow nodes k (nodes p).next

/-- A module list of two named nodes whose next pointers form a cycle:
`0x1000` points to `0x1100` and `0x1100` back to `0x1000`. -/
def two_node_cycle : Nat → SoInfoView :=
  nodes_of [(0x1000, ⟨0x1100, some "/system/lib64/liba.so".toList, some "liba.so".toList⟩),
            (0x1100, ⟨0x1000, some "/system/lib64/libb.so".toList, some "libb.so".toList⟩)]

/-- The locals at the top of an iteration at node `0x1100` of
`two_node_cycle`, from the third iteration on. -/
def cycle_state_b : WalkState := ⟨0x1000, 2 ^ 64 - 0x100, 0, false, false, false⟩

/-- The locals at the top of an iteration at node `0x1000` of
`two_node_cycle`, from the fourth iteration on. -/
def cycle_state_a : WalkState := ⟨0x1100, 0x100, 0, false, false, false⟩

end SoList

namespace VirtualMap

/-! ### A line with a decimal-looking device field -/

/-- A line whose device field `10:11` consists of decimal digits only. -/
def decimal_device_line : MapsLine :=
  { start_hex := "00400000".toList, end_hex := "00452000".toList,
    perm := "r-xp".toList, off_hex := "00000000".toList, major_hex := "10".toList,
    minor_hex := "11".toList, inode_dec := "42".toList,
    pad := "   ".toList, path := "/bin/cat".toList }

end VirtualMap

/-! ## Part II. Lemmas and theorems -/

namespace Atexit

/-! ### Helper lemmas for the exit-handler table -/

theorem store_same (m : Nat → AtexitEntry) (i : Nat) (e : AtexitEntry) : store m i e i = e := by
  simp [store]

theorem store_other (m : Nat → AtexitEntry) (i j : Nat) (e : AtexitEntry) (h : j ≠ i) :
    store m i e j = m j := by
  simp [store, h]

theorem page_end_ge (pf : Platform) (hP : 0 < pf.page_size) (x : Nat) : x ≤ page_end pf x := by
  unfold page_end page_start
  have h1 := Nat.div_add_mod (x + (pf.page_size - 1)) pf.page_size
  have h2 := Nat.mod_lt (x + (pf.page_size - 1)) hP
  rw [Nat.mul_comm] at h1
  omega

theorem live_entries_succ (m : Nat → AtexitEntry) (n : Nat) :
    live_entries m (n + 1) =
      live_entries m n ++ (if (m n).fn ≠ 0 then [m n] else []) := by
  unfold live_entries
  rw [List.range_succ, List.map_append, List.filter_append]
  by_cases h : (m n).fn = 0 <;> simp [h]

theorem live_entries_length_le (m : Nat → AtexitEntry) (n : Nat) :
    (live_entries m n).length ≤ n := by
  unfold live_entries
  calc _ ≤ ((List.range n).map m).length := List.length_filter_le _ _
    _ = n := by simp

/-- Every slot the first loop of `recompact` steps over is live, and it stops
at the end of the table or at the first empty slot. -/
theorem skip_live_spec (m : Nat → AtexitEntry) (size : Nat) :
    ∀ (fuel src : Nat), size - src ≤ fuel → src ≤ size →
      src ≤ skip_live m size fuel src ∧ skip_live m size fuel src ≤ size ∧
      (∀ k, src ≤ k → k < skip_live m size fuel src → (m k).fn ≠ 0) ∧
      (skip_live m size fuel src < size → (m (skip_live m size fuel src)).fn = 0) := by
  intro fuel
  induction fuel with
  | zero =>
    intro src hf hs
    have : src = size := by omega
    subst this
    simp [skip_live]
    intro k h1 h2; omega
  | succ f ih =>
    intro src hf hs
    unfold skip_live
    by_cases hc : src < size ∧ (m src).fn ≠ 0
    · rw [if_pos hc]
      obtain ⟨a, b, c, d⟩ := ih (src + 1) (by omega) (by omega)
      refine ⟨by omega, b, ?_, d⟩
      intro k hk1 hk2
      by_cases hk : k = src
      · subst hk; exact hc.2
      · exact c k (by omega) hk2
    · rw [if_neg hc]
      refine ⟨le_refl _, hs, ?_, ?_⟩
      · intro k h1 h2; omega
      · intro h
        by_contra h'
        exact hc ⟨h, h'⟩

theorem live_entries_all_live (m : Nat → AtexitEntry) (n : Nat)
    (h : ∀ k, k < n → (m k).fn ≠ 0) : live_entries m n = (List.range n).map m := by
  unfold live_entries
  rw [List.filter_eq_self]
  intro e he
  simp only [List.mem_map, List.mem_range] at he
  obtain ⟨k, hk, rfl⟩ := he
  simpa using h k hk


theorem map_range_congr (f g : Nat → AtexitEntry) (n : Nat) (h : ∀ k, k < n → f k = g k) :
    (List.range n).map f = (List.range n).map g := by
  apply List.map_congr_left
  intro k hk
  exact h k (List.mem_range.mp hk)

/-- Loop invariant of the second loop of `recompact`, relative to the array
contents `old` at the start of the call. -/
theorem shift_live_spec (old : Nat → AtexitEntry) (size : Nat) :
    ∀ (fuel src dst : Nat) (m : Nat → AtexitEntry),
      size - src ≤ fuel → src ≤ size → dst ≤ src →
      (List.range dst).map m = live_entries old src →
      (∀ k, dst ≤ k → k < src → m k = AtexitEntry.zero) →
      (∀ k, src ≤ k → m k = old k) →
      (List.range (shift_live size fuel src dst m).1).map (shift_live size fuel src dst m).2
          = live_entries old size ∧
      (shift_live size fuel src dst m).1 ≤ size ∧
      (∀ k, (shift_live size fuel src dst m).1 ≤ k → k < size →
          (shift_live size fuel src dst m).2 k = AtexitEntry.zero) ∧
      (∀ k, size ≤ k → (shift_live size fuel src dst m).2 k = old k) := by
  intro fuel
  induction fuel with
  | zero =>
    intro src dst m hf hs hd h1 h2 h3
    have : src = size := by omega
    subst this
    simp only [shift_live]
    exact ⟨h1, hd, h2, h3⟩
  | succ f ih =>
    intro src dst m hf hs hd h1 h2 h3
    unfold shift_live
    by_cases hc : src < size
    · rw [if_pos hc]
      have hsrc : m src = old src := h3 src (le_refl _)
      by_cases hl : (m src).fn ≠ 0
      · simp only [hl, if_true, ne_eq, not_false_eq_true]
        apply ih (src + 1) (dst + 1) _ (by omega) (by omega) (by omega)
        · rw [List.range_succ, List.map_append, live_entries_succ, ← hsrc, if_pos hl, ← h1]
          congr 1
          · apply map_range_congr
            intro k hk
            rw [store_other _ _ _ _ (by omega), store_other _ _ _ _ (by omega)]
          · simp [store_same]
        · intro k hk1 hk2
          rw [store_other _ _ _ _ (by omega)]
          by_cases hk : k = src
          · subst hk; exact store_same _ _ _
          · rw [store_other _ _ _ _ hk]; exact h2 k (by omega) (by omega)
        · intro k hk
          rw [store_other _ _ _ _ (by omega), store_other _ _ _ _ (by omega)]
          exact h3 k (by omega)
      · simp only [hl, if_false]
        apply ih (src + 1) dst _ (by omega) (by omega) (by omega)
        · rw [live_entries_succ, ← hsrc, if_neg hl, List.append_nil, ← h1]
          apply map_range_congr
          intro k hk
          rw [store_other _ _ _ _ (by omega)]
        · intro k hk1 hk2
          by_cases hk : k = src
          · subst hk; exact store_same _ _ _
          · rw [store_other _ _ _ _ hk]; exact h2 k hk1 (by omega)
        · intro k hk
          rw [store_other _ _ _ _ (by omega)]
          exact h3 k (by omega)
    · rw [if_neg hc]
      have : src = size := by omega
      subst this
      exact ⟨h1, hd, h2, h3⟩

/-! ### Recompaction -/

/-- The two loops of `recompact` together: from the contents `m` of a table of
`size` slots they leave the live entries packed at the front, zero the rest of
the table and touch nothing at or beyond `size`. -/
theorem recompact_loops_spec (m : Nat → AtexitEntry) (size : Nat) :
    (List.range (shift_live size (size - skip_live m size size 0) (skip_live m size size 0)
        (skip_live m size size 0) m).1).map
      (shift_live size (size - skip_live m size size 0) (skip_live m size size 0)
        (skip_live m size size 0) m).2 = live_entries m size ∧
    (shift_live size (size - skip_live m size size 0) (skip_live m size size 0)
        (skip_live m size size 0) m).1 ≤ size ∧
    (∀ k, (shift_live size (size - skip_live m size size 0) (skip_live m size size 0)
        (skip_live m size size 0) m).1 ≤ k → k < size →
      (shift_live size (size - skip_live m size size 0) (skip_live m size size 0)
        (skip_live m size size 0) m).2 k = AtexitEntry.zero) ∧
    (∀ k, size ≤ k →
      (shift_live size (size - skip_live m size size 0) (skip_live m size size 0)
        (skip_live m size size 0) m).2 k = m k) := by
  obtain ⟨_, hle, hlive, _⟩ := skip_live_spec m size size 0 (by omega) (by omega)
  apply shift_live_spec m size _ _ _ m (le_refl _) hle (le_refl _)
  · rw [live_entries_all_live m _ (fun k hk => hlive k (Nat.zero_le _) hk)]
  · intro k h1 h2; omega
  · intro k _; rfl

theorem map_range_length_eq (f : Nat → AtexitEntry) (n : Nat) (l : List AtexitEntry)
    (h : (List.range n).map f = l) : n = l.length := by
  rw [← h]; simp

/-- When `recompact` releases pages, no slot below the new size is inside the
released byte range. -/
theorem madvise_dontneed_below (pf : Platform) (m : Nat → AtexitEntry) (dst size k : Nat)
    (hlt : page_end_of_index pf dst < page_end_of_index pf size) (hk : k < dst) :
    madvise_dontneed pf m (page_end_of_index pf dst) (page_end_of_index pf size) k = m k := by
  have hP : 0 < pf.page_size := by
    rcases Nat.eq_zero_or_pos pf.page_size with h | h
    · simp [page_end_of_index, page_end, page_start, h] at hlt
    · exact h
  have hge : dst * pf.entry_size ≤ page_end_of_index pf dst := page_end_ge pf hP _
  have hmul : (k + 1) * pf.entry_size ≤ dst * pf.entry_size :=
    Nat.mul_le_mul_right _ (by omega)
  have hE : 0 < pf.entry_size := by
    rcases Nat.eq_zero_or_pos pf.entry_size with h | h
    · simp [page_end_of_index, h] at hlt
    · exact h
  unfold madvise_dontneed
  rw [if_neg]
  rintro ⟨h1, _⟩
  have : k * pf.entry_size < (k + 1) * pf.entry_size := by
    rw [Nat.add_mul]; omega
  omega

theorem madvise_dontneed_zero (pf : Platform) (m : Nat → AtexitEntry) (lo hi k : Nat)
    (h : m k = AtexitEntry.zero) : madvise_dontneed pf m lo hi k = AtexitEntry.zero := by
  unfold madvise_dontneed
  split <;> simp [h]

/-- C1. For every table (whether or not `size_ ≤ capacity_`), `recompact`
leaves in slots `[0, size')` exactly the entries of the old slots `[0, size_)`
with a non-null function pointer, in their original order; zeroes every slot
in `[size', size_)`; sets `size_` to the number of those entries and
`extracted_count_` to `0`; and keeps `capacity_` and `total_appends_`. -/
theorem recompact_compacts (pf : Platform) (s : AtexitArray) :
    (List.range (recompact pf s).size_).map (recompact pf s).slots
        = live_entries s.slots s.size_ ∧
    (recompact pf s).size_ = (live_entries s.slots s.size_).length ∧
    (∀ k, (recompact pf s).size_ ≤ k → k < s.size_ →
        (recompact pf s).slots k = AtexitEntry.zero) ∧
    (recompact pf s).extracted_count_ = 0 ∧
    (recompact pf s).capacity_ = s.capacity_ ∧
    (recompact pf s).total_appends_ = s.total_appends_ := by
  obtain ⟨h1, _, h3, _⟩ := recompact_loops_spec s.slots s.size_
  have hmap : (List.range (recompact pf s).size_).map (recompact pf s).slots
      = live_entries s.slots s.size_ := by
    rw [← h1]
    simp only [recompact]
    apply map_range_congr
    intro k hk
    split
    · next hlt => exact madvise_dontneed_below pf _ _ _ k hlt hk
    · rfl
  refine ⟨hmap, map_range_length_eq _ _ _ hmap, ?_, rfl, rfl, rfl⟩
  intro k hk1 hk2
  simp only [recompact] at hk1 ⊢
  split
  · exact madvise_dontneed_zero pf _ _ _ k (h3 k hk1 hk2)
  · exact h3 k hk1 hk2

/-- C1, the worked example: `[A, empty, B, empty, C]` becomes `[A, B, C]` with
`size_ = 3` and `extracted_count_ = 0`. -/
theorem recompact_compacts_example :
    (List.range (recompact example_platform example_table).size_).map
        (recompact example_platform example_table).slots = [entryA, entryB, entryC] ∧
    (recompact example_platform example_table).size_ = 3 ∧
    (recompact example_platform example_table).extracted_count_ = 0 := by
  have h := recompact_compacts example_platform example_table
  have hl : live_entries example_table.slots example_table.size_ = [entryA, entryB, entryC] := by
    decide
  rw [hl] at h
  exact ⟨h.1, h.2.1, h.2.2.2.1⟩

/-! ### Append, extract and growth -/

/-- A successful `expand_capacity` changes only the array pointer, the capacity
and, when the array was null, the (fresh, zero-filled) contents. -/
theorem expand_capacity_success (pf : Platform) (os : Option Nat) (s : AtexitArray)
    (h : (expand_capacity pf os s).1 = true) :
    (expand_capacity pf os s).2.size_ = s.size_ ∧
    (expand_capacity pf os s).2.extracted_count_ = s.extracted_count_ ∧
    (expand_capacity pf os s).2.total_appends_ = s.total_appends_ ∧
    (s.array_ ≠ 0 → (expand_capacity pf os s).2.slots = s.slots) ∧
    next_capacity pf s.capacity_ = some (expand_capacity pf os s).2.capacity_ := by
  unfold expand_capacity at h ⊢
  cases hn : next_capacity pf s.capacity_ with
  | none => simp [hn] at h
  | some c =>
    cases os with
    | none => simp [hn] at h
    | some p =>
      by_cases ha : s.array_ = 0 <;> simp [ha]

/-- A failed `expand_capacity` leaves the table as it was. -/
theorem expand_capacity_failure (pf : Platform) (os : Option Nat) (s : AtexitArray)
    (h : (expand_capacity pf os s).1 = false) : (expand_capacity pf os s).2 = s := by
  unfold expand_capacity at h ⊢
  cases hn : next_capacity pf s.capacity_ with
  | none => rfl
  | some c =>
    cases os with
    | none => rfl
    | some p =>
      by_cases ha : s.array_ = 0 <;> simp [hn, ha] at h

/-- The counters after `append_entry`: a successful call adds one to `size_`
and keeps `extracted_count_`; with room left the call succeeds and keeps the
capacity. -/
theorem append_entry_effect (pf : Platform) (os : Option Nat) (e : AtexitEntry)
    (s : AtexitArray) :
    ((append_entry pf os e s).1 = true →
      (append_entry pf os e s).2.size_ = s.size_ + 1 ∧
      (append_entry pf os e s).2.extracted_count_ = s.extracted_count_) ∧
    (s.size_ < s.capacity_ →
      (append_entry pf os e s).1 = true ∧
      (append_entry pf os e s).2.capacity_ = s.capacity_) := by
  constructor
  · intro h
    unfold append_entry at h ⊢
    by_cases hfull : s.capacity_ ≤ s.size_
    · simp only [hfull, if_true] at h ⊢
      cases hg : (expand_capacity pf os s).1 with
      | false => simp [hg] at h
      | true =>
        obtain ⟨h1, h2, _, _, _⟩ := expand_capacity_success pf os s hg
        simp only [Bool.true_eq_false, if_false, h1, h2]
        exact ⟨trivial, trivial⟩
    · simp only [hfull, if_false, Bool.true_eq_false]
      exact ⟨trivial, trivial⟩
  · intro hlt
    have hfull : ¬ s.capacity_ ≤ s.size_ := by omega
    simp [append_entry, hfull]

/-- C2. Whenever `append_entry` returns `true`, the size has grown by one, the
slot at the old size holds the appended entry, `total_appends_` has grown by
one, `extracted_count_` is unchanged and every slot of the (non-null) array
below the old size is unchanged; and when `size_ < capacity_` the call returns
`true` and keeps the capacity. -/
theorem append_entry_success (pf : Platform) (os : Option Nat) (e : AtexitEntry)
    (s : AtexitArray) :
    ((append_entry pf os e s).1 = true →
      (append_entry pf os e s).2.size_ = s.size_ + 1 ∧
      (append_entry pf os e s).2.slots s.size_ = e ∧
      (append_entry pf os e s).2.total_appends_ = s.total_appends_ + 1 ∧
      (append_entry pf os e s).2.extracted_count_ = s.extracted_count_ ∧
      (s.array_ ≠ 0 → ∀ j, j < s.size_ → (append_entry pf os e s).2.slots j = s.slots j)) ∧
    (s.size_ < s.capacity_ →
      (append_entry pf os e s).1 = true ∧
      (append_entry pf os e s).2.capacity_ = s.capacity_) := by
  constructor
  · intro h
    unfold append_entry at h ⊢
    by_cases hfull : s.capacity_ ≤ s.size_
    · simp only [hfull, if_true] at h ⊢
      cases hg : (expand_capacity pf os s).1 with
      | false => simp [hg] at h
      | true =>
        obtain ⟨h1, h2, h3, h4, _⟩ := expand_capacity_success pf os s hg
        simp only [Bool.true_eq_false, if_false, h1, h2, h3]
        refine ⟨trivial, store_same _ _ _, trivial, trivial, ?_⟩
        intro ha j hj
        rw [store_other _ _ _ _ (by omega), h4 ha]
    · simp only [hfull, if_false, Bool.true_eq_false]
      refine ⟨trivial, store_same _ _ _, trivial, trivial, ?_⟩
      intro _ j hj
      rw [store_other _ _ _ _ (by omega)]
  · intro hlt
    have hfull : ¬ s.capacity_ ≤ s.size_ := by omega
    simp [append_entry, hfull]

/-- C2 at the table `[A, empty, B, empty, C]` of capacity 170: the append
succeeds without growth, the entry lands in slot 5 and slot 2 is untouched. -/
theorem append_entry_success_witness :
    example_table.size_ < example_table.capacity_ ∧ example_table.array_ ≠ 0 ∧
    (append_entry example_platform none entryB example_table).1 = true ∧
    (append_entry example_platform none entryB example_table).2.size_
      = example_table.size_ + 1 ∧
    (append_entry example_platform none entryB example_table).2.slots example_table.size_
      = entryB ∧
    (append_entry example_platform none entryB example_table).2.total_appends_
      = example_table.total_appends_ + 1 ∧
    (append_entry example_platform none entryB example_table).2.extracted_count_
      = example_table.extracted_count_ ∧
    (append_entry example_platform none entryB example_table).2.slots 2
      = example_table.slots 2 ∧
    (append_entry example_platform none entryB example_table).2.capacity_
      = example_table.capacity_ := by
  have h := append_entry_success example_platform none entryB example_table
  have hlt : example_table.size_ < example_table.capacity_ := by decide
  have ha : example_table.array_ ≠ 0 := by decide
  obtain ⟨hret, hcap⟩ := h.2 hlt
  obtain ⟨a, b, c, d, f⟩ := h.1 hret
  exact ⟨hlt, ha, hret, a, b, c, d, f ha 2 (by decide), hcap⟩

/-- C3. `extract_entry i` returns the entry slot `i` held, zeroes slot `i`, adds
one to `extracted_count_`, and leaves `size_`, `capacity_`, `total_appends_`
and every other slot as they were. -/
theorem extract_entry_spec (s : AtexitArray) (i : Nat) :
    (extract_entry i s).1 = s.slots i ∧
    (extract_entry i s).2.slots i = AtexitEntry.zero ∧
    ((extract_entry i s).2.slots i).fn = 0 ∧
    ((extract_entry i s).2.slots i).arg = 0 ∧
    ((extract_entry i s).2.slots i).dso = 0 ∧
    (extract_entry i s).2.extracted_count_ = s.extracted_count_ + 1 ∧
    (extract_entry i s).2.size_ = s.size_ ∧
    (extract_entry i s).2.capacity_ = s.capacity_ ∧
    (extract_entry i s).2.total_appends_ = s.total_appends_ ∧
    (extract_entry i s).2.array_ = s.array_ ∧
    (∀ j, j ≠ i → (extract_entry i s).2.slots j = s.slots j) := by
  have hz : (extract_entry i s).2.slots i = AtexitEntry.zero := store_same _ _ _
  refine ⟨rfl, hz, by rw [hz]; rfl, by rw [hz]; rfl, by rw [hz]; rfl, rfl, rfl, rfl, rfl, rfl, ?_⟩
  intro j hj
  exact store_other _ _ _ _ hj

/-- The `size_t` computation of `page_end_of_index` is exact when nothing
wraps. -/
theorem page_end_of_index_size_t_eq (pf : Platform) (c : Nat)
    (h : c * pf.entry_size + (pf.page_size - 1) ≤ pf.size_max) :
    page_end_of_index_size_t pf c = page_end_of_index pf c := by
  unfold page_end_of_index_size_t page_end_of_index page_end to_size_t
  rw [Nat.mod_eq_of_lt (a := c * pf.entry_size) (by omega), Nat.mod_eq_of_lt (by omega)]

/-- C4. On a full table with non-zero capacity for which doubling
`page_end_of_index(capacity_)`, the page-aligned byte capacity as the code
computes it in `size_t`, overflows `size_t`: `next_capacity`,
`expand_capacity` and `append_entry` all report failure and the table is
returned unchanged, that is its array base, `size_`, `extracted_count_`,
`capacity_`, `total_appends_` and every slot. -/
theorem growth_overflow_preserves (pf : Platform) (os : Option Nat) (e : AtexitEntry)
    (s : AtexitArray) (hfull : s.capacity_ ≤ s.size_) (hcap : 0 < s.capacity_)
    (hov : pf.size_max < 2 * page_end_of_index_size_t pf s.capacity_) :
    next_capacity pf s.capacity_ = none ∧
    expand_capacity pf os s = (false, s) ∧
    append_entry pf os e s = (false, s) := by
  have hn : next_capacity pf s.capacity_ = none := by
    unfold next_capacity
    rw [if_neg (by omega), if_pos (by omega)]
  have he : expand_capacity pf os s = (false, s) := by
    unfold expand_capacity
    rw [hn]
  refine ⟨hn, he, ?_⟩
  unfold append_entry
  simp [hfull, he]

/-- C4 at a full table of `2 ^ 59` entries of 24 bytes: its byte capacity
`3 * 2 ^ 62` fits in 64 bits and doubling it does not. -/
theorem growth_overflow_preserves_witness :
    overflow_table.capacity_ ≤ overflow_table.size_ ∧ 0 < overflow_table.capacity_ ∧
    page_end_of_index_size_t example_platform overflow_table.capacity_ = 3 * 2 ^ 62 ∧
    example_platform.size_max
      < 2 * page_end_of_index_size_t example_platform overflow_table.capacity_ ∧
    next_capacity example_platform overflow_table.capacity_ = none ∧
    expand_capacity example_platform (some 8192) overflow_table = (false, overflow_table) ∧
    append_entry example_platform (some 8192) entryA overflow_table
      = (false, overflow_table) :=
  ⟨by decide, by decide, by decide, by decide,
   growth_overflow_preserves example_platform (some 8192) entryA overflow_table
     (by decide) (by decide) (by decide)⟩

/-! ### Growth policy -/

theorem page_end_of_le_page (pf : Platform) (x : Nat) (h0 : 0 < x) (hx : x ≤ pf.page_size) :
    page_end pf x = pf.page_size := by
  unfold page_end page_start
  have hP : 0 < pf.page_size := by omega
  have : (x + (pf.page_size - 1)) / pf.page_size = 1 := by
    apply Nat.div_eq_of_lt_le
    · omega
    · omega
  rw [this, Nat.one_mul]

/-- With entries no larger than a page, the first growth gives one page's
worth of entries. -/
theorem next_capacity_zero (pf : Platform) (hE : 0 < pf.entry_size)
    (hEP : pf.entry_size ≤ pf.page_size) :
    next_capacity pf 0 = some (pf.page_size / pf.entry_size) := by
  unfold next_capacity
  rw [if_pos rfl, page_end_of_le_page pf _ hE hEP]

/-- Growing a table that holds exactly one page's worth of entries gives the
number of entries that fit in two pages. -/
theorem next_capacity_one_page (pf : Platform) (hE : 0 < pf.entry_size)
    (hEP : pf.entry_size ≤ pf.page_size) (h2 : 2 * pf.page_size ≤ pf.size_max) :
    next_capacity pf (pf.page_size / pf.entry_size) = some (2 * pf.page_size / pf.entry_size) := by
  have hn : 0 < pf.page_size / pf.entry_size := Nat.div_pos hEP hE
  have hmul : pf.page_size / pf.entry_size * pf.entry_size ≤ pf.page_size :=
    Nat.div_mul_le_self _ _
  have hpe : page_end_of_index pf (pf.page_size / pf.entry_size) = pf.page_size := by
    unfold page_end_of_index
    exact page_end_of_le_page pf _ (Nat.mul_pos hn hE) hmul
  unfold next_capacity
  rw [if_neg (by omega), page_end_of_index_size_t_eq pf _ (by omega), hpe, if_neg (by omega),
    Nat.mul_comm]

theorem run_append (pf : Platform) (ops1 ops2 : List Op) (s : AtexitArray) :
    run pf (ops1 ++ ops2) s = run pf ops2 (run pf ops1 s) := by
  induction ops1 generalizing s with
  | nil => rfl
  | cons op ops ih => simp [run, ih]

/-- Appends into free slots keep the capacity. -/
theorem run_appends_no_growth (pf : Platform) (items : List (Nat × AtexitEntry)) :
    ∀ s : AtexitArray, s.size_ + items.length ≤ s.capacity_ →
      (run pf (appends items) s).size_ = s.size_ + items.length ∧
      (run pf (appends items) s).capacity_ = s.capacity_ := by
  induction items with
  | nil => intro s _; simp [appends, run]
  | cons it rest ih =>
    intro s h
    simp only [List.length_cons] at h
    have hlt : s.size_ < s.capacity_ := by omega
    obtain ⟨hsz, _⟩ := append_entry_effect pf (some it.1) it.2 s
    obtain ⟨hret, hcap⟩ := (append_entry_effect pf (some it.1) it.2 s).2 hlt
    obtain ⟨hs1, _⟩ := hsz hret
    have := ih (append_entry pf (some it.1) it.2 s).2 (by rw [hs1, hcap]; omega)
    simp only [appends, List.map_cons, run, step, List.length_cons] at this ⊢
    rw [this.1, this.2, hs1, hcap]
    exact ⟨by omega, rfl⟩

/-- An append to a full table whose mapping call succeeds moves the capacity
to the value computed by `next_capacity`. -/
theorem append_entry_full (pf : Platform) (p : Nat) (e : AtexitEntry) (s : AtexitArray) (c : Nat)
    (hfull : s.capacity_ ≤ s.size_) (hn : next_capacity pf s.capacity_ = some c) :
    (append_entry pf (some p) e s).1 = true ∧
    (append_entry pf (some p) e s).2.capacity_ = c ∧
    (append_entry pf (some p) e s).2.size_ = s.size_ + 1 ∧
    (append_entry pf (some p) e s).2.slots s.size_ = e := by
  unfold append_entry expand_capacity
  rw [hn]
  by_cases ha : s.array_ = 0 <;> simp [hfull, ha, store_same]


/-- The first append to the empty table, with entries no larger than a page. -/
theorem append_entry_empty (pf : Platform) (hE : 0 < pf.entry_size)
    (hEP : pf.entry_size ≤ pf.page_size) (p : Nat) (e : AtexitEntry) :
    (append_entry pf (some p) e AtexitArray.empty).1 = true ∧
    (append_entry pf (some p) e AtexitArray.empty).2.capacity_
      = pf.page_size / pf.entry_size ∧
    (append_entry pf (some p) e AtexitArray.empty).2.size_ = 1 ∧
    (append_entry pf (some p) e AtexitArray.empty).2.slots 0 = e := by
  have h := append_entry_full pf p e AtexitArray.empty _ (le_refl _) (next_capacity_zero pf hE hEP)
  exact ⟨h.1, h.2.1, h.2.2.1, h.2.2.2⟩

/-- Capacity along a run of successful appends from the empty table: it stays
at one page's worth of entries until that many entries are stored, and the
next append moves it to two pages' worth. -/
theorem run_appends_from_empty (pf : Platform) (hE : 0 < pf.entry_size)
    (hEP : pf.entry_size ≤ pf.page_size) (it : Nat × AtexitEntry)
    (items : List (Nat × AtexitEntry)) :
    (items.length + 1 ≤ pf.page_size / pf.entry_size →
      (run pf (appends (it :: items)) AtexitArray.empty).size_ = items.length + 1 ∧
      (run pf (appends (it :: items)) AtexitArray.empty).capacity_
        = pf.page_size / pf.entry_size) ∧
    (items.length = pf.page_size / pf.entry_size → 2 * pf.page_size ≤ pf.size_max →
      (run pf (appends (it :: items)) AtexitArray.empty).capacity_
        = 2 * pf.page_size / pf.entry_size) := by
  obtain ⟨_, hcap1, hsz1, _⟩ := append_entry_empty pf hE hEP it.1 it.2
  have hfew : ∀ l : List (Nat × AtexitEntry), l.length + 1 ≤ pf.page_size / pf.entry_size →
      (run pf (appends (it :: l)) AtexitArray.empty).size_ = l.length + 1 ∧
      (run pf (appends (it :: l)) AtexitArray.empty).capacity_
        = pf.page_size / pf.entry_size := by
    intro l hl
    have := run_appends_no_growth pf l (append_entry pf (some it.1) it.2 AtexitArray.empty).2
      (by rw [hsz1, hcap1]; omega)
    simp only [appends, List.map_cons, run, step] at this ⊢
    rw [this.1, this.2, hsz1, hcap1]
    exact ⟨by omega, rfl⟩
  refine ⟨hfew items, ?_⟩
  intro hlen h2
  have hn : 0 < pf.page_size / pf.entry_size := Nat.div_pos hEP hE
  have hne : items ≠ [] := by
    intro h
    rw [h] at hlen
    simp at hlen
    omega
  obtain ⟨mid, last, rfl⟩ : ∃ mid last, items = mid ++ [last] :=
    ⟨items.dropLast, items.getLast hne, (List.dropLast_append_getLast hne).symm⟩
  simp only [List.length_append, List.length_singleton] at hlen
  obtain ⟨hsz, hcap⟩ := hfew mid (by omega)
  have hrun : run pf (appends (it :: (mid ++ [last]))) AtexitArray.empty
      = (append_entry pf (some last.1) last.2
          (run pf (appends (it :: mid)) AtexitArray.empty)).2 := by
    have : appends (it :: (mid ++ [last])) = appends (it :: mid) ++ appends [last] := by
      simp [appends]
    rw [this, run_append]
    rfl
  rw [hrun]
  refine (append_entry_full pf last.1 last.2 _ _ (by omega) ?_).2.1
  rw [hcap]
  exact next_capacity_one_page pf hE hEP h2

/-- Two pages hold twice the entries of one page, or one more. -/
theorem two_pages_entries (P E : Nat) (hE : 0 < E) :
    2 * (P / E) ≤ 2 * P / E ∧ 2 * P / E ≤ 2 * (P / E) + 1 := by
  have h1 := Nat.div_add_mod P E
  have h2 := Nat.mod_lt P hE
  constructor
  · rw [Nat.le_div_iff_mul_le hE]
    have := Nat.div_mul_le_self P E
    calc 2 * (P / E) * E = 2 * (P / E * E) := by ring
      _ ≤ 2 * P := by omega
  · have : 2 * P / E < 2 * (P / E) + 1 + 1 := by
      rw [Nat.div_lt_iff_lt_mul hE]
      have : (2 * (P / E) + 1 + 1) * E = 2 * (E * (P / E)) + 2 * E := by ring
      omega
    omega

/-- C5 (as amended). With `0 < entry_size ≤ page_size` and every mapping call
succeeding, the first append to the empty table sets the capacity to the
`n = page_size / entry_size` entries of one page and stores the entry in slot
0; appends 2 to `n` (the list `few`) leave the capacity at `n`; and, when two pages fit in
`size_t`, append `n + 1` sets the capacity to the `2 * page_size / entry_size`
entries of two pages, which is `2 * n` or `2 * n + 1`. -/
theorem append_growth_schedule (pf : Platform) (it : Nat × AtexitEntry)
    (few items : List (Nat × AtexitEntry)) (hE : 0 < pf.entry_size)
    (hEP : pf.entry_size ≤ pf.page_size) :
    ((append_entry pf (some it.1) it.2 AtexitArray.empty).1 = true ∧
     (append_entry pf (some it.1) it.2 AtexitArray.empty).2.capacity_
        = pf.page_size / pf.entry_size ∧
     (append_entry pf (some it.1) it.2 AtexitArray.empty).2.slots 0 = it.2) ∧
    (few.length + 1 ≤ pf.page_size / pf.entry_size →
      (run pf (appends (it :: few)) AtexitArray.empty).capacity_
        = pf.page_size / pf.entry_size) ∧
    (items.length = pf.page_size / pf.entry_size → 2 * pf.page_size ≤ pf.size_max →
      (run pf (appends (it :: items)) AtexitArray.empty).capacity_
        = 2 * pf.page_size / pf.entry_size) ∧
    2 * (pf.page_size / pf.entry_size) ≤ 2 * pf.page_size / pf.entry_size ∧
    2 * pf.page_size / pf.entry_size ≤ 2 * (pf.page_size / pf.entry_size) + 1 := by
  obtain ⟨h1, h2, _, h4⟩ := append_entry_empty pf hE hEP it.1 it.2
  exact ⟨⟨h1, h2, h4⟩, fun h => ((run_appends_from_empty pf hE hEP it few).1 h).2,
    (run_appends_from_empty pf hE hEP it items).2, two_pages_entries _ _ hE⟩

/-- C5 as stated fails with 4 KiB pages and 24-byte entries: one page holds
170 entries, and append 171 sets the capacity to 341, not 340. -/
theorem capacity_not_exactly_doubled :
    example_platform.entry_size ≤ example_platform.page_size ∧
    example_platform.page_size / example_platform.entry_size = 170 ∧
    (run example_platform (appends (List.replicate 170 (4096, entryA)))
        AtexitArray.empty).capacity_ = 170 ∧
    (run example_platform (appends (List.replicate 171 (4096, entryA)))
        AtexitArray.empty).capacity_ = 341 ∧
    (run example_platform (appends (List.replicate 171 (4096, entryA)))
        AtexitArray.empty).capacity_ ≠ 2 * 170 := by
  have hE : 0 < example_platform.entry_size := by decide
  have hEP : example_platform.entry_size ≤ example_platform.page_size := by decide
  have h170 := (run_appends_from_empty example_platform hE hEP (4096, entryA)
    (List.replicate 169 (4096, entryA))).1 (by rw [List.length_replicate]; decide)
  have h171 := (run_appends_from_empty example_platform hE hEP (4096, entryA)
    (List.replicate 170 (4096, entryA))).2 (by rw [List.length_replicate]; decide) (by decide)
  have e170 : List.replicate 170 ((4096 : Nat), entryA)
      = (4096, entryA) :: List.replicate 169 (4096, entryA) := rfl
  have e171 : List.replicate 171 ((4096 : Nat), entryA)
      = (4096, entryA) :: List.replicate 170 (4096, entryA) := rfl
  rw [e170, e171, h170.2, h171]
  exact ⟨hEP, by decide, by decide, by decide, by decide⟩

/-- The amended C5 at 4 KiB pages and 24-byte entries: capacity 170 after one
and after three appends, 341 after 171. -/
theorem append_growth_schedule_witness :
    0 < example_platform.entry_size ∧
    example_platform.entry_size ≤ example_platform.page_size ∧
    (append_entry example_platform (some 4096) entryA AtexitArray.empty).1 = true ∧
    (append_entry example_platform (some 4096) entryA AtexitArray.empty).2.capacity_
      = example_platform.page_size / example_platform.entry_size ∧
    (append_entry example_platform (some 4096) entryA AtexitArray.empty).2.slots 0 = entryA ∧
    (run example_platform (appends [(4096, entryA), (4096, entryB), (4096, entryC)])
        AtexitArray.empty).capacity_
      = example_platform.page_size / example_platform.entry_size ∧
    (run example_platform (appends ((4096, entryA) :: List.replicate 170 (4096, entryB)))
        AtexitArray.empty).capacity_
      = 2 * example_platform.page_size / example_platform.entry_size := by
  have h := append_growth_schedule example_platform (4096, entryA)
    [(4096, entryB), (4096, entryC)] (List.replicate 170 (4096, entryB)) (by decide) (by decide)
  exact ⟨by decide, by decide, h.1.1, h.1.2.1, h.1.2.2, h.2.1 (by decide),
    h.2.2.1 (by rw [List.length_replicate]; decide) (by decide)⟩
theorem recompact_loops_size (pf : Platform) (s : AtexitArray) :
    (recompact pf s).size_ = (live_entries s.slots s.size_).length := by
  obtain ⟨h1, _⟩ := recompact_loops_spec s.slots s.size_
  exact map_range_length_eq _ _ _ h1

/-! ### Invariants of reachable tables -/

/-- A successful `next_capacity` strictly increases a capacity whose bytes are
computed without wrapping, also from zero and also for entries larger than a
page. -/
theorem next_capacity_gt (pf : Platform) (hP : 0 < pf.page_size) (hE : 0 < pf.entry_size)
    (c r : Nat) (hfit : Fits pf c) (h : next_capacity pf c = some r) : c < r := by
  unfold next_capacity at h
  by_cases hc : c = 0
  · rw [if_pos hc] at h
    injection h with h
    subst hc
    rw [← h]
    exact Nat.div_pos (page_end_ge pf hP _) hE
  · have hfit' : c * pf.entry_size + (pf.page_size - 1) ≤ pf.size_max := by
      rcases hfit with h0 | h0
      · exact absurd h0 hc
      · exact h0
    rw [if_neg hc, page_end_of_index_size_t_eq pf c hfit'] at h
    by_cases hov : pf.size_max < page_end_of_index pf c * 2
    · rw [if_pos hov] at h; cases h
    · rw [if_neg hov] at h
      injection h with h
      rw [← h]
      have hge : c * pf.entry_size ≤ page_end_of_index pf c := page_end_ge pf hP _
      have : c + 1 ≤ page_end_of_index pf c * 2 / pf.entry_size := by
        rw [Nat.le_div_iff_mul_le hE]
        have h3 : (c + 1) * pf.entry_size ≤ (c + c) * pf.entry_size :=
          Nat.mul_le_mul_right _ (by omega)
        have h4 : (c + c) * pf.entry_size = c * pf.entry_size * 2 := by ring
        omega
      omega

/-- A multiple of the page size below `SIZE_MAX + 1` leaves room for one more
page when `size_t` holds a whole number of pages. -/
theorem multiple_of_page_fits (P M x : Nat) (hdiv : P ∣ M) (hx : P ∣ x) (hlt : x < M) :
    x + P ≤ M := by
  obtain ⟨b, rfl⟩ := hdiv
  obtain ⟨a, rfl⟩ := hx
  have hab : a < b := by
    by_contra hge
    have : P * b ≤ P * a := Nat.mul_le_mul_left _ (by omega)
    omega
  have : P * (a + 1) ≤ P * b := Nat.mul_le_mul_left _ hab
  rw [Nat.mul_add, Nat.mul_one] at this
  exact this

/-- When `size_t` holds a whole number of pages and the first page of entries
fits in it, the capacity a successful `next_capacity` returns has bytes that
are computed without wrapping, provided that holds for the capacity given. -/
theorem next_capacity_fits (pf : Platform) (hP : 0 < pf.page_size) (hE : 0 < pf.entry_size)
    (hdiv : pf.page_size ∣ pf.size_max + 1) (hfirst : page_end pf pf.entry_size ≤ pf.size_max)
    (c r : Nat) (hfit : Fits pf c) (h : next_capacity pf c = some r) : Fits pf r := by
  right
  unfold next_capacity at h
  by_cases hc : c = 0
  · rw [if_pos hc] at h
    injection h with h
    rw [← h]
    have h1 := Nat.div_mul_le_self (page_end pf pf.entry_size) pf.entry_size
    have h2 := multiple_of_page_fits pf.page_size (pf.size_max + 1) (page_end pf pf.entry_size)
      hdiv (by unfold page_end page_start; exact Nat.dvd_mul_left _ _) (by omega)
    omega
  · have hfit' : c * pf.entry_size + (pf.page_size - 1) ≤ pf.size_max := by
      rcases hfit with h0 | h0
      · exact absurd h0 hc
      · exact h0
    rw [if_neg hc, page_end_of_index_size_t_eq pf c hfit'] at h
    by_cases hov : pf.size_max < page_end_of_index pf c * 2
    · rw [if_pos hov] at h; cases h
    · rw [if_neg hov] at h
      injection h with h
      rw [← h]
      have h1 := Nat.div_mul_le_self (page_end_of_index pf c * 2) pf.entry_size
      have h2 := multiple_of_page_fits pf.page_size (pf.size_max + 1)
        (page_end_of_index pf c * 2) hdiv
        (by
          unfold page_end_of_index page_end page_start
          exact Dvd.dvd.mul_right (Nat.dvd_mul_left _ _) _)
        (by omega)
      omega

theorem recompact_size_le (pf : Platform) (s : AtexitArray) :
    (recompact pf s).size_ ≤ s.size_ := by
  rw [(recompact_loops_size pf s)]
  exact live_entries_length_le _ _


/-- A failed `append_entry` leaves the table as it was. -/
theorem append_entry_failure (pf : Platform) (os : Option Nat) (e : AtexitEntry)
    (s : AtexitArray) (h : (append_entry pf os e s).1 = false) :
    (append_entry pf os e s).2 = s := by
  unfold append_entry at h ⊢
  by_cases hfull : s.capacity_ ≤ s.size_
  · simp only [hfull, if_true] at h ⊢
    cases hg : (expand_capacity pf os s).1 with
    | false => simpa [hg] using expand_capacity_failure pf os s hg
    | true => simp [hg] at h
  · simp [hfull] at h

/-- After a successful `append_entry` on a table with `size_ ≤ capacity_`
whose capacity has bytes computed without wrapping, the slot just written lies
below the capacity. -/
theorem append_entry_index_lt (pf : Platform) (hP : 0 < pf.page_size)
    (hE : 0 < pf.entry_size) (os : Option Nat) (e : AtexitEntry) (s : AtexitArray)
    (hinv : s.size_ ≤ s.capacity_) (hfit : Fits pf s.capacity_)
    (h : (append_entry pf os e s).1 = true) :
    s.size_ < (append_entry pf os e s).2.capacity_ := by
  by_cases hfull : s.capacity_ ≤ s.size_
  · have hg : (expand_capacity pf os s).1 = true := by
      by_contra hg
      simp [append_entry, hfull, hg] at h
    obtain ⟨_, _, _, _, hn⟩ := expand_capacity_success pf os s hg
    have hlt := next_capacity_gt pf hP hE _ _ hfit hn
    have : (append_entry pf os e s).2.capacity_ = (expand_capacity pf os s).2.capacity_ := by
      simp [append_entry, hfull, hg]
    omega
  · have := ((append_entry_effect pf os e s).2 (by omega)).2
    omega

theorem step_keeps_size_le (pf : Platform) (hP : 0 < pf.page_size) (hE : 0 < pf.entry_size)
    (op : Op) (s : AtexitArray) (hinv : s.size_ ≤ s.capacity_) (hfit : Fits pf s.capacity_) :
    (step pf op s).size_ ≤ (step pf op s).capacity_ := by
  cases op with
  | append os e =>
    simp only [step]
    cases hr : (append_entry pf os e s).1 with
    | false => rw [append_entry_failure pf os e s hr]; exact hinv
    | true =>
      have h1 := ((append_entry_effect pf os e s).1 hr).1
      have h2 := append_entry_index_lt pf hP hE os e s hinv hfit hr
      omega
  | extract i => exact hinv
  | recompact =>
    have := recompact_size_le pf s
    have hc : (recompact pf s).capacity_ = s.capacity_ := rfl
    simp only [step]
    omega

/-- Every call keeps the capacity among those whose bytes are computed without
wrapping. -/
theorem step_keeps_fits (pf : Platform) (hP : 0 < pf.page_size) (hE : 0 < pf.entry_size)
    (hdiv : pf.page_size ∣ pf.size_max + 1) (hfirst : page_end pf pf.entry_size ≤ pf.size_max)
    (op : Op) (s : AtexitArray) (hfit : Fits pf s.capacity_) :
    Fits pf (step pf op s).capacity_ := by
  cases op with
  | extract i => exact hfit
  | recompact => exact hfit
  | append os e =>
    simp only [step]
    by_cases hfull : s.capacity_ ≤ s.size_
    · cases hg : (expand_capacity pf os s).1 with
      | false =>
        have : (append_entry pf os e s).1 = false := by simp [append_entry, hfull, hg]
        rw [append_entry_failure pf os e s this]
        exact hfit
      | true =>
        obtain ⟨_, _, _, _, hn⟩ := expand_capacity_success pf os s hg
        have : (append_entry pf os e s).2.capacity_ = (expand_capacity pf os s).2.capacity_ := by
          simp [append_entry, hfull, hg]
        rw [this]
        exact next_capacity_fits pf hP hE hdiv hfirst _ _ hfit hn
    · rw [((append_entry_effect pf os e s).2 (by omega)).2]
      exact hfit

theorem run_keeps_size_le (pf : Platform) (hP : 0 < pf.page_size) (hE : 0 < pf.entry_size)
    (hdiv : pf.page_size ∣ pf.size_max + 1) (hfirst : page_end pf pf.entry_size ≤ pf.size_max)
    (ops : List Op) :
    ∀ s : AtexitArray, s.size_ ≤ s.capacity_ → Fits pf s.capacity_ →
      (run pf ops s).size_ ≤ (run pf ops s).capacity_ ∧ Fits pf (run pf ops s).capacity_ := by
  induction ops with
  | nil => intro s h hf; exact ⟨h, hf⟩
  | cons op ops ih =>
    intro s h hf
    exact ih _ (step_keeps_size_le pf hP hE op s h hf)
      (step_keeps_fits pf hP hE hdiv hfirst op s hf)

/-- C6 (as amended). With a non-zero page size and entry size, a `size_t` that
holds a whole number of pages and a first page of entries that fits in it:
`size_ ≤ capacity_` holds in every table reached from the empty one by any
sequence of `append_entry` (successful or failed), `extract_entry` and
`recompact`, and the bytes of every such capacity are computed without
wrapping; a successful `next_capacity` returns more than it was given for
every capacity whose bytes are computed without wrapping, zero included and
also for entries larger than a page; and the slot index written by a
successful `append_entry` on a reachable table is below the new capacity. -/
theorem size_le_capacity_reachable (pf : Platform) (ops : List Op) (os : Option Nat)
    (e : AtexitEntry) (c r : Nat) (hP : 0 < pf.page_size) (hE : 0 < pf.entry_size)
    (hdiv : pf.page_size ∣ pf.size_max + 1)
    (hfirst : page_end pf pf.entry_size ≤ pf.size_max) :
    (run pf ops AtexitArray.empty).size_ ≤ (run pf ops AtexitArray.empty).capacity_ ∧
    Fits pf (run pf ops AtexitArray.empty).capacity_ ∧
    (Fits pf c → next_capacity pf c = some r → c < r) ∧
    ((append_entry pf os e (run pf ops AtexitArray.empty)).1 = true →
      (run pf ops AtexitArray.empty).size_
        < (append_entry pf os e (run pf ops AtexitArray.empty)).2.capacity_) := by
  have hinv := run_keeps_size_le pf hP hE hdiv hfirst ops AtexitArray.empty (le_refl _)
    (Or.inl rfl)
  exact ⟨hinv.1, hinv.2, next_capacity_gt pf hP hE c r,
    append_entry_index_lt pf hP hE os e _ hinv.1 hinv.2⟩

/-- The amended C6 on a run that grows the table, fails to grow it, extracts
and recompacts, with an entry size (5000) larger than the page (4096) and a
64-bit `size_t`. -/
theorem size_le_capacity_reachable_witness :
    0 < large_entry_platform.page_size ∧
    0 < large_entry_platform.entry_size ∧
    large_entry_platform.page_size ∣ large_entry_platform.size_max + 1 ∧
    page_end large_entry_platform large_entry_platform.entry_size
      ≤ large_entry_platform.size_max ∧
    (run large_entry_platform
        example_ops AtexitArray.empty).size_
      ≤ (run large_entry_platform
        example_ops AtexitArray.empty).capacity_ ∧
    Fits large_entry_platform 1 ∧
    next_capacity large_entry_platform 1 = some 3 ∧ 1 < 3 ∧
    (append_entry large_entry_platform (some 8192) entryC
        (run large_entry_platform
          example_ops AtexitArray.empty)).1 = true ∧
    (run large_entry_platform
        example_ops AtexitArray.empty).size_
      < (append_entry large_entry_platform (some 8192) entryC
          (run large_entry_platform
            example_ops AtexitArray.empty)).2.capacity_ := by
  have hdiv : large_entry_platform.page_size ∣ large_entry_platform.size_max + 1 := by decide
  have h := size_le_capacity_reachable large_entry_platform
    example_ops (some 8192) entryC 1 3 (by decide) (by decide) hdiv (by decide)
  have hf : Fits large_entry_platform 1 := Or.inr (by decide)
  have hn : next_capacity large_entry_platform 1 = some 3 := by decide
  have hr : (append_entry large_entry_platform (some 8192) entryC
        (run large_entry_platform
          example_ops AtexitArray.empty)).1 = true := by decide
  exact ⟨by decide, by decide, hdiv, by decide, h.1, hf, hn, h.2.2.1 hf hn, hr, h.2.2.2 hr⟩

/-- C6 as stated fails for a capacity that no table reaches: with 4 KiB pages,
24-byte entries and a 64-bit `size_t`, the bytes of `2 ^ 61` entries wrap to
`0`, so `next_capacity (2 ^ 61)` reports success with the result `0`, which is
not more than `2 ^ 61`. -/
theorem next_capacity_wraps_to_zero :
    to_size_t example_platform (2 ^ 61 * example_platform.entry_size) = 0 ∧
    page_end_of_index_size_t example_platform (2 ^ 61) = 0 ∧
    next_capacity example_platform (2 ^ 61) = some 0 ∧
    ¬ (2 ^ 61 < 0) := by
  decide

theorem live_entries_congr (f g : Nat → AtexitEntry) (n : Nat) (h : ∀ k, k < n → f k = g k) :
    live_entries f n = live_entries g n := by
  unfold live_entries
  rw [map_range_congr f g n h]

theorem live_entries_zero (n : Nat) : live_entries (fun _ => AtexitEntry.zero) n = [] := by
  unfold live_entries
  rw [List.filter_eq_nil_iff]
  intro e he
  simp only [List.mem_map] at he
  obtain ⟨_, _, rfl⟩ := he
  simp [AtexitEntry.zero]

/-- Zeroing a live slot below `n` removes exactly one live entry. -/
theorem live_entries_store_zero (m : Nat → AtexitEntry) (i : Nat) (hl : (m i).fn ≠ 0) :
    ∀ n, i < n →
      (live_entries (store m i AtexitEntry.zero) n).length + 1 = (live_entries m n).length := by
  intro n
  induction n with
  | zero => intro h; omega
  | succ n ih =>
    intro h
    rw [live_entries_succ, live_entries_succ, List.length_append, List.length_append]
    by_cases hi : i = n
    · subst hi
      rw [live_entries_congr (store m i AtexitEntry.zero) m i
        (fun k hk => store_other _ _ _ _ (by omega)), store_same]
      simp [AtexitEntry.zero, hl]
    · have := ih (by omega)
      rw [store_other _ _ _ _ (by omega : n ≠ i)]
      omega

/-- Writing slot `n` adds at most one live entry to the first `n + 1` slots. -/
theorem live_entries_store_end (m : Nat → AtexitEntry) (n : Nat) (e : AtexitEntry) :
    (live_entries (store m n e) (n + 1)).length ≤ (live_entries m n).length + 1 := by
  rw [live_entries_succ, List.length_append,
    live_entries_congr (store m n e) m n (fun k hk => store_other _ _ _ _ (by omega))]
  split <;> simp

/-- The invariant behind `extracted_count_ ≤ size_`: the extraction counter
never exceeds the number of empty slots below `size_`. -/
theorem step_keeps_extracted (pf : Platform) (op : Op) (s : AtexitArray)
    (hok : ∀ i, op = Op.extract i → i < s.size_ ∧ (s.slots i).fn ≠ 0)
    (hinv : s.extracted_count_ + (live_entries s.slots s.size_).length ≤ s.size_) :
    (step pf op s).extracted_count_
        + (live_entries (step pf op s).slots (step pf op s).size_).length
      ≤ (step pf op s).size_ := by
  cases op with
  | append os e =>
    simp only [step]
    cases hr : (append_entry pf os e s).1 with
    | false => rw [append_entry_failure pf os e s hr]; exact hinv
    | true =>
      obtain ⟨h1, h4⟩ := (append_entry_effect pf os e s).1 hr
      rw [h1, h4]
      have hlive : (live_entries (append_entry pf os e s).2.slots (s.size_ + 1)).length
          ≤ (live_entries s.slots s.size_).length + 1 := by
        unfold append_entry at hr ⊢
        by_cases hfull : s.capacity_ ≤ s.size_
        · simp only [hfull, if_true] at hr ⊢
          have hg : (expand_capacity pf os s).1 = true := by
            by_contra hg
            simp [hg] at hr
          obtain ⟨hs, _, _, _, _⟩ := expand_capacity_success pf os s hg
          simp only [hg, Bool.true_eq_false, if_false, hs]
          refine le_trans (live_entries_store_end _ _ _) ?_
          have : (live_entries (expand_capacity pf os s).2.slots s.size_).length
              ≤ (live_entries s.slots s.size_).length := by
            unfold expand_capacity
            cases next_capacity pf s.capacity_ with
            | none => exact le_refl _
            | some c =>
              cases os with
              | none => exact le_refl _
              | some p =>
                by_cases ha : s.array_ = 0
                · simp [ha, live_entries_zero]
                · simp [ha]
          omega
        · simp only [hfull, if_false, Bool.true_eq_false]
          exact live_entries_store_end _ _ _
      omega
  | extract i =>
    obtain ⟨hi, hl⟩ := hok i rfl
    have := live_entries_store_zero s.slots i hl s.size_ hi
    simp only [step, extract_entry]
    omega
  | recompact =>
    simp only [step]
    have h0 : (recompact pf s).extracted_count_ = 0 := rfl
    rw [h0, Nat.zero_add]
    exact live_entries_length_le _ _

theorem run_keeps_extracted (pf : Platform) (ops : List Op) :
    ∀ s : AtexitArray, extracts_live pf ops s = true →
      s.extracted_count_ + (live_entries s.slots s.size_).length ≤ s.size_ →
      (run pf ops s).extracted_count_
          + (live_entries (run pf ops s).slots (run pf ops s).size_).length
        ≤ (run pf ops s).size_ := by
  induction ops with
  | nil => intro s _ h; exact h
  | cons op ops ih =>
    intro s hl hinv
    cases op with
    | append os e =>
      exact ih _ hl (step_keeps_extracted pf _ s (fun i h => by cases h) hinv)
    | extract i =>
      simp only [extracts_live, Bool.and_eq_true, decide_eq_true_eq] at hl
      exact ih _ hl.2 (step_keeps_extracted pf _ s (fun j h => by cases h; exact hl.1) hinv)
    | recompact =>
      exact ih _ hl (step_keeps_extracted pf _ s (fun i h => by cases h) hinv)

/-- C7 (as amended). `extracted_count_ ≤ size_` holds in every table reached
from the empty one by any sequence of `append_entry`, `recompact` and
`extract_entry i` in which each extraction is made with `i < size_` on a slot
whose function pointer is non-null. -/
theorem extracted_le_size_reachable (pf : Platform) (ops : List Op)
    (h : extracts_live pf ops AtexitArray.empty = true) :
    (run pf ops AtexitArray.empty).extracted_count_ ≤ (run pf ops AtexitArray.empty).size_ := by
  have := run_keeps_extracted pf ops AtexitArray.empty h (by simp [AtexitArray.empty, live_entries])
  omega

/-- The amended C7 on a run that appends two entries, extracts both and
appends again. -/
theorem extracted_le_size_reachable_witness :
    extracts_live example_platform
      [Op.append (some 4096) entryA, Op.append none entryB, Op.extract 1, Op.extract 0,
       Op.append none entryC] AtexitArray.empty = true ∧
    (run example_platform
      [Op.append (some 4096) entryA, Op.append none entryB, Op.extract 1, Op.extract 0,
       Op.append none entryC] AtexitArray.empty).extracted_count_
      ≤ (run example_platform
      [Op.append (some 4096) entryA, Op.append none entryB, Op.extract 1, Op.extract 0,
       Op.append none entryC] AtexitArray.empty).size_ :=
  ⟨by decide, extracted_le_size_reachable example_platform _ (by decide)⟩

/-- C7 as stated fails: extracting slot 0 twice from a one-entry table is a run
of in-range extractions that ends with `extracted_count_ = 2` and `size_ = 1`. -/
theorem extracted_exceeds_size :
    extracts_in_range example_platform
      [Op.append (some 4096) entryA, Op.extract 0, Op.extract 0] AtexitArray.empty = true ∧
    (run example_platform
      [Op.append (some 4096) entryA, Op.extract 0, Op.extract 0]
      AtexitArray.empty).extracted_count_ = 2 ∧
    (run example_platform
      [Op.append (some 4096) entryA, Op.extract 0, Op.extract 0] AtexitArray.empty).size_ = 1 ∧
    ¬ ((run example_platform
      [Op.append (some 4096) entryA, Op.extract 0, Op.extract 0]
      AtexitArray.empty).extracted_count_
      ≤ (run example_platform
      [Op.append (some 4096) entryA, Op.extract 0, Op.extract 0] AtexitArray.empty).size_) := by
  decide

end Atexit

namespace VirtualMap

/-! ### The scanner of the map listing -/

theorem digit_of_range (base : Nat) (hb : base = 16 ∨ base = 10) (c : Char)
    (h : (digit_of base c).isSome = true) :
    (48 ≤ c.toNat ∧ c.toNat ≤ 57) ∨ (97 ≤ c.toNat ∧ c.toNat ≤ 102) ∨
      (65 ≤ c.toNat ∧ c.toNat ≤ 70) := by
  rcases hb with rfl | rfl
  · simp only [digit_of, if_true, hex_digit] at h
    by_contra hne
    push_neg at hne
    rw [if_neg (fun h1 => by omega), if_neg (fun h1 => by omega), if_neg (fun h1 => by omega)] at h
    cases h
  · simp only [digit_of, dec_digit] at h
    by_contra hne
    push_neg at hne
    rw [if_neg (by decide), if_neg (fun h1 => by omega)] at h
    cases h

theorem digit_not_space (base : Nat) (hb : base = 16 ∨ base = 10) (c : Char)
    (h : (digit_of base c).isSome = true) : isspace c = false := by
  have := digit_of_range base hb c h
  simp only [isspace, decide_eq_false_iff_not]
  omega

theorem skip_space_cons_of_not_space (c : Char) (s : List Char) (h : isspace c = false) :
    skip_space (c :: s) = c :: s := by
  simp [skip_space, List.dropWhile, h]

theorem skip_space_cons_space (s : List Char) : skip_space (' ' :: s) = skip_space s := by
  simp [skip_space, List.dropWhile, isspace]

theorem skip_space_pad (pad s : List Char) (h : ∀ c, c ∈ pad → c = ' ') :
    skip_space (pad ++ s) = skip_space s := by
  induction pad with
  | nil => rfl
  | cons c t ih =>
    have hc : c = ' ' := h c (List.mem_cons_self _ _)
    subst hc
    rw [List.cons_append, skip_space_cons_space]
    exact ih (fun c hc => h c (List.mem_cons_of_mem _ hc))

theorem skip_space_path (path : List Char) (h : ∀ c, path.head? = some c → isspace c = false) :
    skip_space path = path := by
  cases path with
  | nil => rfl
  | cons c t => exact skip_space_cons_of_not_space c t (h c rfl)

/-- Reading digits consumes a string of digits that is followed by the end of
the input or by a character that is not a digit. -/
theorem scan_digits_append (base : Nat) (rest : List Char)
    (hrest : ∀ c, rest.head? = some c → digit_of base c = none) :
    ∀ (ds : List Char) (acc : Nat), (∀ c, c ∈ ds → (digit_of base c).isSome = true) →
      scan_digits base (ds ++ rest) acc
        = (ds.foldl (fun a c => a * base + (digit_of base c).getD 0) acc, rest) := by
  intro ds
  induction ds with
  | nil =>
    intro acc _
    cases rest with
    | nil => rfl
    | cons c t =>
      simp only [List.nil_append, scan_digits, hrest c rfl, List.foldl_nil]
  | cons d ds ih =>
    intro acc hds
    have hd := hds d (List.mem_cons_self _ _)
    obtain ⟨v, hv⟩ := Option.isSome_iff_exists.mp hd
    simp only [List.cons_append, scan_digits, hv, List.foldl_cons, Option.getD_some]
    exact ih _ (fun c hc => hds c (List.mem_cons_of_mem _ hc))

theorem delimiter_not_digit (base : Nat) (hb : base = 16 ∨ base = 10) (c : Char)
    (hc : c = '-' ∨ c = ' ' ∨ c = ':') : digit_of base c = none := by
  rcases hb with rfl | rfl <;> rcases hc with rfl | rfl | rfl <;> decide

theorem scan_sign_digit (base : Nat) (hb : base = 16 ∨ base = 10) (c : Char) (s : List Char)
    (h : (digit_of base c).isSome = true) : scan_sign (c :: s) = (false, c :: s) := by
  have hr := digit_of_range base hb c h
  have h1 : c ≠ '-' := by
    rintro rfl
    simp at hr
  have h2 : c ≠ '+' := by
    rintro rfl
    simp at hr
  simp [scan_sign, h1, h2]

/-- A string of hexadecimal digits followed by a separator does not begin
with a `0x` prefix. -/
theorem scan_hex_prefix_digits (ds rest : List Char)
    (hds : ∀ c, c ∈ ds → (digit_of 16 c).isSome = true)
    (hrest : ∀ c, rest.head? = some c → c = '-' ∨ c = ' ' ∨ c = ':') :
    scan_hex_prefix (ds ++ rest) = ds ++ rest := by
  have hx : ∀ c : Char, (c = 'x' ∨ c = 'X') →
      ¬ ((digit_of 16 c).isSome = true) ∧ ¬ (c = '-' ∨ c = ' ' ∨ c = ':') := by
    rintro c (rfl | rfl) <;> decide
  unfold scan_hex_prefix
  split
  · next z x h t heq =>
    split
    · next hcond =>
      exfalso
      obtain ⟨_, hxx, _⟩ := hcond
      cases ds with
      | nil =>
        simp only [List.nil_append] at heq
        subst heq
        have := hrest z rfl
        obtain ⟨rfl, _⟩ : z = '0' ∧ True := ⟨by assumption, trivial⟩
        revert this
        decide
      | cons d ds =>
        cases ds with
        | nil =>
          simp only [List.cons_append, List.nil_append, List.cons.injEq] at heq
          obtain ⟨_, heq⟩ := heq
          exact (hx x hxx).2 (hrest x (by rw [heq]; rfl))
        | cons d2 ds =>
          simp only [List.cons_append, List.cons.injEq] at heq
          obtain ⟨_, rfl, _⟩ := heq
          exact (hx d2 hxx).1 (hds d2 (by simp))
    · rfl
  · rfl

/-- The conversion of a number written on the line: a non-empty string of
digits that fits in the stored type and is followed by a separator, or by the
end of the input, is read whole and yields the number it writes. -/
theorem scan_unsigned_number (base bits : Nat) (hb : base = 16 ∨ base = 10)
    (ds rest : List Char) (hnum : IsNumber base bits ds)
    (hrest : ∀ c, rest.head? = some c → c = '-' ∨ c = ' ' ∨ c = ':') :
    scan_unsigned base bits (ds ++ rest) = some (digits_value base ds, rest) := by
  obtain ⟨hne, hds, hfit⟩ := hnum
  obtain ⟨d, ds', rfl⟩ := List.exists_cons_of_ne_nil hne
  have hd := hds d (List.mem_cons_self _ _)
  have hprefix : (if base = 16 then scan_hex_prefix (d :: ds' ++ rest) else d :: ds' ++ rest)
      = d :: (ds' ++ rest) := by
    split
    · next h16 =>
      subst h16
      exact scan_hex_prefix_digits (d :: ds') rest hds hrest
    · rfl
  have hscan := scan_digits_append base rest
    (fun c hc => delimiter_not_digit base hb c (hrest c hc)) (d :: ds') 0 hds
  unfold scan_unsigned
  rw [List.cons_append, skip_space_cons_of_not_space d _ (digit_not_space base hb d hd),
    scan_sign_digit base hb d _ hd]
  simp only []
  rw [← List.cons_append, hprefix]
  simp only [hd, Option.isNone_iff_eq_none, Bool.false_eq_true, if_false]
  rw [← List.cons_append, hscan]
  simp only [Option.isSome_iff_ne_none] at hd
  simp only [hd, if_false]
  unfold digits_value at hfit ⊢
  rw [Nat.mod_eq_of_lt hfit]

theorem skip_space_number (base : Nat) (hb : base = 16 ∨ base = 10) (ds rest : List Char)
    (hne : ds ≠ []) (hds : ∀ c, c ∈ ds → (digit_of base c).isSome = true) :
    skip_space (ds ++ rest) = ds ++ rest := by
  obtain ⟨d, ds', rfl⟩ := List.exists_cons_of_ne_nil hne
  exact skip_space_cons_of_not_space d _
    (digit_not_space base hb d (hds d (List.mem_cons_self _ _)))

theorem skip_space_cons_of_not_space_list (w rest : List Char) (hlen : w.length = 4)
    (hw : ∀ c, c ∈ w → isspace c = false) : skip_space (w ++ rest) = w ++ rest := by
  cases w with
  | nil => simp at hlen
  | cons c t => exact skip_space_cons_of_not_space c _ (hw c (List.mem_cons_self _ _))

theorem takeWhile_append_of_all (p : Char → Bool) (w rest : List Char)
    (hw : ∀ c, c ∈ w → p c = true) (hrest : ∀ c, rest.head? = some c → p c = false) :
    (w ++ rest).takeWhile p = w := by
  induction w with
  | nil =>
    cases rest with
    | nil => rfl
    | cons c t => simp [List.takeWhile, hrest c rfl]
  | cons c t ih =>
    rw [List.cons_append, List.takeWhile_cons, hw c (List.mem_cons_self _ _), if_pos rfl,
      ih (fun c hc => hw c (List.mem_cons_of_mem _ hc))]

/-- The `%4s` conversion reads the four permission characters. -/
theorem scan_string_perm (perm rest : List Char) (hlen : perm.length = 4)
    (hperm : ∀ c, c ∈ perm → isspace c = false) :
    scan_string 4 (perm ++ ' ' :: rest) = some (perm, ' ' :: rest) := by
  obtain ⟨c, t, rfl⟩ : ∃ c t, perm = c :: t := by
    cases perm with
    | nil => simp at hlen
    | cons c t => exact ⟨c, t, rfl⟩
  have htw : (c :: (t ++ ' ' :: rest)).takeWhile (fun c => !isspace c) = c :: t := by
    rw [← List.cons_append]
    exact takeWhile_append_of_all _ _ _ (fun c hc => by simp [hperm c hc])
      (fun c hc => by
        simp only [List.head?_cons, Option.some.injEq] at hc
        subst hc
        decide)
  have htake : (c :: t).take 4 = c :: t := by
    rw [List.take_of_length_le (by omega)]
  have hdrop : (c :: (t ++ ' ' :: rest)).drop (c :: t).length = ' ' :: rest := by
    rw [← List.cons_append, List.drop_left]
  unfold scan_string
  rw [List.cons_append, skip_space_cons_of_not_space c _ (hperm c (List.mem_cons_self _ _))]
  simp only [htw, htake, hdrop]
  rw [if_neg (by simp)]

theorem scan_char_cons (c : Char) (s : List Char) : scan_char c (c :: s) = some s := by
  simp [scan_char]

/-- On the text of a well-formed line `sscanf` stores the seven fields written
on it and stops before the path. -/
theorem sscanf_maps_line_text (l : MapsLine) (h : l.WellFormed) :
    sscanf_maps_line l.text
      = some ⟨digits_value 16 l.start_hex, digits_value 16 l.end_hex, l.perm,
              digits_value 16 l.off_hex, digits_value 16 l.major_hex,
              digits_value 16 l.minor_hex, digits_value 10 l.inode_dec, l.path⟩ := by
  obtain ⟨hs, he, ⟨hpl, hpc⟩, ho, hma, hmi, hi, hpad, _, hpath⟩ := h
  have hdash : ∀ (t : List Char) (c : Char), ('-' :: t).head? = some c →
      c = '-' ∨ c = ' ' ∨ c = ':' := by
    intro t c hc
    simp only [List.head?_cons, Option.some.injEq] at hc
    exact Or.inl hc.symm
  have hsp : ∀ (t : List Char) (c : Char), (' ' :: t).head? = some c →
      c = '-' ∨ c = ' ' ∨ c = ':' := by
    intro t c hc
    simp only [List.head?_cons, Option.some.injEq] at hc
    exact Or.inr (Or.inl hc.symm)
  have hcol : ∀ (t : List Char) (c : Char), (':' :: t).head? = some c →
      c = '-' ∨ c = ' ' ∨ c = ':' := by
    intro t c hc
    simp only [List.head?_cons, Option.some.injEq] at hc
    exact Or.inr (Or.inr hc.symm)
  unfold sscanf_maps_line MapsLine.text
  rw [scan_unsigned_number 16 64 (Or.inl rfl) _ _ hs (hdash _)]
  simp only [scan_char_cons]
  rw [scan_unsigned_number 16 64 (Or.inl rfl) _ _ he (hsp _)]
  simp only [skip_space_cons_space]
  rw [skip_space_cons_of_not_space_list l.perm _ hpl (fun c hc => (hpc c hc).1),
    scan_string_perm _ _ hpl (fun c hc => (hpc c hc).1)]
  simp only [skip_space_cons_space]
  rw [skip_space_number 16 (Or.inl rfl) _ _ ho.1 ho.2.1,
    scan_unsigned_number 16 64 (Or.inl rfl) _ _ ho (hsp _)]
  simp only [skip_space_cons_space]
  rw [skip_space_number 16 (Or.inl rfl) _ _ hma.1 hma.2.1,
    scan_unsigned_number 16 32 (Or.inl rfl) _ _ hma (hcol _)]
  simp only [scan_char_cons]
  rw [scan_unsigned_number 16 32 (Or.inl rfl) _ _ hmi (hsp _)]
  simp only [skip_space_cons_space]
  rw [skip_space_number 10 (Or.inr rfl) _ _ hi.1 hi.2.1,
    scan_unsigned_number 10 64 (Or.inr rfl) _ _ hi (hsp _)]
  simp only [skip_space_cons_space]
  rw [skip_space_pad _ _ hpad, skip_space_path _ hpath]

theorem number_char_ok (base : Nat) (hb : base = 16 ∨ base = 10) (ds : List Char)
    (hds : ∀ c, c ∈ ds → (digit_of base c).isSome = true) (c : Char) (hc : c ∈ ds) :
    c ≠ '\n' ∧ c ≠ '\x00' := by
  have hr := digit_of_range base hb c (hds c hc)
  constructor <;> (rintro rfl; simp at hr)

/-- The text of a well-formed line contains neither a newline nor a `'\0'`. -/
theorem text_char_ok (l : MapsLine) (h : l.WellFormed) (c : Char) (hc : c ∈ l.text) :
    c ≠ '\n' ∧ c ≠ '\x00' := by
  obtain ⟨hs, he, ⟨_, hpc⟩, ho, hma, hmi, hi, hpad, hpath, _⟩ := h
  have hdelim : ∀ d : Char, (d = '-' ∨ d = ' ' ∨ d = ':') → d ≠ '\n' ∧ d ≠ '\x00' := by
    rintro d (rfl | rfl | rfl) <;> decide
  simp only [MapsLine.text, List.mem_append, List.mem_cons] at hc
  rcases hc with hc | hc | hc | hc | hc | hc | hc | hc | hc | hc | hc | hc | hc | hc | hc | hc
  · exact number_char_ok 16 (Or.inl rfl) _ hs.2.1 c hc
  · exact hdelim c (Or.inl hc)
  · exact number_char_ok 16 (Or.inl rfl) _ he.2.1 c hc
  · exact hdelim c (Or.inr (Or.inl hc))
  · refine ⟨?_, (hpc c hc).2⟩
    rintro rfl
    have := (hpc _ hc).1
    revert this
    decide
  · exact hdelim c (Or.inr (Or.inl hc))
  · exact number_char_ok 16 (Or.inl rfl) _ ho.2.1 c hc
  · exact hdelim c (Or.inr (Or.inl hc))
  · exact number_char_ok 16 (Or.inl rfl) _ hma.2.1 c hc
  · exact hdelim c (Or.inr (Or.inr hc))
  · exact number_char_ok 16 (Or.inl rfl) _ hmi.2.1 c hc
  · exact hdelim c (Or.inr (Or.inl hc))
  · exact number_char_ok 10 (Or.inr rfl) _ hi.2.1 c hc
  · exact hdelim c (Or.inr (Or.inl hc))
  · exact hdelim c (Or.inr (Or.inl (hpad c hc)))
  · exact hpath c hc

theorem c_string_of_no_nul (s : List Char) (h : ∀ c, c ∈ s → c ≠ '\x00') : c_string s = s := by
  unfold c_string
  rw [List.takeWhile_eq_self_iff]
  intro c hc
  simpa using h c hc

/-- The permission bits set by the three `perms |=` updates. -/
theorem make_info_perms (f : ScannedLine) :
    (make_info f).perms
      = (if perm_at f.perm 0 = 'r' then PROT_READ else 0)
        + (if perm_at f.perm 1 = 'w' then PROT_WRITE else 0)
        + (if perm_at f.perm 2 = 'x' then PROT_EXEC else 0) := by
  unfold make_info
  by_cases h0 : perm_at f.perm 0 = 'r' <;> by_cases h1 : perm_at f.perm 1 = 'w' <;>
    by_cases h2 : perm_at f.perm 2 = 'x' <;> simp [h0, h1, h2, PROT_READ, PROT_WRITE, PROT_EXEC]

theorem make_info_fields (f : ScannedLine) :
    (make_info f).start = f.start ∧ (make_info f).end_ = f.end_ ∧
    (make_info f).is_private = decide (perm_at f.perm 3 = 'p') ∧
    (make_info f).offset = f.off ∧
    (make_info f).dev = makedev f.dev_major f.dev_minor ∧
    (make_info f).inode = f.inode ∧ (make_info f).path = skip_space f.rest := by
  unfold make_info
  by_cases h0 : perm_at f.perm 0 = 'r' <;> by_cases h1 : perm_at f.perm 1 = 'w' <;>
    by_cases h2 : perm_at f.perm 2 = 'x' <;> simp [h0, h1, h2]

/-- The loop body on a well-formed line appends the entry the line stands
for. -/
theorem scan_line_render (l : MapsLine) (h : l.WellFormed) :
    scan_line l.render = some l.entry := by
  have htext : c_string l.render.dropLast = l.text := by
    rw [MapsLine.render, List.dropLast_concat]
    exact c_string_of_no_nul _ (fun c hc => (text_char_ok l h c hc).2)
  unfold scan_line
  rw [htext, sscanf_maps_line_text l h]
  simp only [Option.some.injEq]
  have hp := make_info_perms ⟨digits_value 16 l.start_hex, digits_value 16 l.end_hex, l.perm,
    digits_value 16 l.off_hex, digits_value 16 l.major_hex, digits_value 16 l.minor_hex,
    digits_value 10 l.inode_dec, l.path⟩
  obtain ⟨h1, h2, h3, h4, h5, h6, h7⟩ := make_info_fields
    ⟨digits_value 16 l.start_hex, digits_value 16 l.end_hex, l.perm,
    digits_value 16 l.off_hex, digits_value 16 l.major_hex, digits_value 16 l.minor_hex,
    digits_value 10 l.inode_dec, l.path⟩
  simp only at hp h1 h2 h3 h4 h5 h6 h7
  rw [skip_space_path _ h.2.2.2.2.2.2.2.2.2] at h7
  generalize make_info _ = info at *
  cases info
  simp only [MapsLine.entry, MapInfo.mk.injEq]
  simp only at hp h1 h2 h3 h4 h5 h6 h7
  exact ⟨h1, h2, hp, h3, h4, h5, h6, h7⟩

theorem getlines_line (body rest : List Char) (h : ∀ c, c ∈ body → c ≠ '\n') :
    getlines (body ++ '\n' :: rest) = (body ++ ['\n']) :: getlines rest := by
  induction body with
  | nil => simp [getlines]
  | cons c t ih =>
    have hc : c ≠ '\n' := h c (List.mem_cons_self _ _)
    rw [List.cons_append, getlines, if_neg hc, ih (fun c hc => h c (List.mem_cons_of_mem _ hc))]
    rfl

theorem getlines_ne_nil (content : List Char) : ∀ l, l ∈ getlines content → l ≠ [] := by
  induction content with
  | nil => intro l hl; simp [getlines] at hl
  | cons c cs ih =>
    intro l hl
    unfold getlines at hl
    split at hl
    · rcases List.mem_cons.mp hl with h | h
      · rw [h]; simp
      · exact ih l h
    · split at hl
      · simp only [List.mem_singleton] at hl
        rw [hl]; simp
      · next l0 ls heq =>
        rcases List.mem_cons.mp hl with h | h
        · rw [h]; simp
        · exact ih l (by rw [heq]; exact List.mem_cons_of_mem _ h)

/-- The loop of `Scan` appends one entry for each non-empty line on which
`sscanf` returns `kMapEntry`, and goes on to the next line otherwise. -/
theorem scan_loop_eq_filterMap (lines : List (List Char)) (h : ∀ l, l ∈ lines → l ≠ []) :
    scan_loop lines = lines.filterMap scan_line := by
  induction lines with
  | nil => rfl
  | cons raw more ih =>
    have hraw : 0 < raw.length := List.length_pos.mpr (h raw (List.mem_cons_self _ _))
    have ih' := ih (fun l hl => h l (List.mem_cons_of_mem _ hl))
    rw [scan_loop, if_pos hraw, List.filterMap_cons]
    cases scan_line raw with
    | none => simpa using ih'
    | some info => simp [ih']

theorem getlines_render (ls : List MapsLine) (h : ∀ l, l ∈ ls → l.WellFormed) :
    getlines (ls.map MapsLine.render).flatten = ls.map MapsLine.render := by
  induction ls with
  | nil => rfl
  | cons l ls ih =>
    rw [List.map_cons, List.flatten_cons, MapsLine.render, List.append_assoc,
      List.singleton_append,
      getlines_line _ _ (fun c hc => (text_char_ok l (h l (List.mem_cons_self _ _)) c hc).1),
      ih (fun l hl => h l (List.mem_cons_of_mem _ hl))]

/-- The permission bits of the entry of a line are the bits of its `r`, `w`
and `x` characters. -/
theorem entry_perm_bits (l : MapsLine) :
    (l.entry.perms &&& PROT_READ ≠ 0 ↔ perm_at l.perm 0 = 'r') ∧
    (l.entry.perms &&& PROT_WRITE ≠ 0 ↔ perm_at l.perm 1 = 'w') ∧
    (l.entry.perms &&& PROT_EXEC ≠ 0 ↔ perm_at l.perm 2 = 'x') := by
  simp only [MapsLine.entry]
  by_cases h0 : perm_at l.perm 0 = 'r' <;> by_cases h1 : perm_at l.perm 1 = 'w' <;>
    by_cases h2 : perm_at l.perm 2 = 'x' <;>
    simp [h0, h1, h2, PROT_READ, PROT_WRITE, PROT_EXEC] <;> decide

/-- C8. `Scan()` returns nothing when the listing cannot be opened, and
otherwise, in listing order, one entry for each line on which `sscanf` stores
all seven fields and none for any other line.  A listing of `N` well-formed
lines gives exactly `N` entries, the entry of each line in turn: its
permission bits are those of the `r`, `w`, `x` characters of the line, and its
offset, device (`makedev` of major and minor) and inode are the numbers
written on the line. -/
theorem Scan_entries (content : List Char) (ls : List MapsLine) :
    Scan none = [] ∧
    Scan (some content) = (getlines content).filterMap scan_line ∧
    ((∀ l, l ∈ ls → l.WellFormed) →
      Scan (some (ls.map MapsLine.render).flatten) = ls.map MapsLine.entry ∧
      (Scan (some (ls.map MapsLine.render).flatten)).length = ls.length) ∧
    (∀ l, l ∈ ls →
      (l.entry.perms &&& PROT_READ ≠ 0 ↔ perm_at l.perm 0 = 'r') ∧
      (l.entry.perms &&& PROT_WRITE ≠ 0 ↔ perm_at l.perm 1 = 'w') ∧
      (l.entry.perms &&& PROT_EXEC ≠ 0 ↔ perm_at l.perm 2 = 'x') ∧
      l.entry.offset = digits_value 16 l.off_hex ∧
      l.entry.dev = makedev (digits_value 16 l.major_hex) (digits_value 16 l.minor_hex) ∧
      l.entry.inode = digits_value 10 l.inode_dec) := by
  have hscan : ∀ c : List Char, Scan (some c) = (getlines c).filterMap scan_line :=
    fun c => scan_loop_eq_filterMap _ (getlines_ne_nil c)
  refine ⟨rfl, hscan content, ?_, ?_⟩
  · intro hwf
    have heq : Scan (some (ls.map MapsLine.render).flatten) = ls.map MapsLine.entry := by
      rw [hscan, getlines_render ls hwf, List.filterMap_map]
      clear hscan
      induction ls with
      | nil => rfl
      | cons l ls ih =>
        rw [List.filterMap_cons, List.map_cons]
        simp only [Function.comp_apply]
        rw [scan_line_render l (hwf l (List.mem_cons_self _ _)),
          ih (fun l hl => hwf l (List.mem_cons_of_mem _ hl))]
    exact ⟨heq, by rw [heq, List.length_map]⟩
  · intro l _
    obtain ⟨h1, h2, h3⟩ := entry_perm_bits l
    exact ⟨h1, h2, h3, rfl, rfl, rfl⟩

theorem example_line_well_formed : example_line.WellFormed := by
  refine ⟨⟨by decide, by decide, by decide⟩, ⟨by decide, by decide, by decide⟩,
    ⟨by decide, by decide⟩, ⟨by decide, by decide, by decide⟩, ⟨by decide, by decide, by decide⟩,
    ⟨by decide, by decide, by decide⟩, ⟨by decide, by decide, by decide⟩, by decide, by decide, ?_⟩
  intro c hc
  cases hc
  decide

theorem example_anon_line_well_formed : example_anon_line.WellFormed := by
  refine ⟨⟨by decide, by decide, by decide⟩, ⟨by decide, by decide, by decide⟩,
    ⟨by decide, by decide⟩, ⟨by decide, by decide, by decide⟩, ⟨by decide, by decide, by decide⟩,
    ⟨by decide, by decide, by decide⟩, ⟨by decide, by decide, by decide⟩, by decide, by decide, ?_⟩
  intro c hc
  cases hc

/-- C8 on a listing of two lines, a library mapped `r-xp` from device `fd:01`
and an anonymous `rw-p` mapping: two entries, with permission bits 5 and 3,
offset `0x1000`, device `makedev(0xfd, 1)` and inode 1234567 for the first. -/
theorem Scan_entries_witness :
    example_line.WellFormed ∧ example_anon_line.WellFormed ∧
    Scan (some ([example_line, example_anon_line].map MapsLine.render).flatten)
      = [example_line.entry, example_anon_line.entry] ∧
    (Scan (some ([example_line, example_anon_line].map MapsLine.render).flatten)).length = 2 ∧
    example_line.entry.perms = 5 ∧ example_anon_line.entry.perms = 3 ∧
    example_line.entry.offset = 0x1000 ∧ example_line.entry.dev = makedev 0xfd 1 ∧
    example_line.entry.inode = 1234567 ∧
    (example_line.entry.perms &&& PROT_EXEC ≠ 0 ↔ perm_at example_line.perm 2 = 'x') := by
  have h := Scan_entries [] [example_line, example_anon_line]
  have hwf : ∀ l, l ∈ [example_line, example_anon_line] → l.WellFormed := by
    intro l hl
    simp only [List.mem_cons, List.mem_singleton, List.not_mem_nil, or_false] at hl
    rcases hl with rfl | rfl
    · exact example_line_well_formed
    · exact example_anon_line_well_formed
  obtain ⟨heq, hlen⟩ := h.2.2.1 hwf
  exact ⟨example_line_well_formed, example_anon_line_well_formed, heq, hlen,
    by decide, by decide, by decide, by decide, by decide,
    (h.2.2.2 example_line (by simp)).2.2.1⟩

/-! ### Injection detection on the scanned mappings -/

theorem violates_at_length (stat : List Char → Option Nat) (seen rest : List MapInfo)
    (m : MapInfo) :
    violates_at stat (seen ++ m :: rest) seen.length = violates stat seen m := by
  unfold violates_at
  rw [List.get?_eq_getElem?, List.getElem?_append_right (le_refl _)]
  simp

theorem executable_with_snoc (p : List Char) (seen : List MapInfo) (m : MapInfo) :
    executable_with p (seen ++ [m])
      = executable_with p seen + (if is_executable m && starts_with m.path p then 1 else 0) := by
  unfold executable_with
  rw [List.filter_append, List.length_append]
  by_cases h : (is_executable m && starts_with m.path p) = true
  · simp [h]
  · simp [h]

theorem jit_cache_path_facts (p : List Char) (h : starts_with p jit_cache_path = true) :
    starts_with p root_path = true ∧ starts_with p dev_zero_path = false ∧
    p ≠ vdso_path ∧ starts_with p jit_zygote_cache_path = false := by
  unfold starts_with at h
  rw [List.isPrefixOf_iff_prefix] at h
  obtain ⟨t, rfl⟩ := h
  refine ⟨rfl, rfl, ?_, rfl⟩
  intro h
  cases h

theorem jit_zygote_cache_path_facts (p : List Char)
    (h : starts_with p jit_zygote_cache_path = true) :
    starts_with p root_path = true ∧ starts_with p dev_zero_path = false ∧
    p ≠ vdso_path ∧ starts_with p jit_cache_path = false := by
  unfold starts_with at h
  rw [List.isPrefixOf_iff_prefix] at h
  obtain ⟨t, rfl⟩ := h
  refine ⟨rfl, rfl, ?_, rfl⟩
  intro h
  cases h

theorem vdso_path_facts :
    starts_with vdso_path jit_cache_path = false ∧
    starts_with vdso_path jit_zygote_cache_path = false := ⟨rfl, rfl⟩

/-- The loop of `DetectInjection` returns the first position, among those
still to visit, at which a rule is violated. -/
theorem detect_loop_eq_find (stat : List Char → Option Nat) :
    ∀ (rest seen : List MapInfo) (jit zygote : Nat),
      jit = executable_with jit_cache_path seen →
      zygote = executable_with jit_zygote_cache_path seen →
      jit ≤ 1 → zygote ≤ 1 →
      detect_loop stat rest seen.length jit zygote
        = (List.range' seen.length rest.length).find?
            (fun i => violates_at stat (seen ++ rest) i) := by
  intro rest
  induction rest with
  | nil => intro seen jit zygote _ _ _ _; rfl
  | cons m rest ih =>
    intro seen jit zygote hj hz hj1 hz1
    have hnext : ∀ jit' zygote',
        jit' = executable_with jit_cache_path (seen ++ [m]) →
        zygote' = executable_with jit_zygote_cache_path (seen ++ [m]) →
        jit' ≤ 1 → zygote' ≤ 1 →
        detect_loop stat rest (seen.length + 1) jit' zygote'
          = (List.range' (seen.length + 1) rest.length).find?
              (fun i => violates_at stat (seen ++ m :: rest) i) := by
      intro jit' zygote' h1 h2 h3 h4
      have := ih (seen ++ [m]) jit' zygote' h1 h2 h3 h4
      simpa using this
    rw [List.length_cons, List.range'_succ, List.find?_cons, violates_at_length]
    unfold detect_loop
    by_cases hx : m.perms &&& PROT_EXEC ≠ 0
    · have hex : is_executable m = true := by simpa [is_executable] using hx
      rw [if_pos hx]
      by_cases hv : m.path = vdso_path
      · rw [if_pos hv]
        have hviol : violates stat seen m = false := by simp [violates, hv]
        rw [hviol]
        apply hnext
        · rw [executable_with_snoc, hv, vdso_path_facts.1]; simpa using hj
        · rw [executable_with_snoc, hv, vdso_path_facts.2]; simpa using hz
        · exact hj1
        · exact hz1
      · rw [if_neg hv]
        by_cases hs : starts_with m.path root_path = true
        · rw [if_neg (by simpa using hs)]
          by_cases hd : starts_with m.path dev_zero_path = true
          · rw [if_pos hd]
            have hviol : violates stat seen m = true := by simp [violates, hex, hv, hd]
            rw [hviol]
          · rw [if_neg hd]
            have hd' : starts_with m.path dev_zero_path = false := by simpa using hd
            by_cases hjc : starts_with m.path jit_cache_path = true
            · obtain ⟨_, _, _, hnz⟩ := jit_cache_path_facts m.path hjc
              simp only [hjc, if_true]
              by_cases hone : jit = 1
              · have hviol : violates stat seen m = true := by
                  simp [violates, hex, hv, hjc, ← hj, hone]
                rw [hviol, if_pos (by omega)]
              · have hviol : violates stat seen m = false := by
                  simp [violates, hex, hs, hd', hjc, hnz, ← hj, hone]
                rw [hviol, if_neg (by omega)]
                apply hnext
                · rw [executable_with_snoc, hex, hjc, ← hj]; rfl
                · rw [executable_with_snoc, hex, hnz, ← hz]; rfl
                · omega
                · exact hz1
            · have hjc' : starts_with m.path jit_cache_path = false := by simpa using hjc
              by_cases hzc : starts_with m.path jit_zygote_cache_path = true
              · simp only [hjc', hzc, if_true, Bool.false_eq_true, if_false]
                by_cases hone : zygote = 1
                · have hviol : violates stat seen m = true := by
                    simp [violates, hex, hv, hzc, ← hz, hone]
                  rw [hviol, if_pos (by omega)]
                · have hviol : violates stat seen m = false := by
                    simp [violates, hex, hs, hd', hjc', hzc, ← hz, hone]
                  rw [hviol, if_neg (by omega)]
                  apply hnext
                  · rw [executable_with_snoc, hex, hjc', ← hj]; rfl
                  · rw [executable_with_snoc, hex, hzc, ← hz]; rfl
                  · exact hj1
                  · omega
              · have hzc' : starts_with m.path jit_zygote_cache_path = false := by
                  simpa using hzc
                simp only [hjc', hzc', Bool.false_eq_true, if_false]
                cases hst : stat m.path with
                | none =>
                  have hviol : violates stat seen m = true := by
                    simp [violates, hex, hv, hjc', hzc', hst]
                  rw [hviol]
                | some ino =>
                  by_cases hino : ino = m.inode
                  · have hviol : violates stat seen m = false := by
                      simp [violates, hex, hs, hd', hjc', hzc', hst, hino]
                    simp only [hino, ne_eq, not_true_eq_false, if_false]
                    rw [hviol, if_neg (by omega)]
                    apply hnext
                    · rw [executable_with_snoc, hex, hjc', ← hj]; rfl
                    · rw [executable_with_snoc, hex, hzc', ← hz]; rfl
                    · exact hj1
                    · exact hz1
                  · have hviol : violates stat seen m = true := by
                      simp [violates, hex, hv, hjc', hzc', hst, hino]
                    simp only [ne_eq, hino, not_false_eq_true, if_true]
                    rw [hviol]
        · rw [if_pos (by simpa using hs)]
          have hviol : violates stat seen m = true := by
            simp [violates, hex, hv, hs]
          rw [hviol]
    · rw [if_neg hx]
      have hex : is_executable m = false := by simpa [is_executable] using hx
      have hviol : violates stat seen m = false := by simp [violates, hex]
      rw [hviol]
      apply hnext
      · rw [executable_with_snoc, hex]; simpa using hj
      · rw [executable_with_snoc, hex]; simpa using hz
      · exact hj1
      · exact hz1

/-- `DetectInjection` returns the first position of the scan at which a rule
is violated, and `nullptr` when there is none. -/
theorem DetectInjection_eq_find (stat : List Char → Option Nat) (maps : List MapInfo) :
    DetectInjection stat maps
      = (List.range maps.length).find? (fun i => violates_at stat maps i) := by
  have := detect_loop_eq_find stat maps [] 0 0 rfl rfl (by omega) (by omega)
  rw [List.range_eq_range']
  simpa [DetectInjection] using this

/-- C9. `DetectInjection` returns the earliest mapping of the scan, in listing
order, that is executable, is not the vdso pseudo-mapping and for which one of
the rules (a) to (d) fires; it returns none exactly when no mapping does.  In
particular an executable mapping with an empty path that has no violating
mapping before it is returned, and a scan `vdso_only` whose only executable
mappings are the vdso returns none. -/
theorem DetectInjection_first_violation (stat : List Char → Option Nat)
    (maps vdso_only : List MapInfo) :
    (∀ i, DetectInjection stat maps = some i ↔
      (i < maps.length ∧ violates_at stat maps i = true ∧
        ∀ j, j < i → violates_at stat maps j = false)) ∧
    (DetectInjection stat maps = none ↔
      ∀ i, i < maps.length → violates_at stat maps i = false) ∧
    (∀ i m, maps.get? i = some m → is_executable m = true → m.path = [] →
      (∀ j, j < i → violates_at stat maps j = false) →
      DetectInjection stat maps = some i) ∧
    ((∀ m, m ∈ vdso_only → is_executable m = true → m.path = vdso_path) →
      DetectInjection stat vdso_only = none) := by
  have hsome : ∀ i, DetectInjection stat maps = some i ↔
      (i < maps.length ∧ violates_at stat maps i = true ∧
        ∀ j, j < i → violates_at stat maps j = false) := by
    intro i
    rw [DetectInjection_eq_find, List.find?_range_eq_some]
    constructor
    · rintro ⟨h1, h2, h3⟩
      exact ⟨List.mem_range.mp h2, h1, fun j hj => by simpa using h3 j hj⟩
    · rintro ⟨h1, h2, h3⟩
      exact ⟨h2, List.mem_range.mpr h1, fun j hj => by simpa using h3 j hj⟩
  have hnone : ∀ l : List MapInfo, DetectInjection stat l = none ↔
      ∀ i, i < l.length → violates_at stat l i = false := by
    intro l
    rw [DetectInjection_eq_find, List.find?_range_eq_none]
    constructor
    · intro h i hi; simpa using h i hi
    · intro h i hi; simpa using h i hi
  refine ⟨hsome, hnone maps, ?_, ?_⟩
  · intro i m hget hex hpath hprev
    rw [hsome]
    have hi : i < maps.length := by
      rw [List.get?_eq_some] at hget
      exact hget.1
    refine ⟨hi, ?_, hprev⟩
    unfold violates_at
    rw [hget]
    have h1 : starts_with m.path root_path = false := by rw [hpath]; rfl
    have h2 : m.path ≠ vdso_path := by rw [hpath]; decide
    simp [violates, hex, h1, h2]
  · intro hall
    rw [hnone]
    intro i hi
    unfold violates_at
    cases hget : vdso_only.get? i with
    | none => rfl
    | some m =>
      have hm : m ∈ vdso_only := List.get?_mem hget
      by_cases hex : is_executable m = true
      · simp [violates, hall m hm hex]
      · simp [violates, hex]

/-- C9 on the example scan: with no mapping before it violating a rule, the
executable mapping with an empty path at position 2 is returned; the first
two mappings alone, whose only executable one is the vdso, give none. -/
theorem DetectInjection_first_violation_witness :
    example_maps.get? 2 = some ⟨0x5000, 0x6000, 5, true, 0, 0, 0, []⟩ ∧
    violates_at stat_fails example_maps 0 = false ∧
    violates_at stat_fails example_maps 1 = false ∧
    violates_at stat_fails example_maps 2 = true ∧
    DetectInjection stat_fails example_maps = some 2 ∧
    DetectInjection stat_fails (example_maps.take 2) = none := by
  have h := DetectInjection_first_violation stat_fails example_maps (example_maps.take 2)
  have h2 := h.2.2.1 2 ⟨0x5000, 0x6000, 5, true, 0, 0, 0, []⟩ (by decide) (by decide) rfl
    (fun j hj => by
      have : j = 0 ∨ j = 1 := by omega
      rcases this with rfl | rfl <;> decide)
  have h3 := h.2.2.2 (fun m hm hex => by
    have : m = ⟨0x1000, 0x2000, 1, true, 0, 0xfd00, 42, "/system/lib64/libc.so".toList⟩ ∨
        m = ⟨0x3000, 0x4000, 5, true, 0, 0, 0, "[vdso]".toList⟩ := by
      simpa [example_maps] using hm
    rcases this with rfl | rfl
    · exact absurd hex (by decide)
    · rfl)
  exact ⟨by decide, by decide, by decide, ((h.1 2).1 h2).2.1, h2, h3⟩

/-! ### String dump -/

theorem scan_string_end_spec (region : List Nat) :
    ∀ (fuel e : Nat), region.length - e ≤ fuel → e ≤ region.length →
      e ≤ scan_string_end region fuel e ∧ scan_string_end region fuel e ≤ region.length ∧
      (∀ i, e ≤ i → i < scan_string_end region fuel e → isprint (byte_at region i) = true) ∧
      (scan_string_end region fuel e = region.length ∨
        isprint (byte_at region (scan_string_end region fuel e)) = false) := by
  intro fuel
  induction fuel with
  | zero =>
    intro e hf he
    have : e = region.length := by omega
    simp only [scan_string_end]
    exact ⟨le_refl _, he, fun i h1 h2 => by omega, Or.inl this⟩
  | succ f ih =>
    intro e hf he
    unfold scan_string_end
    by_cases hc : e < region.length ∧ isprint (byte_at region e) = true
    · rw [if_pos hc]
      obtain ⟨a, b, c, d⟩ := ih (e + 1) (by omega) (by omega)
      refine ⟨by omega, b, ?_, d⟩
      intro i hi1 hi2
      by_cases hi : i = e
      · subst hi; exact hc.2
      · exact c i (by omega) hi2
    · rw [if_neg hc]
      refine ⟨le_refl _, he, fun i h1 h2 => by omega, ?_⟩
      by_cases hlt : e < region.length
      · right
        by_contra h
        exact hc ⟨hlt, by simpa using h⟩
      · left; omega

/-- A maximal run that starts at or after `ptr`, where a run found by the
scanner starts at `ptr` and ends at `e`, either is that run or starts at or
after `e`. -/
theorem maximal_run_after (region : List Nat) (ptr e off len : Nat)
    (hpe : ptr < e) (he : e ≤ region.length)
    (hall : ∀ i, ptr ≤ i → i < e → isprint (byte_at region i) = true)
    (hend : e = region.length ∨ isprint (byte_at region e) = false)
    (hrun : IsMaximalRun region off len) (hoff : ptr ≤ off) :
    (off = ptr ∧ len = e - ptr) ∨ e ≤ off := by
  obtain ⟨hpos, hin, hpr, hleft, hright⟩ := hrun
  by_cases h1 : e ≤ off
  · exact Or.inr h1
  · left
    have hoffp : off = ptr := by
      by_contra hne
      have hgt : ptr < off := by omega
      rcases hleft with h0 | hnp
      · omega
      · have := hall (off - 1) (by omega) (by omega)
        rw [this] at hnp
        cases hnp
    subst hoffp
    refine ⟨rfl, ?_⟩
    by_contra hne
    rcases Nat.lt_or_gt_of_ne hne with hlt | hgt
    · -- the run stops before `e`
      rcases hright with h | h
      · omega
      · have := hall (off + len) (by omega) (by omega)
        rw [this] at h
        cases h
    · -- the run goes past `e`
      rcases hend with h | h
      · omega
      · have := hpr (e - off) (by omega)
        rw [show off + (e - off) = e by omega] at this
        rw [this] at h
        cases h

theorem length_take_drop (region : List Nat) (off len : Nat) (h : off + len ≤ region.length) :
    ((region.drop off).take len).length = len := by
  rw [List.length_take, List.length_drop]
  omega

/-- Loop invariant of `logPossibleStrings`: from a position `ptr` that does
not split a run, the loop logs exactly the maximal runs of length at least
`min_len` that start at or after `ptr`, left to right and without overlap. -/
theorem dump_loop_spec (region : List Nat) (min_len : Nat) :
    ∀ (fuel ptr : Nat), region.length - ptr ≤ fuel → ptr ≤ region.length →
      (ptr = 0 ∨ isprint (byte_at region (ptr - 1)) = false ∨ ptr = region.length ∨
        isprint (byte_at region ptr) = false) →
      (∀ off s, (off, s) ∈ dump_loop region min_len fuel ptr ↔
        ptr ≤ off ∧ IsReportedRun region min_len off s) ∧
      (dump_loop region min_len fuel ptr).Pairwise
        (fun a b => a.1 + a.2.length ≤ b.1) := by
  intro fuel
  induction fuel with
  | zero =>
    intro ptr hf hp _
    have hpe : ptr = region.length := by omega
    simp only [dump_loop, List.not_mem_nil, false_iff, List.Pairwise.nil, and_true]
    rintro off s ⟨h1, ⟨hpos, hin, _⟩, _⟩
    omega
  | succ f ih =>
    intro ptr hf hp hb
    unfold dump_loop
    by_cases hlt : ptr < region.length
    · rw [if_pos hlt]
      by_cases hpr : isprint (byte_at region ptr) = true
      · rw [if_pos hpr]
        obtain ⟨ha, hbd, hall, hend⟩ :=
          scan_string_end_spec region (region.length - (ptr + 1)) (ptr + 1) (le_refl _) (by omega)
        generalize scan_string_end region (region.length - (ptr + 1)) (ptr + 1) = e at *
        have hall2 : ∀ i, ptr ≤ i → i < e → isprint (byte_at region i) = true := by
          intro i h1 h2
          by_cases hi : i = ptr
          · subst hi; exact hpr
          · exact hall i (by omega) h2
        have hleft : ptr = 0 ∨ isprint (byte_at region (ptr - 1)) = false := by
          rcases hb with h | h | h | h
          · exact Or.inl h
          · exact Or.inr h
          · omega
          · rw [hpr] at h; cases h
        have hmax : IsMaximalRun region ptr (e - ptr) := by
          refine ⟨by omega, by omega, ?_, hleft, ?_⟩
          · intro i hi; exact hall2 (ptr + i) (by omega) (by omega)
          · rw [show ptr + (e - ptr) = e by omega]; exact hend
        have hlen : ((region.drop ptr).take (e - ptr)).length = e - ptr :=
          length_take_drop region ptr (e - ptr) (by omega)
        obtain ⟨hmem, hpw⟩ := ih e (by omega) hbd
          (by rcases hend with h | h
              · exact Or.inr (Or.inr (Or.inl h))
              · exact Or.inr (Or.inr (Or.inr h)))
        have hrest : ∀ off s, ptr ≤ off → IsReportedRun region min_len off s →
            (off = ptr ∧ s = (region.drop ptr).take (e - ptr) ∧ min_len ≤ e - ptr) ∨
            (off, s) ∈ dump_loop region min_len f e := by
          intro off s hoff hrep
          rcases maximal_run_after region ptr e off s.length (by omega) hbd hall2 hend
            hrep.1 hoff with ⟨h1, h2⟩ | h
          · left
            refine ⟨h1, ?_, by rw [← h2]; exact hrep.2.1⟩
            have h3 := hrep.2.2
            rw [h2, h1] at h3
            exact h3
          · right; exact (hmem off s).2 ⟨h, hrep⟩
        have hfromrest : ∀ off s, (off, s) ∈ dump_loop region min_len f e →
            ptr ≤ off ∧ IsReportedRun region min_len off s := by
          intro off s h
          obtain ⟨h1, h2⟩ := (hmem off s).1 h
          exact ⟨by omega, h2⟩
        by_cases hmin : min_len ≤ e - ptr
        · simp only [hmin, if_true]
          constructor
          · intro off s
            rw [List.mem_cons]
            constructor
            · rintro (h | h)
              · injection h with h1 h2
                subst h1 h2
                exact ⟨le_refl _, by rw [IsReportedRun, hlen]; exact ⟨hmax, hmin, rfl⟩⟩
              · exact hfromrest off s h
            · rintro ⟨hoff, hrep⟩
              rcases hrest off s hoff hrep with ⟨h1, h2, _⟩ | h
              · left; rw [h1, h2]
              · right; exact h
          · rw [List.pairwise_cons]
            refine ⟨?_, hpw⟩
            rintro ⟨off, s⟩ hin
            have := ((hmem off s).1 hin).1
            simp only [hlen]
            omega
        · simp only [hmin, if_false]
          refine ⟨?_, hpw⟩
          intro off s
          constructor
          · exact hfromrest off s
          · rintro ⟨hoff, hrep⟩
            rcases hrest off s hoff hrep with ⟨_, _, h3⟩ | h
            · exact absurd h3 hmin
            · exact h
      · rw [if_neg hpr]
        have hnp : isprint (byte_at region ptr) = false := by simpa using hpr
        obtain ⟨hmem, hpw⟩ := ih (ptr + 1) (by omega) (by omega)
          (Or.inr (Or.inl (by simpa using hnp)))
        refine ⟨?_, hpw⟩
        intro off s
        rw [hmem off s]
        constructor
        · rintro ⟨h1, h2⟩; exact ⟨by omega, h2⟩
        · rintro ⟨h1, h2⟩
          refine ⟨?_, h2⟩
          by_contra hne
          have hoff : off = ptr := by omega
          obtain ⟨⟨hpos, _, hp0, _⟩, _⟩ := h2
          have := hp0 0 hpos
          rw [Nat.add_zero, hoff, hnp] at this
          cases this
    · rw [if_neg hlt]
      simp only [List.not_mem_nil, false_iff, List.Pairwise.nil, and_true]
      rintro off s ⟨h1, ⟨hpos, hin, _⟩, _⟩
      omega

/-- An element of a duplicate-free list occurs in it exactly once. -/
theorem countP_eq_one_of_nodup (l : List (Nat × List Nat)) (a : Nat × List Nat)
    (hnd : l.Nodup) (h : a ∈ l) : l.countP (fun r => decide (r = a)) = 1 := by
  induction l with
  | nil => cases h
  | cons x xs ih =>
    rw [List.nodup_cons] at hnd
    rw [List.countP_cons]
    by_cases hx : x = a
    · subst hx
      have : xs.countP (fun r => decide (r = x)) = 0 := by
        rw [List.countP_eq_zero]
        intro r hr
        simp only [decide_eq_true_eq]
        rintro rfl
        exact hnd.1 hr
      simp [this]
    · have hin : a ∈ xs := by
        rcases List.mem_cons.mp h with h | h
        · exact absurd h.symm hx
        · exact h
      simp [ih hnd.2 hin, hx]

/-- C10. For every region and minimum length, `logPossibleStrings` terminates
and logs exactly the maximal runs of printable bytes of length at least the
minimum, each with its offset from the start of the region and its bytes;
the records come in increasing offset order, do not overlap, and each such
run is logged exactly once. -/
theorem logPossibleStrings_reports_maximal_runs (region : List Nat) (min_len : Nat) :
    (∀ off s, (off, s) ∈ logPossibleStrings region min_len ↔
      IsReportedRun region min_len off s) ∧
    (logPossibleStrings region min_len).Pairwise
      (fun a b => a.1 < b.1 ∧ a.1 + a.2.length ≤ b.1) ∧
    (∀ off s, IsReportedRun region min_len off s →
      (logPossibleStrings region min_len).countP (fun r => decide (r = (off, s))) = 1) := by
  obtain ⟨hmem, hpw⟩ := dump_loop_spec region min_len region.length 0 (by omega)
    (Nat.zero_le _) (Or.inl rfl)
  have hmem2 : ∀ off s, (off, s) ∈ logPossibleStrings region min_len ↔
      IsReportedRun region min_len off s := by
    intro off s
    unfold logPossibleStrings
    rw [hmem off s]
    exact ⟨fun h => h.2, fun h => ⟨Nat.zero_le _, h⟩⟩
  have hpw2 : (logPossibleStrings region min_len).Pairwise
      (fun a b => a.1 < b.1 ∧ a.1 + a.2.length ≤ b.1) := by
    refine List.Pairwise.imp_of_mem ?_ hpw
    rintro ⟨off, s⟩ b ha _ hab
    have hpos : 0 < s.length := ((hmem2 off s).1 ha).1.1
    simp only at hab ⊢
    exact ⟨by omega, hab⟩
  refine ⟨hmem2, hpw2, ?_⟩
  intro off s hrep
  have hnd : (logPossibleStrings region min_len).Nodup := by
    refine List.Pairwise.imp ?_ hpw2
    rintro a b ⟨hlt, _⟩ hab
    rw [hab] at hlt
    exact Nat.lt_irrefl _ hlt
  exact countP_eq_one_of_nodup _ _ hnd ((hmem2 off s).2 hrep)

/-- C10 on the ten bytes `ab\0cdef\x01gh` with minimum length 3: the only
record is `cdef` at offset 3. -/
theorem logPossibleStrings_witness :
    logPossibleStrings [0x61, 0x62, 0, 0x63, 0x64, 0x65, 0x66, 1, 0x67, 0x68] 3
      = [(3, [0x63, 0x64, 0x65, 0x66])] ∧
    IsReportedRun [0x61, 0x62, 0, 0x63, 0x64, 0x65, 0x66, 1, 0x67, 0x68] 3 3
      [0x63, 0x64, 0x65, 0x66] ∧
    ¬ IsReportedRun [0x61, 0x62, 0, 0x63, 0x64, 0x65, 0x66, 1, 0x67, 0x68] 3 4
      [0x64, 0x65, 0x66] ∧
    (logPossibleStrings [0x61, 0x62, 0, 0x63, 0x64, 0x65, 0x66, 1, 0x67, 0x68] 3).countP
      (fun r => decide (r = (3, [0x63, 0x64, 0x65, 0x66]))) = 1 := by
  have h := logPossibleStrings_reports_maximal_runs
    [0x61, 0x62, 0, 0x63, 0x64, 0x65, 0x66, 1, 0x67, 0x68] 3
  have hrep := (h.1 3 [0x63, 0x64, 0x65, 0x66]).1 (by decide)
  exact ⟨by decide, hrep, fun hbad => absurd ((h.1 4 [0x64, 0x65, 0x66]).2 hbad) (by decide),
    h.2.2 _ _ hrep⟩

end VirtualMap

namespace SoList

/-! ### The walk over the module list -/

theorem ptr_diff_of_le (iter prev : Nat) (h1 : prev ≤ iter) (h2 : iter < 2 ^ 64) :
    ptr_diff iter prev = iter - prev := by
  unfold ptr_diff
  have : (2 : Nat) ^ 64 = 18446744073709551616 := by norm_num
  rw [this] at h2 ⊢
  omega

/-- A node with a non-empty path and a name: the iteration does the gap
bookkeeping and then records the milestones. -/
theorem walk_step_named (view : SoInfoView) (iter : Nat) (st : WalkState)
    (path name : List Char) (hp : view.path = some path) (hne : path ≠ [])
    (hn : view.name = some name) :
    walk_step view iter st =
      match gap_step iter st with
      | Sum.inl dropped => StepResult.ret dropped
      | Sum.inr (gap, gap_repeated) =>
        StepResult.cont
          { prev := iter, gap := gap, gap_repeated := gap_repeated,
            app_process_loaded := st.app_process_loaded,
            app_specialized :=
              st.app_specialized || decide (name = libart) || decide (name = libdexfile),
            nativehelper_loaded :=
              st.nativehelper_loaded || decide (name = libnativehelper) } := by
  unfold walk_step
  simp only [hp, hn, hne, if_false, false_and]
  rcases gap_step iter st with d | ⟨g, r⟩ <;> rfl

theorem walk_named_cont (nodes : Nat → SoInfoView) (fuel iter next : Nat) (st : WalkState)
    (path name : List Char) (gap : Nat) (rep : Int) (hiter : iter ≠ 0)
    (hv : nodes iter = ⟨next, some path, some name⟩) (hne : path ≠ [])
    (hg : gap_step iter st = Sum.inr (gap, rep)) :
    walk nodes (fuel + 1) iter st =
      walk nodes fuel next
        { prev := iter, gap := gap, gap_repeated := rep,
          app_process_loaded := st.app_process_loaded,
          app_specialized :=
            st.app_specialized || decide (name = libart) || decide (name = libdexfile),
          nativehelper_loaded := st.nativehelper_loaded || decide (name = libnativehelper) } := by
  rw [walk, if_neg hiter, walk_step_named (nodes iter) iter st path name (by rw [hv]) hne
    (by rw [hv]), hg, hv]

theorem walk_named_ret (nodes : Nat → SoInfoView) (fuel iter next : Nat) (st : WalkState)
    (path name : List Char) (dropped : Nat) (hiter : iter ≠ 0)
    (hv : nodes iter = ⟨next, some path, some name⟩) (hne : path ≠ [])
    (hg : gap_step iter st = Sum.inl dropped) :
    walk nodes (fuel + 1) iter st = some (WalkOutcome.returned dropped) := by
  rw [walk, if_neg hiter, walk_step_named (nodes iter) iter st path name (by rw [hv]) hne
    (by rw [hv]), hg]

theorem walk_null (nodes : Nat → SoInfoView) (fuel : Nat) (st : WalkState) :
    walk nodes (fuel + 1) 0 st = some (WalkOutcome.returned 0) := by
  rw [walk, if_pos rfl]

/-- The gap bookkeeping when the distance from the previous node is the
learned gap. -/
theorem gap_step_same (iter : Nat) (st : WalkState) (h : ptr_diff iter st.prev = st.gap) :
    gap_step iter st = Sum.inr (st.gap, st.gap_repeated + 1) := by
  unfold gap_step
  rw [if_neg (fun hc => hc.1 h), if_pos h]

/-- The gap bookkeeping when a new distance is seen before the learned gap
has been seen again: the new distance becomes the learned gap. -/
theorem gap_step_learn (iter : Nat) (st : WalkState) (h : ptr_diff iter st.prev ≠ st.gap)
    (hr : st.gap_repeated < 1) : gap_step iter st = Sum.inr (ptr_diff iter st.prev, 0) := by
  unfold gap_step
  rw [if_pos ⟨h, hr⟩]

/-- The gap bookkeeping when the distance is twice the learned gap, which has
been seen again since it was learned. -/
theorem gap_step_double (iter : Nat) (st : WalkState) (h : ptr_diff iter st.prev ≠ st.gap)
    (hr : 1 ≤ st.gap_repeated) (h2 : ptr_diff iter st.prev = (2 * st.gap) % 2 ^ 64) :
    gap_step iter st =
      if ¬ st.nativehelper_loaded ∨ ¬ st.app_specialized then
        Sum.inl ((st.prev + st.gap) % 2 ^ 64)
      else Sum.inr (st.gap, st.gap_repeated) := by
  unfold gap_step
  rw [if_neg (fun hc => by omega), if_neg h, if_pos h2]

/-- The gap bookkeeping for any other distance. -/
theorem gap_step_other (iter : Nat) (st : WalkState) (h : ptr_diff iter st.prev ≠ st.gap)
    (hr : 1 ≤ st.gap_repeated) (h2 : ptr_diff iter st.prev ≠ (2 * st.gap) % 2 ^ 64) :
    gap_step iter st = Sum.inr (st.gap, st.gap_repeated - 1) := by
  unfold gap_step
  rw [if_neg (fun hc => by omega), if_neg h, if_neg h2]

/-- The walk over the first three nodes `a`, `a + g`, `a + 2g` of a chain:
the distance `g` is the learned gap only after it has been seen twice. -/
theorem walk_first_three (nodes : Nat → SoInfoView) (a g fuel next : Nat)
    (p0 p1 p2 n0 n1 n2 : List Char) (ha : 0 < a) (hg : 0 < g) (hfit : a + 2 * g < 2 ^ 64)
    (h0 : nodes a = ⟨a + g, some p0, some n0⟩)
    (h1 : nodes (a + g) = ⟨a + 2 * g, some p1, some n1⟩)
    (h2 : nodes (a + 2 * g) = ⟨next, some p2, some n2⟩)
    (hp0 : p0 ≠ []) (hp1 : p1 ≠ []) (hp2 : p2 ≠ []) :
    detect_walk nodes (fuel + 3) a =
      walk nodes fuel next
        { prev := a + 2 * g, gap := g, gap_repeated := 0, app_process_loaded := false,
          app_specialized :=
            decide (n0 = libart) || decide (n0 = libdexfile) || decide (n1 = libart)
              || decide (n1 = libdexfile) || decide (n2 = libart) || decide (n2 = libdexfile),
          nativehelper_loaded :=
            decide (n0 = libnativehelper) || decide (n1 = libnativehelper)
              || decide (n2 = libnativehelper) } := by
  have hpow : (2 : Nat) ^ 64 = 18446744073709551616 := by norm_num
  unfold detect_walk
  rw [walk_named_cont nodes (fuel + 2) a (a + g) _ p0 n0 0 1 (by omega) h0 hp0
    (by
      rw [gap_step_same _ _ (by simp [initial_state, ptr_diff_of_le a a (le_refl _) (by omega)])]
      rfl)]
  rw [walk_named_cont nodes (fuel + 1) (a + g) (a + 2 * g) _ p1 n1 0 0 (by omega) h1 hp1
    (by
      have hd : ptr_diff (a + g) a = g := by
        rw [ptr_diff_of_le _ _ (by omega) (by omega)]; omega
      rw [gap_step_other _ _ (by simp [initial_state, hd]; omega) (by simp)
        (by simp [initial_state, hd]; omega)]
      rfl)]
  rw [walk_named_cont nodes fuel (a + 2 * g) next _ p2 n2 g 0 (by omega) h2 hp2
    (by
      have hd : ptr_diff (a + 2 * g) (a + g) = g := by
        rw [ptr_diff_of_le _ _ (by omega) (by omega)]; omega
      rw [gap_step_learn _ _ (by simp [hd]; omega) (by simp)]
      simp [hd])]
  simp [initial_state, Bool.or_assoc]

/-- A name that sets neither milestone flag. -/
theorem flags_of_plain_name (name : List Char) (h1 : name ≠ libart) (h2 : name ≠ libdexfile)
    (h3 : name ≠ libnativehelper) :
    (false || decide (name = libart) || decide (name = libdexfile)) = false ∧
    (false || decide (name = libnativehelper)) = false := by
  simp [h1, h2, h3]

/-- From a node of a run of equally spaced nodes on, with the spacing `g`
already learned and no milestone seen: the walk goes through the rest of the
run and, at the node that lies `2 * g` beyond the last node of the run,
returns the address `g` beyond that last node. -/
theorem walk_equal_gaps (nodes : Nat → SoInfoView) (a g k nx : Nat)
    (paths names : Nat → List Char) (hg : 0 < g) (ha : 0 < a)
    (hfit : a + (k + 2) * g < 2 ^ 64)
    (hnodes : ∀ i, i < k → nodes (a + i * g) = ⟨a + (i + 1) * g, some (paths i), some (names i)⟩)
    (hlast : nodes (a + k * g) = ⟨a + (k + 2) * g, some (paths k), some (names k)⟩)
    (hfinal : nodes (a + (k + 2) * g) = ⟨nx, some (paths (k + 1)), some (names (k + 1))⟩)
    (hpaths : ∀ i, i ≤ k + 1 → paths i ≠ [])
    (hnames : ∀ i, i ≤ k → names i ≠ libart ∧ names i ≠ libdexfile ∧
      names i ≠ libnativehelper) :
    ∀ (m j : Nat) (r : Int) (fuel : Nat), j + m = k → 1 ≤ j → 0 ≤ r →
      walk nodes (fuel + m + 2) (a + j * g)
        { prev := a + (j - 1) * g, gap := g, gap_repeated := r, app_process_loaded := false,
          app_specialized := false, nativehelper_loaded := false }
        = some (WalkOutcome.returned (a + (k + 1) * g)) := by
  have hpow : (2 : Nat) ^ 64 = 18446744073709551616 := by norm_num
  have hk2 : (k + 2) * g = k * g + 2 * g := by ring
  have hk1 : (k + 1) * g = k * g + g := by ring
  have hmono : ∀ i, i ≤ k → i * g ≤ k * g := fun i hi => Nat.mul_le_mul_right g hi
  have hstep : ∀ j, 1 ≤ j → j ≤ k →
      ptr_diff (a + j * g) (a + (j - 1) * g) = g := by
    intro j hj1 hjk
    have h1 : j * g = (j - 1) * g + g := by
      obtain ⟨i, rfl⟩ : ∃ i, j = i + 1 := ⟨j - 1, by omega⟩
      simp only [Nat.add_sub_cancel]
      ring
    have h2 := hmono j hjk
    rw [ptr_diff_of_le _ _ (by omega) (by omega)]
    omega
  intro m
  induction m with
  | zero =>
    intro j r fuel hj hj1 hr
    have hjk : j = k := by omega
    subst hjk
    rw [walk_named_cont nodes (fuel + 0 + 1) (a + j * g) (a + (j + 2) * g) _ (paths j) (names j)
      g (r + 1) (by omega) hlast (hpaths j (by omega))
      (by rw [gap_step_same _ _ (hstep j hj1 (le_refl _))])]
    obtain ⟨hf1, hf2⟩ := flags_of_plain_name (names j) (hnames j (le_refl _)).1
      (hnames j (le_refl _)).2.1 (hnames j (le_refl _)).2.2
    rw [hf1, hf2]
    have hd : ptr_diff (a + (j + 2) * g) (a + j * g) = 2 * g := by
      rw [ptr_diff_of_le _ _ (by omega) (by omega)]
      omega
    rw [walk_named_ret nodes (fuel + 0) (a + (j + 2) * g) nx _ (paths (j + 1)) (names (j + 1))
      (a + (j + 1) * g) (by omega) hfinal (hpaths (j + 1) (le_refl _))
      (by
        rw [gap_step_double _ _ (by simp only [hd]; omega) (by simp only; omega)
          (by simp only [hd]; omega)]
        simp only [Bool.false_eq_true, not_false_eq_true, or_self, if_true]
        congr 1
        omega)]
  | succ m ih =>
    intro j r fuel hj hj1 hr
    have hjk : j < k := by omega
    rw [show fuel + (m + 1) + 2 = (fuel + m + 2) + 1 by omega,
      walk_named_cont nodes (fuel + m + 2) (a + j * g) (a + (j + 1) * g) _ (paths j) (names j)
        g (r + 1) (by omega) (hnodes j hjk) (hpaths j (by omega))
        (by rw [gap_step_same _ _ (hstep j hj1 (by omega))])]
    obtain ⟨hf1, hf2⟩ := flags_of_plain_name (names j) (hnames j (by omega)).1
      (hnames j (by omega)).2.1 (hnames j (by omega)).2.2
    rw [hf1, hf2]
    have := ih (j + 1) (r + 1) fuel (by omega) (by omega) (by omega)
    simpa using this

/-- The walk over a chain of five nodes at `a`, `a + g`, `a + 2g`, `a + 3g`,
`a + 5g`: the double gap is returned as `a + 4g` unless both milestones were
seen among the first four nodes, in which case the walk reaches the end of
the list. -/
theorem walk_five_nodes (nodes : Nat → SoInfoView) (a g fuel : Nat)
    (paths names : Nat → List Char) (ha : 0 < a) (hg : 0 < g) (hfit : a + 5 * g < 2 ^ 64)
    (hc : FiveNodeChain nodes a g paths names) :
    detect_walk nodes (fuel + 6) a =
      some (WalkOutcome.returned
        (if ((decide (names 0 = libnativehelper) || decide (names 1 = libnativehelper)
                || decide (names 2 = libnativehelper) || decide (names 3 = libnativehelper))
              && (decide (names 0 = libart) || decide (names 0 = libdexfile)
                || decide (names 1 = libart) || decide (names 1 = libdexfile)
                || decide (names 2 = libart) || decide (names 2 = libdexfile)
                || decide (names 3 = libart) || decide (names 3 = libdexfile))) = true
         then 0 else a + 4 * g)) := by
  obtain ⟨h0, h1, h2, h3, h4, hp⟩ := hc
  have hpow : (2 : Nat) ^ 64 = 18446744073709551616 := by norm_num
  rw [show fuel + 6 = (fuel + 3) + 3 by omega,
    walk_first_three nodes a g (fuel + 3) (a + 3 * g) _ _ _ _ _ _ ha hg (by omega) h0 h1 h2
      (hp 0 (by omega)) (hp 1 (by omega)) (hp 2 (by omega))]
  have hd3 : ptr_diff (a + 3 * g) (a + 2 * g) = g := by
    rw [ptr_diff_of_le _ _ (by omega) (by omega)]; omega
  rw [walk_named_cont nodes (fuel + 2) (a + 3 * g) (a + 5 * g) _ (paths 3) (names 3) g 1
    (by omega) h3 (hp 3 (by omega)) (by rw [gap_step_same _ _ hd3]; rfl)]
  have hd5 : ptr_diff (a + 5 * g) (a + 3 * g) = 2 * g := by
    rw [ptr_diff_of_le _ _ (by omega) (by omega)]; omega
  by_cases hboth : ((decide (names 0 = libnativehelper) || decide (names 1 = libnativehelper)
                || decide (names 2 = libnativehelper) || decide (names 3 = libnativehelper))
              && (decide (names 0 = libart) || decide (names 0 = libdexfile)
                || decide (names 1 = libart) || decide (names 1 = libdexfile)
                || decide (names 2 = libart) || decide (names 2 = libdexfile)
                || decide (names 3 = libart) || decide (names 3 = libdexfile))) = true
  · rw [if_pos hboth]
    rw [walk_named_cont nodes (fuel + 1) (a + 5 * g) 0 _ (paths 4) (names 4) g 1
      (by omega) h4 (hp 4 (by omega))
      (by
        rw [gap_step_double _ _ (by simp only [hd5]; omega) (by simp)
          (by simp only [hd5]; omega)]
        rw [if_neg]
        simp only [Bool.and_eq_true] at hboth
        simp only [hboth.1, hboth.2, not_true_eq_false, or_self, not_false_eq_true])]
    exact walk_null nodes fuel _
  · rw [if_neg hboth]
    rw [walk_named_ret nodes (fuel + 1) (a + 5 * g) 0 _ (paths 4) (names 4) (a + 4 * g)
      (by omega) h4 (hp 4 (by omega))
      (by
        rw [gap_step_double _ _ (by simp only [hd5]; omega) (by simp)
          (by simp only [hd5]; omega)]
        rw [if_pos]
        · congr 1
          simp only
          omega
        · simp only [Bool.and_eq_true, not_and_or] at hboth
          rcases hboth with h | h
          · left; simpa using h
          · right; simpa using h)]

/-- C11. On a chain of five nodes at `a`, `a + g`, `a + 2g`, `a + 3g`,
`a + 5g` with non-empty paths and present names: when none of the first four
nodes is named `libnativehelper.so`, `libart.so` or `libdexfile.so`, the walk
returns the address `a + 4g` of the missing node; when the first four nodes
(of the chain `nodes'`) include `libnativehelper.so` and also `libart.so` or
`libdexfile.so`, the double gap is tolerated and the walk returns `nullptr`. -/
theorem five_node_gap_anomaly (nodes nodes' : Nat → SoInfoView) (a g fuel : Nat)
    (paths names paths' names' : Nat → List Char)
    (ha : 0 < a) (hg : 0 < g) (hfit : a + 5 * g < 2 ^ 64) (hfuel : 6 ≤ fuel)
    (hc : FiveNodeChain nodes a g paths names)
    (hplain : ∀ i, i < 4 → names i ≠ libnativehelper ∧ names i ≠ libart ∧
      names i ≠ libdexfile)
    (hc' : FiveNodeChain nodes' a g paths' names')
    (hnative : ∃ i, i < 4 ∧ names' i = libnativehelper)
    (hspec : ∃ i, i < 4 ∧ (names' i = libart ∨ names' i = libdexfile)) :
    detect_walk nodes fuel a = some (WalkOutcome.returned (a + 4 * g)) ∧
    detect_walk nodes' fuel a = some (WalkOutcome.returned 0) := by
  obtain ⟨f, rfl⟩ : ∃ f, fuel = f + 6 := ⟨fuel - 6, by omega⟩
  constructor
  · rw [walk_five_nodes nodes a g f paths names ha hg hfit hc, if_neg]
    have h0 := hplain 0 (by omega)
    have h1 := hplain 1 (by omega)
    have h2 := hplain 2 (by omega)
    have h3 := hplain 3 (by omega)
    simp [h0.1, h1.1, h2.1, h3.1]
  · rw [walk_five_nodes nodes' a g f paths' names' ha hg hfit hc', if_pos]
    obtain ⟨i, hi, hn⟩ := hnative
    obtain ⟨j, hj, hs⟩ := hspec
    have hi' : i = 0 ∨ i = 1 ∨ i = 2 ∨ i = 3 := by omega
    have hj' : j = 0 ∨ j = 1 ∨ j = 2 ∨ j = 3 := by omega
    simp only [Bool.and_eq_true, Bool.or_eq_true, decide_eq_true_eq]
    constructor
    · rcases hi' with rfl | rfl | rfl | rfl <;> simp [hn]
    · rcases hj' with rfl | rfl | rfl | rfl <;> rcases hs with hs | hs <;> simp [hs]

theorem example_chain_is_five (names : Nat → List Char) :
    FiveNodeChain (example_chain names) 0x1000 0x100 (example_paths names) names := by
  refine ⟨rfl, rfl, rfl, rfl, rfl, ?_⟩
  intro i _
  simp [example_paths]

/-- C11 on the chain at `0x1000`, `0x1100`, `0x1200`, `0x1300`, `0x1500`:
without milestones the walk returns `0x1400`; with `libnativehelper.so` and
`libart.so` among the first four nodes it returns `nullptr`. -/
theorem five_node_gap_anomaly_witness :
    FiveNodeChain (example_chain plain_names) 0x1000 0x100 (example_paths plain_names)
      plain_names ∧
    FiveNodeChain (example_chain milestone_names) 0x1000 0x100
      (example_paths milestone_names) milestone_names ∧
    milestone_names 1 = libnativehelper ∧ milestone_names 2 = libart ∧
    detect_walk (example_chain plain_names) 6 0x1000
      = some (WalkOutcome.returned (0x1000 + 4 * 0x100)) ∧
    detect_walk (example_chain milestone_names) 6 0x1000 = some (WalkOutcome.returned 0) := by
  have h := five_node_gap_anomaly (example_chain plain_names) (example_chain milestone_names)
    0x1000 0x100 6 (example_paths plain_names) plain_names (example_paths milestone_names)
    milestone_names (by decide) (by decide) (by norm_num) (le_refl _)
    (example_chain_is_five plain_names)
    (fun i hi => by
      have : i = 0 ∨ i = 1 ∨ i = 2 ∨ i = 3 := by omega
      rcases this with rfl | rfl | rfl | rfl <;> decide)
    (example_chain_is_five milestone_names) ⟨1, by decide, rfl⟩ ⟨2, by decide, Or.inl rfl⟩
  exact ⟨example_chain_is_five plain_names, example_chain_is_five milestone_names, rfl, rfl,
    h.1, h.2⟩

/-- After `k` iterations that did not return, the walk goes on from the
position reached. -/
theorem walk_of_advance (nodes : Nat → SoInfoView) :
    ∀ (k fuel p : Nat) (st : WalkState) (iter : Nat) (st' : WalkState),
      advance nodes k p st = some (iter, st') →
      walk nodes (fuel + k) p st = walk nodes fuel iter st' := by
  intro k
  induction k with
  | zero =>
    intro fuel p st iter st' h
    simp only [advance, Option.some.injEq, Prod.mk.injEq] at h
    rw [h.1, h.2]
    rfl
  | succ k ih =>
    intro fuel p st iter st' h
    rw [advance] at h
    by_cases hp : p = 0
    · rw [if_pos hp] at h; cases h
    · rw [if_neg hp] at h
      rw [show fuel + (k + 1) = (fuel + k) + 1 by omega, walk, if_neg hp]
      cases hs : walk_step (nodes p) p st with
      | ret q => rw [hs] at h; cases h
      | fault => rw [hs] at h; cases h
      | cont s =>
        rw [hs] at h
        exact ih fuel _ _ _ _ h

/-- The first test of the loop body: a node whose path is null or empty is
returned whatever the locals are. -/
theorem walk_step_empty_path (view : SoInfoView) (iter : Nat) (st : WalkState)
    (h : view.path = none ∨ view.path = some []) :
    walk_step view iter st = StepResult.ret iter := by
  unfold walk_step
  rcases h with h | h <;> simp [h]

/-- C12. If the walk reaches, after `k` iterations none of which returned, a
node whose path is null or empty, it returns that node, whatever the gaps and
milestones seen so far. -/
theorem empty_path_is_returned (nodes : Nat → SoInfoView) (solinker k fuel iter : Nat)
    (st : WalkState) (hreach : advance nodes k solinker (initial_state solinker) = some (iter, st))
    (hiter : iter ≠ 0) (hpath : (nodes iter).path = none ∨ (nodes iter).path = some [])
    (hfuel : k < fuel) :
    detect_walk nodes fuel solinker = some (WalkOutcome.returned iter) ∧
    ∀ (f : Nat) (any : WalkState),
      walk nodes (f + 1) iter any = some (WalkOutcome.returned iter) := by
  have hany : ∀ (f : Nat) (any : WalkState),
      walk nodes (f + 1) iter any = some (WalkOutcome.returned iter) := by
    intro f any
    rw [walk, if_neg hiter, walk_step_empty_path _ _ _ hpath]
  obtain ⟨f, rfl⟩ : ∃ f, fuel = (f + 1) + k := ⟨fuel - k - 1, by omega⟩
  refine ⟨?_, hany⟩
  unfold detect_walk
  rw [walk_of_advance nodes k (f + 1) _ _ _ _ hreach]
  exact hany f st

/-- C12 on a list whose second node has an empty path: that node is
returned. -/
theorem empty_path_is_returned_witness :
    advance empty_path_list 1 0x1000 (initial_state 0x1000)
      = some (0x1100, ⟨0x1000, 0, 1, false, false, false⟩) ∧
    (0x1100 : Nat) ≠ 0 ∧ (empty_path_list 0x1100).path = some [] ∧
    detect_walk empty_path_list 2 0x1000 = some (WalkOutcome.returned 0x1100) ∧
    walk empty_path_list 1 0x1100 ⟨0x1000, 0x100, 5, true, true, true⟩
      = some (WalkOutcome.returned 0x1100) := by
  have h := empty_path_is_returned empty_path_list 0x1000 1 2 0x1100
    ⟨0x1000, 0, 1, false, false, false⟩ (by decide) (by decide) (Or.inr (by decide))
    (by decide)
  exact ⟨by decide, by decide, by decide, h.1, h.2 0 _⟩

/-- C17 (as amended). On a chain of nodes with non-empty paths and names
that are not milestone modules, at `a`, `a + g`, ..., `a + k * g` and then
`a + (k + 2) * g`, with `g > 0` and at least three gaps of `g` before the gap
of `2 * g` (`k ≥ 3`), the walk returns the address `a + (k + 1) * g` of the
missing node, `g` beyond the predecessor of the node after the double gap. -/
theorem double_gap_after_three_gaps (nodes : Nat → SoInfoView) (a g k nx fuel : Nat)
    (paths names : Nat → List Char) (hk : 3 ≤ k) (hfuel : k + 2 ≤ fuel)
    (hg : 0 < g) (ha : 0 < a) (hfit : a + (k + 2) * g < 2 ^ 64)
    (hnodes : ∀ i, i < k → nodes (a + i * g) = ⟨a + (i + 1) * g, some (paths i), some (names i)⟩)
    (hlast : nodes (a + k * g) = ⟨a + (k + 2) * g, some (paths k), some (names k)⟩)
    (hfinal : nodes (a + (k + 2) * g) = ⟨nx, some (paths (k + 1)), some (names (k + 1))⟩)
    (hpaths : ∀ i, i ≤ k + 1 → paths i ≠ [])
    (hnames : ∀ i, i ≤ k → names i ≠ libart ∧ names i ≠ libdexfile ∧
      names i ≠ libnativehelper) :
    detect_walk nodes fuel a = some (WalkOutcome.returned (a + (k + 1) * g)) := by
  obtain ⟨f, rfl⟩ : ∃ f, fuel = (f + (k - 3) + 2) + 3 := ⟨fuel - k - 2, by omega⟩
  have hmono : 2 * g ≤ k * g := Nat.mul_le_mul_right g (by omega)
  have hk2 : (k + 2) * g = k * g + 2 * g := by ring
  have h0 := hnodes 0 (by omega)
  have h1 := hnodes 1 (by omega)
  have h2 := hnodes 2 (by omega)
  simp only [Nat.zero_mul, Nat.add_zero, Nat.zero_add, Nat.one_mul] at h0 h1
  rw [show (1 + 1) * g = 2 * g by ring] at h1
  rw [walk_first_three nodes a g _ (a + (2 + 1) * g) _ _ _ _ _ _ ha hg (by omega) h0 h1 h2
    (hpaths 0 (by omega)) (hpaths 1 (by omega)) (hpaths 2 (by omega))]
  have hn0 := hnames 0 (by omega)
  have hn1 := hnames 1 (by omega)
  have hn2 := hnames 2 (by omega)
  have hflags1 : (decide (names 0 = libart) || decide (names 0 = libdexfile)
      || decide (names 1 = libart) || decide (names 1 = libdexfile)
      || decide (names 2 = libart) || decide (names 2 = libdexfile)) = false := by
    simp [hn0.1, hn0.2.1, hn1.1, hn1.2.1, hn2.1, hn2.2.1]
  have hflags2 : (decide (names 0 = libnativehelper) || decide (names 1 = libnativehelper)
      || decide (names 2 = libnativehelper)) = false := by
    simp [hn0.2.2, hn1.2.2, hn2.2.2]
  rw [hflags1, hflags2]
  have := walk_equal_gaps nodes a g k nx paths names hg ha hfit hnodes hlast hfinal hpaths
    hnames (k - 3) 3 0 f (by omega) (by omega) (le_refl _)
  simpa using this

theorem six_node_chain_nodes (i : Nat) (hi : i < 4) :
    six_node_chain (0x1000 + i * 0x100)
      = ⟨0x1000 + (i + 1) * 0x100, some (example_paths six_names i), some (six_names i)⟩ := by
  have : i = 0 ∨ i = 1 ∨ i = 2 ∨ i = 3 := by omega
  rcases this with rfl | rfl | rfl | rfl <;> rfl

theorem six_names_plain (i : Nat) (hi : i ≤ 4) :
    six_names i ≠ libart ∧ six_names i ≠ libdexfile ∧ six_names i ≠ libnativehelper := by
  have : i = 0 ∨ i = 1 ∨ i = 2 ∨ i = 3 ∨ i = 4 := by omega
  rcases this with rfl | rfl | rfl | rfl | rfl <;> decide

/-- The amended C17 on the chain at `0x1000`, ..., `0x1400`, `0x1600` (four
gaps of `0x100`, then one of `0x200`): the walk returns `0x1500`. -/
theorem double_gap_after_three_gaps_witness :
    six_node_chain (0x1000 + 4 * 0x100)
      = ⟨0x1000 + (4 + 2) * 0x100, some (example_paths six_names 4), some (six_names 4)⟩ ∧
    six_node_chain (0x1000 + (4 + 2) * 0x100)
      = ⟨0, some (example_paths six_names 5), some (six_names 5)⟩ ∧
    detect_walk six_node_chain 6 0x1000 = some (WalkOutcome.returned (0x1000 + (4 + 1) * 0x100)) :=
  ⟨rfl, rfl,
   double_gap_after_three_gaps six_node_chain 0x1000 0x100 4 0 6 (example_paths six_names)
     six_names (by decide) (by decide) (by decide) (by decide) (by norm_num)
     six_node_chain_nodes rfl rfl (fun i _ => by simp [example_paths]) six_names_plain⟩

/-- C17 as stated fails on the chain at `0x1000`, `0x1100`, `0x1200`,
`0x1400`: its first gaps are `0x100`, the last node lies `0x200` beyond its
predecessor `0x1200`, no milestone module appears, and the walk returns
`nullptr` instead of `0x1300`. -/
theorem double_gap_after_two_gaps_missed :
    early_gap_chain 0x1000 = ⟨0x1100, some "/system/lib64/linker64".toList,
      some "linker64".toList⟩ ∧
    early_gap_chain 0x1100 = ⟨0x1200, some "/system/lib64/libc.so".toList,
      some "libc.so".toList⟩ ∧
    early_gap_chain 0x1200 = ⟨0x1400, some "/system/lib64/libm.so".toList,
      some "libm.so".toList⟩ ∧
    early_gap_chain 0x1400 = ⟨0, some "/system/lib64/libx.so".toList, some "libx.so".toList⟩ ∧
    detect_walk early_gap_chain 5 0x1000 = some (WalkOutcome.returned 0) ∧
    detect_walk early_gap_chain 5 0x1000 ≠ some (WalkOutcome.returned (0x1200 + 0x100)) := by
  decide

/-- An iteration that does not return keeps `app_process_loaded` once it is
set, and sets it at a node without a name whose path contains
`/system/bin/app_proces`. -/
theorem walk_step_app_process (view : SoInfoView) (iter : Nat) (st st' : WalkState)
    (h : walk_step view iter st = StepResult.cont st') :
    (st.app_process_loaded = true → st'.app_process_loaded = true) ∧
    (view.name = none → (∃ path, view.path = some path ∧ strstr path app_process_path = true) →
      st'.app_process_loaded = true) := by
  unfold walk_step at h
  cases hp : view.path with
  | none => rw [hp] at h; cases h
  | some path =>
    rw [hp] at h
    simp only at h
    by_cases hne : path = []
    · rw [if_pos hne] at h; cases h
    · rw [if_neg hne] at h
      by_cases h2 : view.name = none ∧ st.app_process_loaded = true
      · rw [if_pos h2] at h; cases h
      · rw [if_neg h2] at h
        by_cases h3 : view.name = none ∧ strstr path app_process_path = true
        · rw [if_pos h3] at h
          injection h with h
          subst h
          exact ⟨fun _ => rfl, fun _ _ => rfl⟩
        · rw [if_neg h3] at h
          have hkeep : st'.app_process_loaded = st.app_process_loaded := by
            cases hg : gap_step iter st with
            | inl d => rw [hg] at h; cases h
            | inr gr =>
              obtain ⟨gap, rep⟩ := gr
              rw [hg] at h
              cases hn : view.name with
              | none =>
                rw [hn] at h
                simp only at h
                split at h
                · injection h with h; subst h; rfl
                · cases h
              | some name =>
                rw [hn] at h
                injection h with h; subst h; rfl
          refine ⟨fun hf => by rw [hkeep, hf], ?_⟩
          rintro hn ⟨path', hp', hs⟩
          injection hp' with hp'
          subst hp'
          exact absurd ⟨hn, hs⟩ h3

/-- Once set, `app_process_loaded` stays set as the walk goes on. -/
theorem advance_keeps_app_process (nodes : Nat → SoInfoView) :
    ∀ (k p : Nat) (st : WalkState) (iter : Nat) (st' : WalkState),
      advance nodes k p st = some (iter, st') → st.app_process_loaded = true →
      st'.app_process_loaded = true := by
  intro k
  induction k with
  | zero =>
    intro p st iter st' h hf
    simp only [advance, Option.some.injEq, Prod.mk.injEq] at h
    rw [← h.2]; exact hf
  | succ k ih =>
    intro p st iter st' h hf
    rw [advance] at h
    by_cases hp : p = 0
    · rw [if_pos hp] at h; cases h
    · rw [if_neg hp] at h
      cases hs : walk_step (nodes p) p st with
      | ret q => rw [hs] at h; cases h
      | fault => rw [hs] at h; cases h
      | cont s =>
        rw [hs] at h
        exact ih _ _ _ _ h ((walk_step_app_process _ _ _ _ hs).1 hf)

theorem advance_add (nodes : Nat → SoInfoView) :
    ∀ (j m p : Nat) (st : WalkState) (q : Nat) (sq : WalkState),
      advance nodes j p st = some (q, sq) →
      advance nodes (j + m) p st = advance nodes m q sq := by
  intro j
  induction j with
  | zero =>
    intro m p st q sq h
    simp only [advance, Option.some.injEq, Prod.mk.injEq] at h
    rw [Nat.zero_add, h.1, h.2]
  | succ j ih =>
    intro m p st q sq h
    rw [advance] at h
    rw [show j + 1 + m = (j + m) + 1 by omega, advance]
    by_cases hp : p = 0
    · rw [if_pos hp] at h; cases h
    · rw [if_neg hp] at h ⊢
      cases hs : walk_step (nodes p) p st with
      | ret r => rw [hs] at h; cases h
      | fault => rw [hs] at h; cases h
      | cont s =>
        rw [hs] at h
        exact ih m _ _ _ _ h

/-- A node without a name met while `app_process_loaded` is set is
returned. -/
theorem walk_step_nameless (view : SoInfoView) (iter : Nat) (st : WalkState)
    (hn : view.name = none) (hf : st.app_process_loaded = true) :
    walk_step view iter st = StepResult.ret iter := by
  unfold walk_step
  cases hp : view.path with
  | none => rfl
  | some path =>
    simp only
    by_cases hne : path = []
    · rw [if_pos hne]
    · rw [if_neg hne, if_pos ⟨hn, hf⟩]

/-- C18 (as amended). A node without a name that the walk reaches after it
has visited the `app_process` placeholder, a node without a name whose path
contains `/system/bin/app_proces`, is returned as the anomaly. -/
theorem nameless_after_app_process_returned (nodes : Nat → SoInfoView)
    (solinker j m fuel q iter : Nat) (sq st : WalkState)
    (hq : advance nodes j solinker (initial_state solinker) = some (q, sq))
    (hqname : (nodes q).name = none)
    (hqpath : ∃ path, (nodes q).path = some path ∧ strstr path app_process_path = true)
    (hreach : advance nodes (j + (m + 1)) solinker (initial_state solinker) = some (iter, st))
    (hiter : iter ≠ 0) (hname : (nodes iter).name = none) (hfuel : j + (m + 1) < fuel) :
    detect_walk nodes fuel solinker = some (WalkOutcome.returned iter) := by
  have hrest : advance nodes (m + 1) q sq = some (iter, st) := by
    rw [← advance_add nodes j (m + 1) _ _ q sq hq]; exact hreach
  have hflag : st.app_process_loaded = true := by
    have hq0 : q ≠ 0 := by
      intro h0
      rw [advance, if_pos h0] at hrest
      cases hrest
    cases hs : walk_step (nodes q) q sq with
    | ret r => rw [advance, if_neg hq0, hs] at hrest; cases hrest
    | fault => rw [advance, if_neg hq0, hs] at hrest; cases hrest
    | cont s =>
      rw [advance, if_neg hq0, hs] at hrest
      exact advance_keeps_app_process nodes _ _ _ _ _ hrest
        ((walk_step_app_process _ _ _ _ hs).2 hqname hqpath)
  obtain ⟨f, rfl⟩ : ∃ f, fuel = (f + 1) + (j + (m + 1)) := ⟨fuel - (j + (m + 1)) - 1, by omega⟩
  unfold detect_walk
  rw [walk_of_advance nodes _ (f + 1) _ _ _ _ hreach, walk, if_neg hiter,
    walk_step_nameless _ _ _ hname hflag]

/-- The amended C18 on a list whose first node is the `app_process`
placeholder and whose third node has no name: the third node is returned. -/
theorem nameless_after_app_process_returned_witness :
    advance nameless_after_app_process 0 0x1000 (initial_state 0x1000)
      = some (0x1000, initial_state 0x1000) ∧
    (nameless_after_app_process 0x1000).name = none ∧
    (nameless_after_app_process 0x1000).path = some "/system/bin/app_process64".toList ∧
    strstr "/system/bin/app_process64".toList app_process_path = true ∧
    advance nameless_after_app_process 2 0x1000 (initial_state 0x1000)
      = some (0x1200, ⟨0x1100, 0x100, 0, true, false, false⟩) ∧
    (nameless_after_app_process 0x1200).name = none ∧
    detect_walk nameless_after_app_process 3 0x1000 = some (WalkOutcome.returned 0x1200) :=
  ⟨rfl, rfl, rfl, by decide, by decide, rfl,
   nameless_after_app_process_returned nameless_after_app_process 0x1000 0 1 3 0x1000 0x1200
     (initial_state 0x1000) ⟨0x1100, 0x100, 0, true, false, false⟩ rfl rfl
     ⟨_, rfl, by decide⟩ (by decide) (by decide) rfl (by decide)⟩

/-- C18 as stated fails: on a list where a node without a name follows
`libnativehelper.so` and `libart.so`, the walk reaches that node with
`app_specialized` set, does not return it, and ends with `nullptr`. -/
theorem nameless_after_specialization_not_returned :
    (nameless_after_art 0x1100).name = some libart ∧
    advance nameless_after_art 2 0x1000 (initial_state 0x1000)
      = some (0x1200, ⟨0x1100, 0, 0, false, true, true⟩) ∧
    (nameless_after_art 0x1200).name = none ∧
    detect_walk nameless_after_art 4 0x1000 = some (WalkOutcome.returned 0) ∧
    detect_walk nameless_after_art 4 0x1000 ≠ some (WalkOutcome.returned 0x1200) := by
  decide

end SoList

namespace SoList

/-! ### Initialization and calibration -/

/-- When the load from `somain` cannot be made at a step that the loop of
`findHeuristicOffsets` reaches, because no earlier step matches and the
earlier loads can be made, the call ends there without a result. -/
theorem find_offsets_loop_fault (l : Linker) (linker_name : List Char) (g : Globals) :
    ∀ (steps i k : Nat), k < steps →
      l.read_size (g.somain + (i + k) * l.pointer_size) = none →
      (∀ j, j < k →
        (l.read_size (g.somain + (i + j) * l.pointer_size)).isSome = true ∧
        ¬ ((l.read_string (g.solinker + (i + j) * l.pointer_size)).size = linker_name.length ∧
          VirtualMap.c_string linker_name
            = (l.read_string (g.solinker + (i + j) * l.pointer_size)).c_str)) →
      find_offsets_loop l linker_name g steps i = none := by
  intro steps
  induction steps with
  | zero => intro i k hk; omega
  | succ n ih =>
    intro i k hk hnone hbefore
    cases k with
    | zero =>
      rw [Nat.add_zero] at hnone
      rw [find_offsets_loop, hnone]
    | succ k =>
      obtain ⟨h0, hm⟩ := hbefore 0 (by omega)
      obtain ⟨v, hv⟩ := Option.isSome_iff_exists.mp h0
      rw [Nat.add_zero] at hv hm
      rw [find_offsets_loop, hv]
      simp only [hm, if_false]
      apply ih (i + 1) k (by omega)
      · rw [show i + 1 + k = i + (k + 1) by omega]; exact hnone
      · intro j hj
        rw [show i + 1 + j = i + (j + 1) by omega]
        exact hbefore (j + 1) (by omega)

/-- With `somain` null the first load of `findHeuristicOffsets` cannot be
made: the call has no result, although step 52 of the list head holds the
linker path. -/
theorem findHeuristicOffsets_null_somain :
    calibrated_linker.read_size 0 = none ∧
    findHeuristicOffsets calibrated_linker "/system/bin/linker64".toList
        ⟨0x7000, 0, 0, 0, 0, 0, 0x1a0⟩ = none := by
  decide

/-- The call during which `Initialize` fails returns `nullptr` without
walking the list. -/
theorem DetectInjection_init_failure (l : Linker) (nodes : Globals → Nat → SoInfoView)
    (fuel : Nat) (g : Globals) (hg : g.solinker = 0)
    (hdone : (Initialize l g).faulted = false) (hfail : (Initialize l g).ok = false) :
    DetectInjection l nodes fuel g
      = (some (WalkOutcome.returned 0), (Initialize l g).globals) := by
  unfold DetectInjection
  rw [if_pos hg, if_neg (by rw [hdone]; decide), if_pos hfail]

/-- A call made with the list head already set does not initialize: it walks
the list from the head with the offsets the variables hold. -/
theorem DetectInjection_head_set (l : Linker) (nodes : Globals → Nat → SoInfoView)
    (fuel : Nat) (g : Globals) (hg : g.solinker ≠ 0) :
    DetectInjection l nodes fuel g = (detect_walk (nodes g) fuel g.solinker, g) := by
  unfold DetectInjection
  rw [if_neg hg]

/-- C13, the code at the failing input: when every symbol is found but no
candidate matches the linker path, `Initialize` returns `false` (every load
it makes has a defined result) with the list head already stored; the first
`DetectInjection` call returns `nullptr`, and the second call, made with the
variables the first one left, walks the list with the built-in offset `0x1a0`
and returns the head node `0x7000`. -/
theorem DetectInjection_walks_after_failed_calibration :
    (Initialize uncalibrated_linker Globals.initial).ok = false ∧
    (Initialize uncalibrated_linker Globals.initial).faulted = false ∧
    findHeuristicOffsets uncalibrated_linker uncalibrated_linker.name
        (Initialize uncalibrated_linker Globals.initial).globals
      = some (false, (Initialize uncalibrated_linker Globals.initial).globals) ∧
    (Initialize uncalibrated_linker Globals.initial).globals.solinker = 0x7000 ∧
    (Initialize uncalibrated_linker Globals.initial).globals.solist_realpath_offset = 0x1a0 ∧
    (DetectInjection uncalibrated_linker uncalibrated_nodes 4 Globals.initial).1
      = some (WalkOutcome.returned 0) ∧
    (DetectInjection uncalibrated_linker uncalibrated_nodes 4
      (DetectInjection uncalibrated_linker uncalibrated_nodes 4 Globals.initial).2)
      = (detect_walk
          (uncalibrated_nodes (Initialize uncalibrated_linker Globals.initial).globals) 4 0x7000,
         (Initialize uncalibrated_linker Globals.initial).globals) ∧
    (DetectInjection uncalibrated_linker uncalibrated_nodes 4
      (DetectInjection uncalibrated_linker uncalibrated_nodes 4 Globals.initial).2).1
      = some (WalkOutcome.returned 0x7000) := by
  have hfail : (Initialize uncalibrated_linker Globals.initial).ok = false := by decide
  have hhead : (Initialize uncalibrated_linker Globals.initial).globals.solinker = 0x7000 := by
    decide
  have hdone : (Initialize uncalibrated_linker Globals.initial).faulted = false := by decide
  have h1 := DetectInjection_init_failure uncalibrated_linker uncalibrated_nodes 4
    Globals.initial rfl hdone hfail
  have h2 := DetectInjection_head_set uncalibrated_linker uncalibrated_nodes 4
    (Initialize uncalibrated_linker Globals.initial).globals (by rw [hhead]; decide)
  rw [hhead] at h2
  refine ⟨hfail, hdone, by decide, hhead, by decide, by rw [h1], by rw [h1]; exact h2, ?_⟩
  rw [h1]
  simp only
  rw [h2]
  decide

theorem llvm_sufix_of_name (s : List Char) (hlen : s.length ≤ 25) :
    llvm_sufix (somain_base ++ s) = s := by
  unfold llvm_sufix
  by_cases hs : s = []
  · subst hs
    simp
  · have hpos : 0 < s.length := List.length_pos.mpr hs
    rw [if_pos (by rw [List.length_append]; omega), List.drop_left,
      List.take_of_length_le (by omega)]

/-- C19 (as amended). When the resolved `somain` symbol name is its base name
followed by a suffix `s` of at most 25 characters (possibly empty) and the two
`ProtectedDataGuard` symbols are found, `Initialize` looks up the list head
under `__dl__ZL8solinker` followed by `s` and, when that gives no list head,
under the legacy name `__dl__ZL6solist` followed by `s`; the
`ProtectedDataGuard` constructor and destructor are looked up under their
plain names. -/
theorem Initialize_symbol_names (l : Linker) (g : Globals) (s : List Char)
    (hctor : l.getSymbAddress guard_ctor_name ≠ 0) (hdtor : l.getSymbAddress guard_dtor_name ≠ 0)
    (hname : l.findSymbolNameByPrefix somain_base = somain_base ++ s)
    (hlen : s.length ≤ 25) :
    guard_ctor_name ∈ (Initialize l g).lookups ∧
    guard_dtor_name ∈ (Initialize l g).lookups ∧
    (solinker_base ++ s) ∈ (Initialize l g).lookups ∧
    (getStaticPointer l (solinker_base ++ s) = 0 →
      (solist_base ++ s) ∈ (Initialize l g).lookups) := by
  have hne : somain_base ++ s ≠ [] := by
    intro h
    have := congrArg List.length h
    simp [somain_base] at this
  unfold Initialize
  simp only [hctor, hdtor, or_self, if_false, hname, hne, llvm_sufix_of_name s hlen]
  by_cases hp : getStaticPointer l (solinker_base ++ s) = 0
  · simp only [hp, if_true]
    by_cases hq : getStaticPointer l (solist_base ++ s) = 0
    · simp [hq]
    · simp only [hq, if_false]
      split <;> simp
  · simp only [hp, if_false]
    split <;> simp

/-- The amended C19 on a linker image whose symbols carry the suffix
`.llvm.123` and which has the list head only under the legacy name. -/
theorem Initialize_symbol_names_witness :
    legacy_linker.getSymbAddress guard_ctor_name ≠ 0 ∧
    legacy_linker.getSymbAddress guard_dtor_name ≠ 0 ∧
    legacy_linker.findSymbolNameByPrefix somain_base = somain_base ++ ".llvm.123".toList ∧
    getStaticPointer legacy_linker (solinker_base ++ ".llvm.123".toList) = 0 ∧
    guard_ctor_name ∈ (Initialize legacy_linker Globals.initial).lookups ∧
    guard_dtor_name ∈ (Initialize legacy_linker Globals.initial).lookups ∧
    (solinker_base ++ ".llvm.123".toList) ∈ (Initialize legacy_linker Globals.initial).lookups ∧
    (solist_base ++ ".llvm.123".toList) ∈ (Initialize legacy_linker Globals.initial).lookups := by
  have h := Initialize_symbol_names legacy_linker Globals.initial ".llvm.123".toList
    (by decide) (by decide) (by decide) (by decide)
  exact ⟨by decide, by decide, by decide, by decide, h.1, h.2.1, h.2.2.1, h.2.2.2 (by decide)⟩

/-- C19 as stated fails: with the suffix `.llvm.123` on the resolved `somain`
symbol name, the unload counter and the two `ProtectedDataGuard` symbols are
looked up under their plain names, never under a name ending in the
suffix. -/
theorem Initialize_suffix_not_uniform :
    uncalibrated_linker.findSymbolNameByPrefix somain_base
      = somain_base ++ ".llvm.123".toList ∧
    (Initialize uncalibrated_linker Globals.initial).lookups
      = [guard_ctor_name, guard_dtor_name, solinker_base ++ ".llvm.123".toList,
         get_realpath_name, unload_counter_name, somain_base ++ ".llvm.123".toList] ∧
    (unload_counter_name ++ ".llvm.123".toList)
      ∉ (Initialize uncalibrated_linker Globals.initial).lookups ∧
    (guard_ctor_name ++ ".llvm.123".toList)
      ∉ (Initialize uncalibrated_linker Globals.initial).lookups ∧
    (guard_dtor_name ++ ".llvm.123".toList)
      ∉ (Initialize uncalibrated_linker Globals.initial).lookups := by
  decide

end SoList

namespace Fstatfs

/-! ### The descriptor cross-checker -/

/-- The events of one directory entry: they all belong to that entry, there
are some only if its link resolves under `/system/`, and the overlay report
is among them exactly under the conditions of `Flagged`. -/
theorem check_entry_events (h : Host) (e : List Char) (events : List Event)
    (hc : check_entry h e = some events) :
    (∀ ev, ev ∈ events → ev.fd_str = e ∧ ResolvesToSystem h e) ∧
    (∀ fd_str fd, (⟨Action.overlayfs_detected, fd_str, fd⟩ : Event) ∈ events ↔
      (fd_str = e ∧ Flagged h fd_str fd)) := by
  unfold check_entry at hc
  by_cases hdot : e = ".".toList ∨ e = "..".toList
  · rw [if_pos hdot] at hc
    injection hc with hc
    subst hc
    refine ⟨fun ev hev => absurd hev (List.not_mem_nil _), fun fd_str fd => ?_⟩
    constructor
    · intro hev; exact absurd hev (List.not_mem_nil _)
    · rintro ⟨rfl, h1, h2, _⟩
      rcases hdot with hd | hd
      · exact absurd hd h1
      · exact absurd hd h2
  · rw [if_neg hdot] at hc
    have hd1 : e ≠ ".".toList := fun hd => hdot (Or.inl hd)
    have hd2 : e ≠ "..".toList := fun hd => hdot (Or.inr hd)
    cases hs : stoi e with
    | invalid_argument =>
      rw [hs] at hc
      injection hc with hc
      subst hc
      refine ⟨fun ev hev => absurd hev (List.not_mem_nil _), fun fd_str fd => ?_⟩
      constructor
      · intro hev; exact absurd hev (List.not_mem_nil _)
      · rintro ⟨rfl, _, _, h3, _⟩
        rw [hs] at h3; cases h3
    | out_of_range => rw [hs] at hc; cases hc
    | value n =>
      rw [hs] at hc
      simp only at hc
      cases hr : h.readlink (symlink_path e) with
      | none =>
        rw [hr] at hc
        injection hc with hc
        subst hc
        refine ⟨fun ev hev => absurd hev (List.not_mem_nil _), fun fd_str fd => ?_⟩
        constructor
        · intro hev; exact absurd hev (List.not_mem_nil _)
        · rintro ⟨rfl, _, _, _, target, ht, _⟩
          rw [hr] at ht; cases ht
      | some target =>
        rw [hr] at hc
        simp only at hc
        by_cases hsys : VirtualMap.starts_with (real_path_of target) system_prefix = true
        · rw [if_pos hsys] at hc
          have hres : ResolvesToSystem h e := ⟨target, hr, hsys⟩
          have hflag : ∀ fd_str fd, (fd_str = e ∧ Flagged h fd_str fd) ↔
              (fd_str = e ∧ fd = n ∧ h.fstat n = true ∧ h.stat (real_path_of target) = true ∧
                h.fstatfs n = some OVERLAYFS_SUPER_MAGIC) := by
            intro fd_str fd
            constructor
            · rintro ⟨rfl, _, _, h3, t, ht, _, h5, h6, h7⟩
              rw [hs] at h3
              injection h3 with h3
              rw [hr] at ht
              injection ht with ht
              subst ht h3
              exact ⟨rfl, rfl, h5, h6, h7⟩
            · rintro ⟨rfl, rfl, h5, h6, h7⟩
              exact ⟨rfl, hd1, hd2, hs, target, hr, hsys, h5, h6, h7⟩
          by_cases hf : h.fstat n = false
          · rw [if_pos hf] at hc
            injection hc with hc
            subst hc
            refine ⟨fun ev hev => ?_, fun fd_str fd => ?_⟩
            · simp only [List.mem_singleton] at hev
              subst hev
              exact ⟨rfl, hres⟩
            · rw [hflag]
              simp [hf]
          · rw [if_neg hf] at hc
            have hf' : h.fstat n = true := by simpa using hf
            by_cases hst : h.stat (real_path_of target) = false
            · rw [if_pos hst] at hc
              injection hc with hc
              subst hc
              refine ⟨fun ev hev => ?_, fun fd_str fd => ?_⟩
              · simp only [List.mem_cons, List.mem_singleton, List.not_mem_nil, or_false] at hev
                rcases hev with rfl | rfl <;> exact ⟨rfl, hres⟩
              · rw [hflag]
                simp [hst]
            · rw [if_neg hst] at hc
              have hst' : h.stat (real_path_of target) = true := by simpa using hst
              cases hfs : h.fstatfs n with
              | none =>
                rw [hfs] at hc
                injection hc with hc
                subst hc
                refine ⟨fun ev hev => ?_, fun fd_str fd => ?_⟩
                · simp only [List.mem_cons, List.mem_singleton, List.not_mem_nil,
                    or_false] at hev
                  rcases hev with rfl | rfl | rfl <;> exact ⟨rfl, hres⟩
                · rw [hflag]
                  simp [hfs]
              | some f_type =>
                rw [hfs] at hc
                injection hc with hc
                subst hc
                refine ⟨fun ev hev => ?_, fun fd_str fd => ?_⟩
                · simp only [List.mem_cons, List.mem_singleton, List.not_mem_nil,
                    or_false] at hev
                  rcases hev with rfl | rfl | rfl | rfl <;> exact ⟨rfl, hres⟩
                · rw [hflag]
                  by_cases ht : f_type = OVERLAYFS_SUPER_MAGIC
                  · simp [ht, hf', hst', hfs]
                  · simp [ht, hf', hst', hfs]
        · rw [if_neg hsys] at hc
          injection hc with hc
          subst hc
          refine ⟨fun ev hev => absurd hev (List.not_mem_nil _), fun fd_str fd => ?_⟩
          constructor
          · intro hev; exact absurd hev (List.not_mem_nil _)
          · rintro ⟨rfl, _, _, _, t, ht, hts, _⟩
            rw [hr] at ht
            injection ht with ht
            subst ht
            exact absurd hts hsys

/-- The events of the loop, when it is not ended by an exception: each comes
from an entry whose link resolves under `/system/`, and the overlay report for
an entry is among them exactly under the conditions of `Flagged`. -/
theorem check_loop_events (h : Host) (names : List (List Char))
    (hok : ∀ e, e ∈ names → stoi e ≠ StoiResult.out_of_range) :
    (check_loop h names).aborted = false ∧
    (∀ ev, ev ∈ (check_loop h names).events → ev.fd_str ∈ names ∧ ResolvesToSystem h ev.fd_str) ∧
    (∀ fd_str fd, (⟨Action.overlayfs_detected, fd_str, fd⟩ : Event) ∈ (check_loop h names).events ↔
      (fd_str ∈ names ∧ Flagged h fd_str fd)) := by
  induction names with
  | nil =>
    refine ⟨rfl, fun ev hev => absurd hev (List.not_mem_nil _), fun fd_str fd => ?_⟩
    constructor
    · intro hev; exact absurd hev (List.not_mem_nil _)
    · rintro ⟨hin, _⟩; exact absurd hin (List.not_mem_nil _)
  | cons e rest ih =>
    obtain ⟨ih1, ih2, ih3⟩ := ih (fun x hx => hok x (List.mem_cons_of_mem _ hx))
    have hne : check_entry h e ≠ none := by
      intro hn
      unfold check_entry at hn
      split at hn
      · cases hn
      · have := hok e (List.mem_cons_self _ _)
        cases hs : stoi e with
        | out_of_range => exact this hs
        | invalid_argument => rw [hs] at hn; cases hn
        | value n =>
          rw [hs] at hn
          simp only at hn
          repeat' split at hn
          all_goals cases hn
    obtain ⟨events, hev⟩ := Option.ne_none_iff_exists'.mp hne
    obtain ⟨he1, he2⟩ := check_entry_events h e events hev
    rw [check_loop, hev]
    refine ⟨ih1, ?_, ?_⟩
    · intro ev hmem
      simp only [List.mem_append] at hmem
      rcases hmem with hmem | hmem
      · obtain ⟨h1, h2⟩ := he1 ev hmem
        rw [h1]
        exact ⟨List.mem_cons_self _ _, h2⟩
      · obtain ⟨h1, h2⟩ := ih2 ev hmem
        exact ⟨List.mem_cons_of_mem _ h1, h2⟩
    · intro fd_str fd
      simp only [List.mem_append, he2 fd_str fd, ih3 fd_str fd, List.mem_cons]
      constructor
      · rintro (⟨h1, h2⟩ | ⟨h1, h2⟩)
        · exact ⟨Or.inl h1, h2⟩
        · exact ⟨Or.inr h1, h2⟩
      · rintro ⟨h1 | h1, h2⟩
        · exact Or.inl ⟨h1, h2⟩
        · exact Or.inr ⟨h1, h2⟩

/-- What the code of `check_system_fds` does when no entry name is a number
outside the range of `int`: it reports an overlay filesystem for a descriptor
exactly when its entry is listed, its link resolves to a path beginning with
`/system/`, `fstat` on the descriptor and `stat` on the resolved path both
succeed, and `fstatfs` on the descriptor reports the type `0x794c7630`; and
every metadata query and every report it makes is for a descriptor whose link
resolves to a path beginning with `/system/`. -/
theorem check_system_fds_flags (h : Host) (names : List (List Char))
    (hentries : h.entries = some names)
    (hok : ∀ e, e ∈ names → stoi e ≠ StoiResult.out_of_range) :
    (check_system_fds h).aborted = false ∧
    (∀ fd_str fd,
      (⟨Action.overlayfs_detected, fd_str, fd⟩ : Event) ∈ (check_system_fds h).events ↔
        (fd_str ∈ names ∧ Flagged h fd_str fd)) ∧
    (∀ ev, ev ∈ (check_system_fds h).events → ResolvesToSystem h ev.fd_str) ∧
    (∀ fd_str, ¬ ResolvesToSystem h fd_str →
      ∀ ev, ev ∈ (check_system_fds h).events → ev.fd_str ≠ fd_str) := by
  obtain ⟨h1, h2, h3⟩ := check_loop_events h names hok
  unfold check_system_fds
  rw [hentries]
  refine ⟨h1, h3, fun ev hev => (h2 ev hev).2, ?_⟩
  intro fd_str hnot ev hev heq
  exact hnot (heq ▸ (h2 ev hev).2)

/-- The behaviour of the code on `example_host`, whose entries are `.`, `..`,
`3`, `4`, `5` and `6`, none of them a number outside the range of `int`. -/
theorem check_system_fds_flags_witness :
    example_host.entries = some example_names ∧
    (∀ e, e ∈ example_names → stoi e ≠ StoiResult.out_of_range) ∧
    ((check_system_fds example_host).aborted = false ∧
     (∀ fd_str fd,
       (⟨Action.overlayfs_detected, fd_str, fd⟩ : Event) ∈ (check_system_fds example_host).events ↔
         (fd_str ∈ example_names ∧ Flagged example_host fd_str fd)) ∧
     (∀ ev, ev ∈ (check_system_fds example_host).events →
       ResolvesToSystem example_host ev.fd_str) ∧
     (∀ fd_str, ¬ ResolvesToSystem example_host fd_str →
       ∀ ev, ev ∈ (check_system_fds example_host).events → ev.fd_str ≠ fd_str)) :=
  ⟨rfl, by decide, check_system_fds_flags example_host example_names rfl (by decide)⟩

/-- C14, the code at the failing input: in `hidden_path_host` the link of
descriptor `5` resolves to `/system/lib64/libc.so` and `fstatfs` on the
descriptor reports `0x794c7630`, but `stat` on the path fails, so the function
stops after `fstat` and `stat`: it never calls `fstatfs` on the descriptor and
reports no overlay filesystem. -/
theorem stat_failure_hides_overlay :
    hidden_path_host.readlink (symlink_path five) = some hidden_target ∧
    VirtualMap.starts_with (real_path_of hidden_target) system_prefix = true ∧
    hidden_path_host.fstatfs 5 = some OVERLAYFS_SUPER_MAGIC ∧
    check_system_fds hidden_path_host =
      ⟨[⟨Action.fstat, five, 5⟩, ⟨Action.stat, five, 5⟩], false⟩ ∧
    (∀ ev, ev ∈ (check_system_fds hidden_path_host).events →
      ev.action ≠ Action.fstatfs ∧ ev.action ≠ Action.overlayfs_detected) := by
  decide

end Fstatfs

namespace Atexit

/-! ### The capacity after `k` growths -/

/-- The entries that fit in `m ≥ 1` whole pages need exactly those `m` pages. -/
theorem page_end_of_index_pages (pf : Platform) (hE : 0 < pf.entry_size)
    (hEP : pf.entry_size ≤ pf.page_size) (m : Nat) (hm : 1 ≤ m) :
    page_end_of_index pf (pf.page_size * m / pf.entry_size) = pf.page_size * m := by
  have hP : 0 < pf.page_size := by omega
  have h1 := Nat.div_add_mod (pf.page_size * m) pf.entry_size
  have h2 := Nat.mod_lt (pf.page_size * m) hE
  have h3 : pf.page_size * m / pf.entry_size * pf.entry_size
      = pf.entry_size * (pf.page_size * m / pf.entry_size) := Nat.mul_comm _ _
  have h4 : pf.page_size ≤ pf.page_size * m := Nat.le_mul_of_pos_right _ hm
  unfold page_end_of_index page_end page_start
  have : (pf.page_size * m / pf.entry_size * pf.entry_size + (pf.page_size - 1)) / pf.page_size
      = m := by
    apply Nat.div_eq_of_lt_le
    · rw [Nat.mul_comm m]; omega
    · have : (m + 1) * pf.page_size = pf.page_size * m + pf.page_size := by ring
      omega
  rw [this, Nat.mul_comm]

/-- When `next_capacity` succeeds and the mapping call succeeds,
`expand_capacity` returns `true` and installs the new capacity. -/
theorem expand_capacity_mapped (pf : Platform) (p : Nat) (s : AtexitArray) (c : Nat)
    (h : next_capacity pf s.capacity_ = some c) :
    (expand_capacity pf (some p) s).1 = true ∧
    (expand_capacity pf (some p) s).2.capacity_ = c := by
  unfold expand_capacity
  rw [h]
  by_cases ha : s.array_ = 0 <;> simp [ha]

/-- One more growth of a table that takes `B ≥ page_size` bytes, a multiple of
the page size, gives the entries that fit in `2 * B` bytes. -/
theorem next_capacity_pages (pf : Platform) (hE : 0 < pf.entry_size)
    (hEP : pf.entry_size ≤ pf.page_size) (m : Nat) (hm : 1 ≤ m)
    (hov : pf.page_size * (2 * m) ≤ pf.size_max) :
    next_capacity pf (pf.page_size * m / pf.entry_size)
      = some (pf.page_size * (2 * m) / pf.entry_size) := by
  have h4 : pf.page_size ≤ pf.page_size * m := Nat.le_mul_of_pos_right _ hm
  have hn : 0 < pf.page_size * m / pf.entry_size := Nat.div_pos (by omega) hE
  have he : pf.page_size * m * 2 = pf.page_size * (2 * m) := by ring
  have hdm := Nat.div_mul_le_self (pf.page_size * m) pf.entry_size
  have hfit : pf.page_size * m / pf.entry_size * pf.entry_size + (pf.page_size - 1)
      ≤ pf.size_max := by
    have : pf.page_size * (2 * m) = pf.page_size * m + pf.page_size * m := by ring
    omega
  unfold next_capacity
  rw [if_neg (by omega), page_end_of_index_size_t_eq pf _ hfit,
    page_end_of_index_pages pf hE hEP m hm, he, if_neg (by omega)]

/-- After `k ≥ 1` growths from the empty table the capacity is
`page_size * 2 ^ (k - 1) / entry_size` and takes `page_size * 2 ^ (k - 1)` bytes. -/
theorem grow_spec (pf : Platform) (pages : Nat → Nat) (hE : 0 < pf.entry_size)
    (hEP : pf.entry_size ≤ pf.page_size) (k : Nat) (hk : 1 ≤ k)
    (hov : pf.page_size * 2 ^ (k - 1) ≤ pf.size_max) :
    ∃ s, grow pf pages k = some s ∧
      s.capacity_ = pf.page_size * 2 ^ (k - 1) / pf.entry_size ∧
      page_end_of_index pf s.capacity_ = pf.page_size * 2 ^ (k - 1) := by
  induction k with
  | zero => omega
  | succ k ih =>
    by_cases hk0 : k = 0
    · subst hk0
      have hn := next_capacity_zero pf hE hEP
      obtain ⟨hx1, hx2⟩ := expand_capacity_mapped pf (pages 0) AtexitArray.empty _ hn
      refine ⟨(expand_capacity pf (some (pages 0)) AtexitArray.empty).2, ?_, ?_, ?_⟩
      · simp only [grow]
        rw [if_pos hx1]
      · rw [hx2]; simp
      · rw [hx2]
        have := page_end_of_index_pages pf hE hEP 1 (le_refl 1)
        simpa using this
    · have hk1 : 1 ≤ k := by omega
      have hpow : (2 : Nat) ^ (k + 1 - 1) = 2 * 2 ^ (k - 1) := by
        have : k + 1 - 1 = (k - 1) + 1 := by omega
        rw [this, pow_succ, Nat.mul_comm]
      rw [hpow] at hov ⊢
      have hpos : 1 ≤ 2 ^ (k - 1) := Nat.one_le_two_pow
      have hle : pf.page_size * 2 ^ (k - 1) ≤ pf.page_size * (2 * 2 ^ (k - 1)) :=
        Nat.mul_le_mul_left _ (by omega)
      obtain ⟨s, hs, hc, _⟩ := ih hk1 (by omega)
      have hn := next_capacity_pages pf hE hEP (2 ^ (k - 1)) hpos hov
      rw [← hc] at hn
      obtain ⟨hx1, hx2⟩ := expand_capacity_mapped pf (pages k) s _ hn
      refine ⟨(expand_capacity pf (some (pages k)) s).2, ?_, hx2, ?_⟩
      · simp only [grow, hs]
        rw [if_pos hx1]
      · rw [hx2]
        exact page_end_of_index_pages pf hE hEP _ (by omega)

/-- C15. With `0 < entry_size ≤ page_size`, every mapping call succeeding and
`page_size * 2 ^ (k - 1)` within `size_t`, `k ≥ 1` growths from the empty
table succeed and leave the capacity `page_size * 2 ^ (k - 1) / entry_size`:
the first growth gives the `page_size / entry_size` entries of one page, and
every later growth, from capacity `c` to `c'`, doubles the page-aligned byte
capacity, `page_end_of_index c' = 2 * page_end_of_index c`, with `c'` the
largest entry count that fits in that many bytes. -/
theorem growth_capacity (pf : Platform) (pages : Nat → Nat) (k : Nat)
    (hE : 0 < pf.entry_size) (hEP : pf.entry_size ≤ pf.page_size) (hk : 1 ≤ k)
    (hov : pf.page_size * 2 ^ (k - 1) ≤ pf.size_max) :
    (∃ s, grow pf pages k = some s ∧
      s.capacity_ = pf.page_size * 2 ^ (k - 1) / pf.entry_size) ∧
    (∃ s, grow pf pages 1 = some s ∧ s.capacity_ = pf.page_size / pf.entry_size) ∧
    (∀ j, 1 ≤ j → j < k →
      ∃ s s', grow pf pages j = some s ∧ grow pf pages (j + 1) = some s' ∧
        page_end_of_index pf s'.capacity_ = 2 * page_end_of_index pf s.capacity_ ∧
        s'.capacity_ * pf.entry_size ≤ 2 * page_end_of_index pf s.capacity_ ∧
        (∀ n, n * pf.entry_size ≤ 2 * page_end_of_index pf s.capacity_ →
          n ≤ s'.capacity_)) := by
  have hmono : ∀ j, j ≤ k → pf.page_size * 2 ^ (j - 1) ≤ pf.size_max := by
    intro j hj
    have : (2 : Nat) ^ (j - 1) ≤ 2 ^ (k - 1) := Nat.pow_le_pow_right (by omega) (by omega)
    exact le_trans (Nat.mul_le_mul_left _ this) hov
  refine ⟨?_, ?_, ?_⟩
  · obtain ⟨s, h1, h2, _⟩ := grow_spec pf pages hE hEP k hk hov
    exact ⟨s, h1, h2⟩
  · obtain ⟨s, h1, h2, _⟩ := grow_spec pf pages hE hEP 1 (le_refl 1) (hmono 1 hk)
    exact ⟨s, h1, by simpa using h2⟩
  · intro j hj1 hjk
    obtain ⟨s, h1, _, h3⟩ := grow_spec pf pages hE hEP j hj1 (hmono j (by omega))
    obtain ⟨s', h1', h2', h3'⟩ :=
      grow_spec pf pages hE hEP (j + 1) (by omega) (hmono (j + 1) (by omega))
    have hpow : (2 : Nat) ^ (j + 1 - 1) = 2 * 2 ^ (j - 1) := by
      have : j + 1 - 1 = (j - 1) + 1 := by omega
      rw [this, pow_succ, Nat.mul_comm]
    have hB : pf.page_size * 2 ^ (j + 1 - 1) = 2 * (pf.page_size * 2 ^ (j - 1)) := by
      rw [hpow]; ring
    refine ⟨s, s', h1, h1', ?_, ?_, ?_⟩
    · rw [h3', h3, hB]
    · rw [h2', h3, hB]
      exact Nat.div_mul_le_self _ _
    · intro n hn
      rw [h2', hB, ← h3]
      exact (Nat.le_div_iff_mul_le hE).mpr hn

/-- The statement of C15 with 4 KiB pages, 24-byte entries and three growths:
the capacities are 170, 341 and 682. -/
theorem growth_capacity_witness :
    0 < example_platform.entry_size ∧
    example_platform.entry_size ≤ example_platform.page_size ∧
    example_platform.page_size * 2 ^ (3 - 1) ≤ example_platform.size_max ∧
    (∃ s, grow example_platform (fun _ => 4096) 3 = some s ∧
      s.capacity_ = example_platform.page_size * 2 ^ (3 - 1) / example_platform.entry_size) ∧
    example_platform.page_size * 2 ^ (3 - 1) / example_platform.entry_size = 682 :=
  ⟨by decide, by decide, by decide,
   (growth_capacity example_platform (fun _ => 4096) 3 (by decide) (by decide) (by decide)
     (by decide)).1, by decide⟩

end Atexit

namespace Atexit

/-! ### Page protections -/

theorem set_writable_null (pf : Platform) (w : Bool) (i n : Nat) (prot : Nat → Bool) :
    set_writable pf 0 w i n prot = prot := by
  unfold set_writable
  rw [if_pos rfl]

theorem set_writable_apply (pf : Platform) (a : Nat) (ha : a ≠ 0) (w : Bool) (i n : Nat)
    (prot : Nat → Bool) (page : Nat) :
    set_writable pf a w i n prot page
      = if page_start_of_index pf i ≤ page * pf.page_size ∧
          page * pf.page_size < page_end_of_index pf (i + n) then w else prot page := by
  unfold set_writable
  rw [if_neg ha]

/-- A slot is writable when every page from the one its first byte lies in up
to its last byte is. -/
theorem slot_writable_of_range (pf : Platform) (hE : 0 < pf.entry_size) (prot : Nat → Bool)
    (idx : Nat)
    (h : ∀ page, page_start_of_index pf idx ≤ page * pf.page_size →
      page * pf.page_size < (idx + 1) * pf.entry_size → prot page = true) :
    slot_writable pf prot idx = true := by
  unfold slot_writable slot_pages
  rw [List.all_eq_true]
  intro p hp
  rw [List.mem_range'_1] at hp
  obtain ⟨hlo, hhi⟩ := hp
  apply h
  · unfold page_start_of_index page_start
    exact Nat.mul_le_mul_right _ hlo
  · have hle : p ≤ ((idx + 1) * pf.entry_size - 1) / pf.page_size := by omega
    have h1 : p * pf.page_size ≤ ((idx + 1) * pf.entry_size - 1) / pf.page_size * pf.page_size :=
      Nat.mul_le_mul_right _ hle
    have h2 := Nat.div_mul_le_self ((idx + 1) * pf.entry_size - 1) pf.page_size
    have h3 : 0 < (idx + 1) * pf.entry_size := Nat.mul_pos (by omega) hE
    omega

/-- The pattern `set_writable(true, idx, 1); array_[idx] = ...;
set_writable(false, idx, 1)`: the store finds its slot writable, and pages
that were read-only are read-only afterwards. -/
theorem toggle_slot (pf : Platform) (hP : 0 < pf.page_size) (hE : 0 < pf.entry_size)
    (a : Nat) (ha : a ≠ 0) (prot : Nat → Bool) (idx : Nat) :
    slot_writable pf (set_writable pf a true idx 1 prot) idx = true ∧
    ∀ page, prot page = false →
      set_writable pf a false idx 1 (set_writable pf a true idx 1 prot) page = false := by
  constructor
  · apply slot_writable_of_range pf hE
    intro page h1 h2
    rw [set_writable_apply pf a ha]
    have h3 : (idx + 1) * pf.entry_size ≤ page_end_of_index pf (idx + 1) := page_end_ge pf hP _
    rw [if_pos ⟨h1, by omega⟩]
  · intro page hp
    rw [set_writable_apply pf a ha, set_writable_apply pf a ha]
    by_cases hc : page_start_of_index pf idx ≤ page * pf.page_size ∧
        page * pf.page_size < page_end_of_index pf (idx + 1)
    · rw [if_pos hc]
    · rw [if_neg hc, if_neg hc, hp]

/-- The pattern `set_writable(true, 0, n); ...; set_writable(false, 0, n)`:
in between every slot below `n` is writable, and pages that were read-only are
read-only afterwards. -/
theorem toggle_prefix (pf : Platform) (hP : 0 < pf.page_size) (hE : 0 < pf.entry_size)
    (a : Nat) (ha : a ≠ 0) (prot : Nat → Bool) (n : Nat) :
    (∀ idx, idx < n → slot_writable pf (set_writable pf a true 0 n prot) idx = true) ∧
    ∀ page, prot page = false →
      set_writable pf a false 0 n (set_writable pf a true 0 n prot) page = false := by
  have h0 : page_start_of_index pf 0 = 0 := by
    unfold page_start_of_index page_start
    simp
  constructor
  · intro idx hidx
    apply slot_writable_of_range pf hE
    intro page _ h2
    rw [set_writable_apply pf a ha, h0, Nat.zero_add]
    have h3 : n * pf.entry_size ≤ page_end_of_index pf n := page_end_ge pf hP _
    have h4 : (idx + 1) * pf.entry_size ≤ n * pf.entry_size := Nat.mul_le_mul_right _ hidx
    rw [if_pos ⟨Nat.zero_le _, by omega⟩]
  · intro page hp
    rw [set_writable_apply pf a ha, set_writable_apply pf a ha]
    by_cases hc : page_start_of_index pf 0 ≤ page * pf.page_size ∧
        page * pf.page_size < page_end_of_index pf (0 + n)
    · rw [if_pos hc]
    · rw [if_neg hc, if_neg hc, hp]

/-- After `set_writable(false, 0, n)` on a non-null array every page in
`[0, page_end_of_index n)` is read-only. -/
theorem set_writable_false_prefix (pf : Platform) (a : Nat) (ha : a ≠ 0) (prot : Nat → Bool)
    (n page : Nat) (h : page * pf.page_size < page_end_of_index pf n) :
    set_writable pf a false 0 n prot page = false := by
  have h0 : page_start_of_index pf 0 = 0 := by
    unfold page_start_of_index page_start
    simp
  rw [set_writable_apply pf a ha, h0, Nat.zero_add, if_pos ⟨Nat.zero_le _, h⟩]

/-- The second loop of `recompact` stores only to slots below `size_`. -/
theorem shift_live_writes_lt (size : Nat) :
    ∀ (fuel src dst : Nat) (slots : Nat → AtexitEntry), dst ≤ src →
      ∀ i, i ∈ shift_live_writes size fuel src dst slots → i < size := by
  intro fuel
  induction fuel with
  | zero =>
    intro src dst slots _ i hi
    simp [shift_live_writes] at hi
  | succ fuel ih =>
    intro src dst slots hds i hi
    rw [shift_live_writes] at hi
    by_cases hs : src < size
    · rw [if_pos hs] at hi
      by_cases hl : (slots src).fn ≠ 0
      · simp only [if_pos hl, List.mem_cons] at hi
        rcases hi with rfl | rfl | hi
        · exact hs
        · omega
        · exact ih _ _ _ (by omega) i hi
      · simp only [if_neg hl, List.mem_cons] at hi
        rcases hi with rfl | hi
        · exact hs
        · exact ih _ _ _ (by omega) i hi
    · rw [if_neg hs] at hi
      simp at hi

end Atexit

namespace Atexit

/-- The table that the guarded operations leave is the table of the plain
operations, with the same results. -/
theorem guarded_tables_agree (pf : Platform) (os : Option Nat) (added : Nat → Bool)
    (entry : AtexitEntry) (i : Nat) (g : GuardedArray) :
    ((Guarded.expand_capacity pf os added g).1 = (expand_capacity pf os g.table).1 ∧
     (Guarded.expand_capacity pf os added g).2.table = (expand_capacity pf os g.table).2) ∧
    ((Guarded.append_entry pf os added entry g).1 = (append_entry pf os entry g.table).1 ∧
     (Guarded.append_entry pf os added entry g).2.table = (append_entry pf os entry g.table).2) ∧
    ((Guarded.extract_entry pf i g).1 = (extract_entry i g.table).1 ∧
     (Guarded.extract_entry pf i g).2.table = (extract_entry i g.table).2) ∧
    (Guarded.recompact pf g).table = recompact pf g.table := by
  have hx : (Guarded.expand_capacity pf os added g).1 = (expand_capacity pf os g.table).1 ∧
      (Guarded.expand_capacity pf os added g).2.table = (expand_capacity pf os g.table).2 := by
    unfold Guarded.expand_capacity expand_capacity
    cases next_capacity pf g.table.capacity_ with
    | none => exact ⟨rfl, rfl⟩
    | some c =>
      cases os with
      | none => exact ⟨rfl, rfl⟩
      | some p =>
        by_cases ha : g.table.array_ = 0 <;> simp [ha]
  refine ⟨hx, ?_, ⟨rfl, rfl⟩, rfl⟩
  unfold Guarded.append_entry append_entry
  by_cases hc : g.table.capacity_ ≤ g.table.size_
  · simp only [if_pos hc]
    rw [hx.1]
    by_cases hr : (expand_capacity pf os g.table).1 = false
    · simp only [if_pos hr]
      exact ⟨trivial, hx.2⟩
    · simp only [if_neg hr]
      rw [hx.2]
      exact ⟨trivial, rfl⟩
  · simp only [if_neg hc]
    exact ⟨rfl, rfl⟩

/-- `expand_capacity` leaves the pages of the table read-only, whether it
succeeds or fails, and stores to no slot. -/
theorem guarded_expand_capacity_spec (pf : Platform) (os : Option Nat) (added : Nat → Bool)
    (g : GuardedArray) (hos : os ≠ some 0) (hro : ReadOnly pf g) :
    ReadOnly pf (Guarded.expand_capacity pf os added g).2 ∧
    (Guarded.expand_capacity pf os added g).2.writes = g.writes ∧
    ((Guarded.expand_capacity pf os added g).1 = true →
      (Guarded.expand_capacity pf os added g).2.table.array_ ≠ 0) := by
  unfold Guarded.expand_capacity
  cases next_capacity pf g.table.capacity_ with
  | none => exact ⟨hro, rfl, fun h => by cases h⟩
  | some c =>
    cases os with
    | none =>
      refine ⟨?_, rfl, fun h => by cases h⟩
      intro page hpage
      simp only at hpage ⊢
      by_cases ha : g.table.array_ = 0
      · rw [ha, set_writable_null, set_writable_null]
        exact hro page hpage
      · exact set_writable_false_prefix pf _ ha _ _ _ hpage
    | some p =>
      have hp : p ≠ 0 := fun h => hos (by rw [h])
      by_cases ha : g.table.array_ = 0
      · dsimp only
        rw [if_pos ha]
        refine ⟨?_, rfl, fun _ => hp⟩
        intro page hpage
        exact set_writable_false_prefix pf _ hp _ _ _ hpage
      · dsimp only
        rw [if_neg ha]
        refine ⟨?_, rfl, fun _ => hp⟩
        intro page hpage
        exact set_writable_false_prefix pf _ hp _ _ _ hpage

/-- `extract_entry` on a table with an array stores to its slot while the
slot is writable and leaves the pages of the table read-only. -/
theorem guarded_extract_entry_spec (pf : Platform) (hP : 0 < pf.page_size)
    (hE : 0 < pf.entry_size) (i : Nat) (g : GuardedArray) (ha : g.table.array_ ≠ 0)
    (hro : ReadOnly pf g) :
    ReadOnly pf (Guarded.extract_entry pf i g).2 ∧
    (Guarded.extract_entry pf i g).2.writes = g.writes ++ [⟨i, true⟩] := by
  obtain ⟨h1, h2⟩ := toggle_slot pf hP hE g.table.array_ ha g.prot i
  unfold Guarded.extract_entry
  constructor
  · intro page hpage
    exact h2 page (hro page hpage)
  · simp only [h1]

/-- The part of `append_entry` after the growth, on a table with an array. -/
theorem guarded_append_entry_spec (pf : Platform) (hP : 0 < pf.page_size)
    (hE : 0 < pf.entry_size) (os : Option Nat) (added : Nat → Bool) (entry : AtexitEntry)
    (g : GuardedArray) (hv : Valid g.table) (hos : os ≠ some 0) (hro : ReadOnly pf g) :
    ReadOnly pf (Guarded.append_entry pf os added entry g).2 ∧
    (Guarded.append_entry pf os added entry g).2.writes
      = g.writes ++ (if (Guarded.append_entry pf os added entry g).1 = true
                     then [⟨g.table.size_, true⟩] else []) := by
  obtain ⟨hx1, hx2, hx3⟩ := guarded_expand_capacity_spec pf os added g hos hro
  have hsz := (guarded_tables_agree pf os added entry 0 g).1
  unfold Guarded.append_entry
  by_cases hc : g.table.capacity_ ≤ g.table.size_
  · simp only [if_pos hc]
    by_cases hr : (Guarded.expand_capacity pf os added g).1 = false
    · simp only [if_pos hr]
      exact ⟨hx1, by simp [hx2]⟩
    · simp only [if_neg hr]
      have hr' : (Guarded.expand_capacity pf os added g).1 = true := by
        cases h : (Guarded.expand_capacity pf os added g).1
        · exact absurd h hr
        · rfl
      have ha := hx3 hr'
      have hs : (Guarded.expand_capacity pf os added g).2.table.size_ = g.table.size_ := by
        rw [hsz.2]
        exact (expand_capacity_success pf os g.table (by rw [← hsz.1]; exact hr')).1
      obtain ⟨h1, h2⟩ := toggle_slot pf hP hE _ ha (Guarded.expand_capacity pf os added g).2.prot
        (Guarded.expand_capacity pf os added g).2.table.size_
      constructor
      · intro page hpage
        exact h2 page (hx1 page hpage)
      · rw [hs] at h1
        simp only [hx2, hs, h1, if_true]
  · simp only [if_neg hc]
    have ha : g.table.array_ ≠ 0 := hv.2 (by omega)
    obtain ⟨h1, h2⟩ := toggle_slot pf hP hE _ ha g.prot g.table.size_
    constructor
    · intro page hpage
      exact h2 page (hro page hpage)
    · simp [h1]

/-- `recompact` stores only to slots below `size_`, each while it is
writable, and leaves the pages of the table read-only. -/
theorem guarded_recompact_spec (pf : Platform) (hP : 0 < pf.page_size)
    (hE : 0 < pf.entry_size) (g : GuardedArray) (hv : Valid g.table) (hro : ReadOnly pf g) :
    ReadOnly pf (Guarded.recompact pf g) ∧
    ∃ stores : List Nat,
      (Guarded.recompact pf g).writes = g.writes ++ stores.map (fun i => ⟨i, true⟩) ∧
      ∀ i, i ∈ stores → i < g.table.size_ := by
  have hlt := shift_live_writes_lt g.table.size_
    (g.table.size_ - skip_live g.table.slots g.table.size_ g.table.size_ 0)
    (skip_live g.table.slots g.table.size_ g.table.size_ 0)
    (skip_live g.table.slots g.table.size_ g.table.size_ 0) g.table.slots (le_refl _)
  by_cases ha : g.table.array_ = 0
  · have hsize : g.table.size_ = 0 := by
      by_contra hne
      exact hv.2 (by have := hv.1; omega) ha
    constructor
    · intro page hpage
      show set_writable pf g.table.array_ false 0 g.table.size_
        (set_writable pf g.table.array_ true 0 g.table.size_ g.prot) page = false
      rw [ha, set_writable_null, set_writable_null]
      exact hro page hpage
    · refine ⟨[], ?_, fun i hi => absurd hi (List.not_mem_nil _)⟩
      unfold Guarded.recompact
      simp only [hsize]
      simp [shift_live_writes, skip_live]
  · obtain ⟨h1, h2⟩ := toggle_prefix pf hP hE _ ha g.prot g.table.size_
    constructor
    · intro page hpage
      exact h2 page (hro page hpage)
    · refine ⟨_, ?_, hlt⟩
      unfold Guarded.recompact
      simp only
      congr 1
      apply List.map_congr_left
      intro i hi
      rw [h1 i (hlt i hi)]


/-- The condition `Valid` is kept, together with a capacity whose bytes are
computed without wrapping, by every call whose mapping call, if it makes one,
returns a non-null address when it succeeds; the empty table satisfies
both. -/
theorem valid_step (pf : Platform) (hP : 0 < pf.page_size) (hE : 0 < pf.entry_size)
    (hdiv : pf.page_size ∣ pf.size_max + 1) (hfirst : page_end pf pf.entry_size ≤ pf.size_max)
    (op : Op) (s : AtexitArray) (hop : ∀ e, op ≠ Op.append (some 0) e) (hv : Valid s)
    (hfit : Fits pf s.capacity_) :
    (Valid AtexitArray.empty ∧ Fits pf AtexitArray.empty.capacity_) ∧
    Valid (step pf op s) ∧ Fits pf (step pf op s).capacity_ := by
  refine ⟨⟨⟨le_refl _, fun h => absurd rfl h⟩, Or.inl rfl⟩,
    ⟨step_keeps_size_le pf hP hE op s hv.1 hfit, ?_⟩,
    step_keeps_fits pf hP hE hdiv hfirst op s hfit⟩
  cases op with
  | extract i => exact hv.2
  | recompact => exact hv.2
  | append os e =>
    simp only [step]
    unfold append_entry expand_capacity
    by_cases hc : s.capacity_ ≤ s.size_
    · simp only [if_pos hc]
      cases next_capacity pf s.capacity_ with
      | none => simpa using hv.2
      | some c =>
        cases os with
        | none => simpa using hv.2
        | some p =>
          have hp : p ≠ 0 := fun h => hop e (by rw [h])
          by_cases ha : s.array_ = 0 <;> simp [ha, hp]
    · simp only [if_neg hc]
      simpa using hv.2

/-- C16. With the protection of each page of the table as explicit state, on
a table with `size_ ≤ capacity_` whose array is non-null whenever its capacity
is non-zero, and with mapping calls that return a non-null address when they
succeed: if every page in `[0, page_end_of_index capacity_)` is read-only
before the call, then after `append_entry`, after `extract_entry i` with
`i < size_`, after `recompact` and after `expand_capacity`, successful or not,
every page in `[0, page_end_of_index capacity_)` of the resulting table is
read-only again, and every store to an array slot made by the call is made
while all pages of that slot are writable: `append_entry` stores once, to slot
`size_`, when it succeeds and not at all when it fails, `extract_entry` stores
once, to slot `i`, `recompact` stores only to slots below `size_`, and
`expand_capacity` stores to no slot. -/
theorem writes_only_while_writable (pf : Platform) (os : Option Nat) (added : Nat → Bool)
    (entry : AtexitEntry) (i : Nat) (g : GuardedArray)
    (hP : 0 < pf.page_size) (hE : 0 < pf.entry_size) (hv : Valid g.table)
    (hos : os ≠ some 0) (hro : ReadOnly pf g) :
    (ReadOnly pf (Guarded.append_entry pf os added entry g).2 ∧
     (Guarded.append_entry pf os added entry g).2.writes
       = g.writes ++ (if (Guarded.append_entry pf os added entry g).1 = true
                      then [⟨g.table.size_, true⟩] else [])) ∧
    (i < g.table.size_ →
      ReadOnly pf (Guarded.extract_entry pf i g).2 ∧
      (Guarded.extract_entry pf i g).2.writes = g.writes ++ [⟨i, true⟩]) ∧
    (ReadOnly pf (Guarded.recompact pf g) ∧
     ∃ stores : List Nat,
       (Guarded.recompact pf g).writes = g.writes ++ stores.map (fun j => ⟨j, true⟩) ∧
       ∀ j, j ∈ stores → j < g.table.size_) ∧
    (ReadOnly pf (Guarded.expand_capacity pf os added g).2 ∧
     (Guarded.expand_capacity pf os added g).2.writes = g.writes) := by
  refine ⟨guarded_append_entry_spec pf hP hE os added entry g hv hos hro, ?_,
    guarded_recompact_spec pf hP hE g hv hro, ?_⟩
  · intro hi
    have ha : g.table.array_ ≠ 0 := hv.2 (by have := hv.1; omega)
    exact guarded_extract_entry_spec pf hP hE i g ha hro
  · obtain ⟨h1, h2, _⟩ := guarded_expand_capacity_spec pf os added g hos hro
    exact ⟨h1, h2⟩

/-- The statement of C16 on the table `[A, empty, B, empty, C]` with 4 KiB
pages and 24-byte entries, every page read-only, for an append, the
extraction of slot 2, a recompaction and a growth. -/
theorem writes_only_while_writable_witness :
    0 < example_platform.page_size ∧ 0 < example_platform.entry_size ∧
    Valid Guarded.example_guarded.table ∧ ReadOnly example_platform Guarded.example_guarded ∧
    (ReadOnly example_platform
        (Guarded.append_entry example_platform (some 8192) (fun _ => true) entryB
          Guarded.example_guarded).2 ∧
     (Guarded.append_entry example_platform (some 8192) (fun _ => true) entryB
          Guarded.example_guarded).2.writes = [⟨5, true⟩]) ∧
    (ReadOnly example_platform
        (Guarded.extract_entry example_platform 2 Guarded.example_guarded).2 ∧
     (Guarded.extract_entry example_platform 2 Guarded.example_guarded).2.writes
        = [⟨2, true⟩]) ∧
    ReadOnly example_platform (Guarded.recompact example_platform Guarded.example_guarded) ∧
    ReadOnly example_platform
      (Guarded.expand_capacity example_platform (some 8192) (fun _ => true)
        Guarded.example_guarded).2 := by
  have hv : Valid Guarded.example_guarded.table := ⟨by decide, by decide⟩
  have hro : ReadOnly example_platform Guarded.example_guarded := fun _ _ => rfl
  have h := writes_only_while_writable example_platform (some 8192) (fun _ => true) entryB 2
    Guarded.example_guarded (by decide) (by decide) hv (by decide) hro
  refine ⟨by decide, by decide, hv, hro, ⟨h.1.1, ?_⟩, h.2.1 (by decide), h.2.2.1.1, h.2.2.2.1⟩
  rw [h.1.2]
  decide

end Atexit

namespace SoList

/-! ### Termination of the walk -/

/-- An iteration at a node with a name returns or goes on: it does not call
`strcmp` on a null name. -/
theorem walk_step_no_fault (view : SoInfoView) (iter : Nat) (st : WalkState)
    (h : view.name ≠ none) : walk_step view iter st ≠ StepResult.fault := by
  unfold walk_step
  cases hp : view.path with
  | none => simp
  | some path =>
    cases hn : view.name with
    | none => exact absurd hn h
    | some name =>
      simp only
      by_cases he : path = []
      · simp [he]
      · simp only [if_neg he]
        cases hg : gap_step iter st with
        | inl d => simp
        | inr r => simp

/-- On a chain that reaches `NULL` after `n` nodes the loop ends within `n`
iterations, with the same outcome for every larger number of allowed loop
tests; when all `n` nodes have a name the outcome is a returned pointer. -/
theorem walk_ends (nodes : Nat → SoInfoView) :
    ∀ (n iter : Nat) (st : WalkState), follow nodes n iter = 0 →
      ∃ o, (∀ fuel, n < fuel → walk nodes fuel iter st = some o) ∧
        ((∀ k, k < n → (nodes (follow nodes k iter)).name ≠ none) →
          ∃ p, o = WalkOutcome.returned p) := by
  intro n
  induction n with
  | zero =>
    intro iter st h
    simp only [follow] at h
    refine ⟨WalkOutcome.returned 0, ?_, fun _ => ⟨0, rfl⟩⟩
    intro fuel hf
    obtain ⟨f, rfl⟩ : ∃ f, fuel = f + 1 := ⟨fuel - 1, by omega⟩
    rw [walk, if_pos h]
  | succ n ih =>
    intro iter st h
    by_cases h0 : iter = 0
    · refine ⟨WalkOutcome.returned 0, ?_, fun _ => ⟨0, rfl⟩⟩
      intro fuel hf
      obtain ⟨f, rfl⟩ : ∃ f, fuel = f + 1 := ⟨fuel - 1, by omega⟩
      rw [walk, if_pos h0]
    · rw [follow, if_neg h0] at h
      cases hs : walk_step (nodes iter) iter st with
      | ret p =>
        refine ⟨WalkOutcome.returned p, ?_, fun _ => ⟨p, rfl⟩⟩
        intro fuel hf
        obtain ⟨f, rfl⟩ : ∃ f, fuel = f + 1 := ⟨fuel - 1, by omega⟩
        rw [walk, if_neg h0, hs]
      | fault =>
        refine ⟨WalkOutcome.fault, ?_, ?_⟩
        · intro fuel hf
          obtain ⟨f, rfl⟩ : ∃ f, fuel = f + 1 := ⟨fuel - 1, by omega⟩
          rw [walk, if_neg h0, hs]
        · intro hnames
          have := hnames 0 (by omega)
          simp only [follow] at this
          exact absurd hs (walk_step_no_fault _ _ _ this)
      | cont st' =>
        obtain ⟨o, ho1, ho2⟩ := ih (nodes iter).next st' h
        refine ⟨o, ?_, ?_⟩
        · intro fuel hf
          obtain ⟨f, rfl⟩ : ∃ f, fuel = f + 1 := ⟨fuel - 1, by omega⟩
          rw [walk, if_neg h0, hs]
          exact ho1 f (by omega)
        · intro hnames
          apply ho2
          intro k hk
          have := hnames (k + 1) (by omega)
          rw [follow, if_neg h0] at this
          exact this

/-- C21 (as amended). On a module chain whose next pointers reach `NULL`
after `n` nodes, the walk of `DetectInjection` ends after at most `n`
iterations, whatever larger number of iterations is allowed, and when all
`n` nodes have a name it returns a pointer.  The loop has no step bound of
its own. -/
theorem walk_terminates_on_ending_chain (nodes : Nat → SoInfoView) (solinker n : Nat)
    (hend : follow nodes n solinker = 0) :
    ∃ o, (∀ fuel, n < fuel → detect_walk nodes fuel solinker = some o) ∧
      ((∀ k, k < n → (nodes (follow nodes k solinker)).name ≠ none) →
        ∃ p, o = WalkOutcome.returned p) :=
  walk_ends nodes n solinker (initial_state solinker) hend

/-- The amended C21 on the five-node example chain with plain names: its
next pointers reach `NULL` after five nodes, all of which have a name, and
the walk ends within five iterations. -/
theorem walk_terminates_on_ending_chain_witness :
    follow (example_chain plain_names) 5 0x1000 = 0 ∧
    (∀ k, k < 5 →
      (example_chain plain_names (follow (example_chain plain_names) k 0x1000)).name ≠ none) ∧
    ∃ o, (∀ fuel, 5 < fuel → detect_walk (example_chain plain_names) fuel 0x1000 = some o) ∧
      ((∀ k, k < 5 →
          (example_chain plain_names (follow (example_chain plain_names) k 0x1000)).name
            ≠ none) →
        ∃ p, o = WalkOutcome.returned p) :=
  ⟨by decide, by decide,
   walk_terminates_on_ending_chain (example_chain plain_names) 0x1000 5 (by decide)⟩

/-- Inside the cycle of `two_node_cycle` the loop never ends: an iteration at
`0x1100` leads to one at `0x1000` and back, with the same locals each time. -/
theorem walk_two_node_cycle :
    ∀ fuel, walk two_node_cycle fuel 0x1100 cycle_state_b = none ∧
      walk two_node_cycle fuel 0x1000 cycle_state_a = none := by
  intro fuel
  induction fuel with
  | zero => exact ⟨rfl, rfl⟩
  | succ f ih =>
    have hb : walk_step (two_node_cycle 0x1100) 0x1100 cycle_state_b
        = StepResult.cont cycle_state_a := by decide
    have ha : walk_step (two_node_cycle 0x1000) 0x1000 cycle_state_a
        = StepResult.cont cycle_state_b := by decide
    have hnb : (two_node_cycle 0x1100).next = 0x1000 := by decide
    have hna : (two_node_cycle 0x1000).next = 0x1100 := by decide
    constructor
    · rw [walk, if_neg (by decide), hb]
      simp only [hnb]
      exact ih.2
    · rw [walk, if_neg (by decide), ha]
      simp only [hna]
      exact ih.1

/-- C21 as stated fails on `two_node_cycle`, whose two named nodes point to
each other: however many iterations are allowed, the walk has not returned. -/
theorem walk_never_returns_on_cycle :
    (two_node_cycle 0x1000).next = 0x1100 ∧ (two_node_cycle 0x1100).next = 0x1000 ∧
    ∀ fuel, detect_walk two_node_cycle fuel 0x1000 = none := by
  refine ⟨by decide, by decide, ?_⟩
  intro fuel
  have h1 : walk_step (two_node_cycle 0x1000) 0x1000 (initial_state 0x1000)
      = StepResult.cont ⟨0x1000, 0, 1, false, false, false⟩ := by decide
  have h2 : walk_step (two_node_cycle 0x1100) 0x1100 ⟨0x1000, 0, 1, false, false, false⟩
      = StepResult.cont ⟨0x1100, 0, 0, false, false, false⟩ := by decide
  have h3 : walk_step (two_node_cycle 0x1000) 0x1000 ⟨0x1100, 0, 0, false, false, false⟩
      = StepResult.cont cycle_state_b := by decide
  have hnb : (two_node_cycle 0x1100).next = 0x1000 := by decide
  have hna : (two_node_cycle 0x1000).next = 0x1100 := by decide
  unfold detect_walk
  match fuel with
  | 0 => rfl
  | 1 => rw [walk, if_neg (by decide), h1]; rfl
  | 2 =>
    rw [walk, if_neg (by decide), h1]
    simp only [hna]
    rw [walk, if_neg (by decide), h2]
    rfl
  | f + 3 =>
    rw [walk, if_neg (by decide), h1]
    simp only [hna]
    rw [walk, if_neg (by decide), h2]
    simp only [hnb]
    rw [walk, if_neg (by decide), h3]
    simp only [hna]
    exact (walk_two_node_cycle f).1

end SoList

namespace VirtualMap

/-! ### The bases of the numeric fields -/

/-- `Scan` on a listing of one well-formed line gives the entry of that
line. -/
theorem Scan_single_line (l : MapsLine) (h : l.WellFormed) :
    Scan (some l.render) = [l.entry] := by
  have hg := getlines_render [l] (fun x hx => by
    rw [List.mem_singleton] at hx
    rw [hx]
    exact h)
  simp only [List.map_cons, List.map_nil, List.flatten_cons, List.flatten_nil,
    List.append_nil] at hg
  unfold Scan
  simp only
  rw [scan_loop_eq_filterMap _ (getlines_ne_nil l.render), hg]
  simp [scan_line_render l h]

/-- C22 (as amended). On every well-formed listing line `sscanf` stores all
seven fields: the start address, the end address and the file offset are read
as hexadecimal numbers, the device major and minor are read as hexadecimal
numbers too, and the inode is read as a decimal number; the entry `Scan`
returns for the line has these values, with `makedev` of the two device
numbers as its device. -/
theorem Scan_field_bases (l : MapsLine) (h : l.WellFormed) :
    (∃ f, sscanf_maps_line l.text = some f ∧
      f.start = digits_value 16 l.start_hex ∧ f.end_ = digits_value 16 l.end_hex ∧
      f.off = digits_value 16 l.off_hex ∧
      f.dev_major = digits_value 16 l.major_hex ∧
      f.dev_minor = digits_value 16 l.minor_hex ∧
      f.inode = digits_value 10 l.inode_dec) ∧
    (∃ info, Scan (some l.render) = [info] ∧
      info.start = digits_value 16 l.start_hex ∧ info.end_ = digits_value 16 l.end_hex ∧
      info.offset = digits_value 16 l.off_hex ∧
      info.dev = makedev (digits_value 16 l.major_hex) (digits_value 16 l.minor_hex) ∧
      info.inode = digits_value 10 l.inode_dec) :=
  ⟨⟨_, sscanf_maps_line_text l h, rfl, rfl, rfl, rfl, rfl, rfl⟩,
   ⟨l.entry, Scan_single_line l h, rfl, rfl, rfl, rfl, rfl⟩⟩

theorem decimal_device_line_well_formed : decimal_device_line.WellFormed := by
  refine ⟨⟨by decide, by decide, by decide⟩, ⟨by decide, by decide, by decide⟩,
    ⟨by decide, by decide⟩, ⟨by decide, by decide, by decide⟩, ⟨by decide, by decide, by decide⟩,
    ⟨by decide, by decide, by decide⟩, ⟨by decide, by decide, by decide⟩, by decide, by decide, ?_⟩
  intro c hc
  cases hc
  decide

/-- The amended C22 on the line of a library mapped from device `fd:01` with
inode 1234567: the device numbers stored are `0xfd` and `1`. -/
theorem Scan_field_bases_witness :
    example_line.WellFormed ∧
    (∃ f, sscanf_maps_line example_line.text = some f ∧
      f.start = digits_value 16 example_line.start_hex ∧
      f.end_ = digits_value 16 example_line.end_hex ∧
      f.off = digits_value 16 example_line.off_hex ∧
      f.dev_major = digits_value 16 example_line.major_hex ∧
      f.dev_minor = digits_value 16 example_line.minor_hex ∧
      f.inode = digits_value 10 example_line.inode_dec) ∧
    digits_value 16 example_line.major_hex = 0xfd ∧
    digits_value 16 example_line.minor_hex = 1 ∧
    digits_value 10 example_line.inode_dec = 1234567 :=
  ⟨example_line_well_formed, (Scan_field_bases example_line example_line_well_formed).1,
   by decide, by decide, by decide⟩

/-- C22 as stated fails on the line
`00400000-00452000 r-xp 00000000 10:11 42    /bin/cat`: read as decimal
numbers the device fields are 10 and 11, but `sscanf` stores 16 and 17, and
the entry of `Scan` has the device `makedev(16, 17)`. -/
theorem device_numbers_read_as_hex :
    decimal_device_line.text
      = "00400000-00452000 r-xp 00000000 10:11 42    /bin/cat".toList ∧
    digits_value 10 decimal_device_line.major_hex = 10 ∧
    digits_value 10 decimal_device_line.minor_hex = 11 ∧
    (sscanf_maps_line decimal_device_line.text).map (fun f => (f.dev_major, f.dev_minor))
      = some (16, 17) ∧
    (Scan (some decimal_device_line.render)).map (fun info => info.dev) = [makedev 16 17] ∧
    makedev 16 17 ≠ makedev 10 11 := by
  refine ⟨by decide, by decide, by decide, ?_, ?_, by decide⟩
  · rw [sscanf_maps_line_text _ decimal_device_line_well_formed]
    decide
  · rw [Scan_single_line _ decimal_device_line_well_formed]
    decide

end VirtualMap

namespace Atexit

/-! ### Recompacting twice -/

/-- After `recompact` every slot below the new size holds a live entry. -/
theorem recompact_all_live (pf : Platform) (s : AtexitArray) :
    ∀ k, k < (recompact pf s).size_ → ((recompact pf s).slots k).fn ≠ 0 := by
  intro k hk
  obtain ⟨h1, _, _, _⟩ := recompact_loops_spec s.slots s.size_
  have hslot : (recompact pf s).slots k
      = (shift_live s.size_ (s.size_ - skip_live s.slots s.size_ s.size_ 0)
          (skip_live s.slots s.size_ s.size_ 0) (skip_live s.slots s.size_ s.size_ 0)
          s.slots).2 k := by
    simp only [recompact] at hk ⊢
    split
    · next hlt => exact madvise_dontneed_below pf _ _ _ k hlt hk
    · rfl
  have hmem : (recompact pf s).slots k ∈ live_entries s.slots s.size_ := by
    rw [hslot, ← h1]
    exact List.mem_map.mpr ⟨k, List.mem_range.mpr hk, rfl⟩
  unfold live_entries at hmem
  have := (List.mem_filter.mp hmem).2
  simpa using this

/-- The first loop of `recompact` runs to the end of a table without empty
slots. -/
theorem skip_live_all_live (m : Nat → AtexitEntry) (size : Nat)
    (h : ∀ k, k < size → (m k).fn ≠ 0) : skip_live m size size 0 = size := by
  obtain ⟨_, hle, _, hstop⟩ := skip_live_spec m size size 0 (by omega) (by omega)
  by_contra hne
  have hlt : skip_live m size size 0 < size := by omega
  exact h _ hlt (hstop hlt)

/-- A table without empty slots below `size_` and with `extracted_count_ = 0`
is left by `recompact` exactly as it is. -/
theorem recompact_fixed (pf : Platform) (t : AtexitArray)
    (hlive : ∀ k, k < t.size_ → (t.slots k).fn ≠ 0) (hex : t.extracted_count_ = 0) :
    recompact pf t = t := by
  have hsrc := skip_live_all_live t.slots t.size_ hlive
  cases t with
  | mk array_ slots size_ extracted_count_ capacity_ total_appends_ =>
    simp only at hsrc hex
    subst hex
    simp only [recompact, hsrc, Nat.sub_self, shift_live, lt_irrefl, if_false]

/-- C23. For every table (whether or not `size_ ≤ capacity_`): after one
`recompact` no empty slot lies below `size_`, and a second `recompact` leaves
the table, that is the array pointer, every slot, `size_`,
`extracted_count_`, `capacity_` and `total_appends_`, exactly as the first
one left it. -/
theorem recompact_idempotent (pf : Platform) (s : AtexitArray) :
    (∀ k, k < (recompact pf s).size_ → ((recompact pf s).slots k).fn ≠ 0) ∧
    recompact pf (recompact pf s) = recompact pf s ∧
    (∀ k, (recompact pf (recompact pf s)).slots k = (recompact pf s).slots k) ∧
    (recompact pf (recompact pf s)).size_ = (recompact pf s).size_ ∧
    (recompact pf (recompact pf s)).extracted_count_ = (recompact pf s).extracted_count_ ∧
    (recompact pf (recompact pf s)).capacity_ = (recompact pf s).capacity_ ∧
    (recompact pf (recompact pf s)).total_appends_ = (recompact pf s).total_appends_ := by
  have hfix : recompact pf (recompact pf s) = recompact pf s :=
    recompact_fixed pf (recompact pf s) (recompact_all_live pf s) rfl
  refine ⟨recompact_all_live pf s, hfix, fun k => ?_, ?_, ?_, ?_, ?_⟩ <;> rw [hfix]

end Atexit
